import Mathlib

/-!
# QtUpdateSystem packager: directory differ, delta assembler and package identity

A shallow embedding of `src/packager.cpp` and `src/common/package.cpp`.

* `QString` values are Lean strings; `QString::compare` orders them by their UTF-16
  code units, as Qt does.
* A `QFileInfo` carries what the packager reads from it: `fileName()`, `filePath()`,
  `isFile()` / `isDir()`, and the listing `QDir(filePath()).entryInfoList(...)` of the
  directory it names.
* Functions that push onto `m_tasks` return the tasks they push, in order.
-/

/-! ## Strings -/

namespace QString

/-- The UTF-16 code units of one character (a surrogate pair above the BMP). -/
def charUnits (c : Char) : List Nat :=
  if c.toNat < 0x10000 then [c.toNat]
  else [0xD800 + (c.toNat - 0x10000) / 0x400, 0xDC00 + (c.toNat - 0x10000) % 0x400]

/-- The UTF-16 code units a `QString` stores. -/
def utf16 (s : String) : List Nat :=
  s.data.flatMap charUnits

/-- Lexical comparison of two code unit sequences: negative, zero or positive. -/
def compareUnits : List Nat → List Nat → Int
  | [], [] => 0
  | [], _ :: _ => -1
  | _ :: _, [] => 1
  | a :: as, b :: bs =>
    if a < b then -1 else if b < a then 1 else compareUnits as bs

/-- Model of `QString::compare(s1, s2)`: case sensitive, by the numeric values of the code units;
only the sign of the result is specified. -/
def compare (s1 s2 : String) : Int :=
  compareUnits (utf16 s1) (utf16 s2)

end QString

namespace QChar

/-- Model of `QChar::isSpace()`: the ASCII white space characters, U+0085, U+00A0 and the
Unicode separators. -/
def isSpace (c : Char) : Bool :=
  (9 ≤ c.toNat && c.toNat ≤ 13) || c.toNat = 0x20 || c.toNat = 0x85 || c.toNat = 0xA0
    || c.toNat = 0x1680 || (0x2000 ≤ c.toNat && c.toNat ≤ 0x200A) || c.toNat = 0x2028
    || c.toNat = 0x2029 || c.toNat = 0x202F || c.toNat = 0x205F || c.toNat = 0x3000

/-- A decimal digit `0` .. `9`. -/
def isDigit (c : Char) : Bool :=
  48 ≤ c.toNat && c.toNat ≤ 57

end QChar

namespace QString

/-- The character of a decimal digit. -/
def digitChar : Nat → Char
  | 0 => '0' | 1 => '1' | 2 => '2' | 3 => '3' | 4 => '4'
  | 5 => '5' | 6 => '6' | 7 => '7' | 8 => '8' | _ => '9'

/-- The decimal digits of `n`, most significant first; `fuel` bounds their number. -/
def decimalDigits : Nat → Nat → List Char
  | 0, _ => []
  | fuel + 1, n =>
    if n < 10 then [digitChar n] else decimalDigits fuel (n / 10) ++ [digitChar (n % 10)]

/-- Model of `QString::number(qlonglong n)` in base 10: the decimal digits of `n`, after
a `-` when `n` is negative. -/
def number (n : Int) : String :=
  if n < 0 then String.mk ('-' :: decimalDigits (n.natAbs + 1) n.natAbs)
  else String.mk (decimalDigits (n.natAbs + 1) n.natAbs)

/-- The value of a decimal digit character. -/
def digitValue (c : Char) : Nat := c.toNat - 48

/-- The value of a sequence of decimal digits. -/
def decimalValue (cs : List Char) : Nat :=
  cs.foldl (fun acc c => acc * 10 + digitValue c) 0

/-- The characters without the white space at both ends. -/
def trimmed (cs : List Char) : List Char :=
  ((cs.dropWhile QChar.isSpace).reverse.dropWhile QChar.isSpace).reverse

/-- The digits after the optional sign: they have to be decimal digits, at least one, and
the signed value has to fit a `qlonglong`. -/
def parseDigits (negative : Bool) (digits : List Char) : Option Int :=
  if digits ≠ [] ∧ digits.all QChar.isDigit then
    if -9223372036854775808
          ≤ (if negative then -(decimalValue digits : Int) else (decimalValue digits : Int))
        ∧ (if negative then -(decimalValue digits : Int) else (decimalValue digits : Int))
          ≤ 9223372036854775807
    then some (if negative then -(decimalValue digits : Int) else (decimalValue digits : Int))
    else none
  else none

/-- Model of `QString::toLongLong(&ok)` in base 10 and the C locale: white space around
the number is ignored, a sign may precede the digits. `none` stands for `ok == false`. -/
def toLongLong (s : String) : Option Int :=
  if (trimmed s.data).head? = some '-' then parseDigits true (trimmed s.data).tail
  else if (trimmed s.data).head? = some '+' then parseDigits false (trimmed s.data).tail
  else parseDigits false (trimmed s.data)

/-- The decimal text of a 64-bit integer, as the specification words it: decimal digits,
an optional sign before them, optional white space around, and a value from
`-9223372036854775808` to `9223372036854775807`. -/
def IsInt64Text (s : String) : Prop :=
  ∃ (leading trailing sign digits : List Char) (n : Int),
    s.data = leading ++ sign ++ digits ++ trailing
      ∧ (∀ c ∈ leading ++ trailing, QChar.isSpace c = true)
      ∧ (sign = [] ∨ sign = ['+'] ∨ sign = ['-'])
      ∧ digits ≠ [] ∧ (∀ c ∈ digits, QChar.isDigit c = true)
      ∧ n = (if sign = ['-'] then -(decimalValue digits : Int) else (decimalValue digits : Int))
      ∧ -9223372036854775808 ≤ n ∧ n ≤ 9223372036854775807

end QString

namespace QString

/-- A piece of a format string: a character, or a place marker with its number and its
source text. -/
inductive ArgToken where
  | text (c : Char)
  | marker (number : Nat) (source : List Char)
  deriving DecidableEq, Repr

/-- Where the scan of a format string stands: in plain text, after a `%` (and an `L`
when `locale` is set), or after that and one digit. -/
inductive ArgState where
  | plain
  | percent (locale : Bool)
  | digit (locale : Bool) (d : Char)

/-- The source text of a place marker with the digits `digits`. -/
def markerSource (locale : Bool) (digits : List Char) : List Char :=
  '%' :: ((if locale then ['L'] else []) ++ digits)

/-- The characters a `%` (and an `L`) that starts no place marker stands for. -/
def percentText (locale : Bool) : List ArgToken :=
  if locale then [ArgToken.text '%', ArgToken.text 'L'] else [ArgToken.text '%']

/-- The place markers of a format string, as `QString::arg` documents them: a `%`, an
optional `L`, and one or two decimal digits (`%1` to `%99`). After a `%` that starts no
place marker the scan goes on with the next character. -/
def argTokens : ArgState → List Char → List ArgToken
  | ArgState.plain, [] => []
  | ArgState.plain, c :: cs =>
    if c = '%' then argTokens (ArgState.percent false) cs
    else ArgToken.text c :: argTokens ArgState.plain cs
  | ArgState.percent locale, [] => percentText locale
  | ArgState.percent locale, c :: cs =>
    if QChar.isDigit c then argTokens (ArgState.digit locale c) cs
    else if c = 'L' && !locale then argTokens (ArgState.percent true) cs
    else if c = '%' then percentText locale ++ argTokens (ArgState.percent false) cs
    else percentText locale ++ ArgToken.text c :: argTokens ArgState.plain cs
  | ArgState.digit locale d, [] => [ArgToken.marker (digitValue d) (markerSource locale [d])]
  | ArgState.digit locale d, c :: cs =>
    if QChar.isDigit c then
      ArgToken.marker (digitValue d * 10 + digitValue c) (markerSource locale [d, c])
        :: argTokens ArgState.plain cs
    else if c = '%' then
      ArgToken.marker (digitValue d) (markerSource locale [d])
        :: argTokens (ArgState.percent false) cs
    else
      ArgToken.marker (digitValue d) (markerSource locale [d]) :: ArgToken.text c
        :: argTokens ArgState.plain cs

/-- The lowest place marker number above `bound` (`none`: there is no such marker). -/
def lowestMarker (bound : Option Nat) : List ArgToken → Option Nat
  | [] => none
  | ArgToken.text _ :: rest => lowestMarker bound rest
  | ArgToken.marker n _ :: rest =>
    if (match bound with
        | some b => decide (b < n)
        | none => true) then
      match lowestMarker bound rest with
      | some m => some (min n m)
      | none => some n
    else lowestMarker bound rest

/-- The format string with place markers replaced, in one pass: the text put in is not
scanned again, and a marker without replacement keeps its source text. -/
def argRender (replacement : Nat → Option (List Char)) : List ArgToken → List Char
  | [] => []
  | ArgToken.text c :: rest => c :: argRender replacement rest
  | ArgToken.marker n source :: rest =>
    (match replacement n with
      | some a => a
      | none => source) ++ argRender replacement rest

/-- Model of `format.arg(a)`: every occurrence of the lowest numbered place marker is
replaced by `a`. -/
def arg (format a : String) : String :=
  match lowestMarker none (argTokens ArgState.plain format.data) with
  | none => format
  | some n =>
    String.mk (argRender (fun k => if k = n then some a.data else none)
      (argTokens ArgState.plain format.data))

/-- Model of `format.arg(a1, a2)`: the lowest numbered place marker is replaced by `a1`
and the next higher one by `a2`, in one pass. -/
def arg2 (format a1 a2 : String) : String :=
  match lowestMarker none (argTokens ArgState.plain format.data) with
  | none => format
  | some n1 =>
    String.mk (argRender
      (fun k =>
        if k = n1 then some a1.data
        else if lowestMarker (some n1) (argTokens ArgState.plain format.data) = some k then
          some a2.data
        else none)
      (argTokens ArgState.plain format.data))

end QString

/-! ## JSON objects -/

/-- A `QJsonValue`, as far as the package object needs it. -/
inductive QJsonValue where
  | Null
  | Bool (b : Bool)
  | Double (d : Int)
  | String (s : String)
  | Undefined
  deriving DecidableEq, Repr

/-- A `QJsonObject`: its members, every key once. -/
structure QJsonObject where
  members : List (String × QJsonValue)
  deriving DecidableEq, Repr

namespace QJsonObject

/-- The object `QJsonObject()` without members. -/
def empty : QJsonObject :=
  { members := [] }

/-- Model of `QJsonObject::insert(key, value)`: a member with the same key is replaced. -/
def insert (o : QJsonObject) (key : String) (value : QJsonValue) : QJsonObject :=
  { members := (key, value) :: o.members.filter (fun e => decide (e.1 ≠ key)) }

/-- Model of `QJsonObject::value(key)`: `Undefined` when there is no such member. -/
def value (o : QJsonObject) (key : String) : QJsonValue :=
  match o.members.find? (fun e => decide (e.1 = key)) with
  | some e => e.2
  | none => QJsonValue.Undefined

end QJsonObject

namespace JsonUtil

/-- Modelled from the spec: `JsonUtil::asString(object, key)` (`jsonutil.h`, not part of
the sources), the low-level helper that reads a member of a JSON object as a string.
`none` stands for the exception it throws when the member is no string. -/
def asString (object : QJsonObject) (key : String) : Option String :=
  match object.value key with
  | QJsonValue.String s => some s
  | _ => none

end JsonUtil

/-! ## File information -/

/-- What `QFileInfo::isFile()` and `QFileInfo::isDir()` report about an entry: a file, a
directory, or neither of the two (also the state of a default-constructed `QFileInfo`). -/
inductive FileKind where
  | file
  | dir
  | neither
  deriving DecidableEq, Repr

/-- A `QFileInfo` together with the listing of the directory it names:
`entryInfoList` is what
`QDir(filePath()).entryInfoList(Files | Dirs | NoDotAndDotDot | Hidden, Name)` returns
(empty for anything that is not a directory). -/
inductive QFileInfo where
  | mk (fileName : String) (filePath : String) (kind : FileKind)
      (entryInfoList : List QFileInfo)

namespace QFileInfo

def fileName : QFileInfo → String
  | mk n _ _ _ => n

def filePath : QFileInfo → String
  | mk _ p _ _ => p

def kind : QFileInfo → FileKind
  | mk _ _ k _ => k

def entryInfoList : QFileInfo → List QFileInfo
  | mk _ _ _ l => l

/-- Model of `QFileInfo::isFile()`. -/
def isFile (f : QFileInfo) : Bool :=
  f.kind = FileKind.file

/-- Model of `QFileInfo::isDir()`. -/
def isDir (f : QFileInfo) : Bool :=
  f.kind = FileKind.dir

/-- The default-constructed `QFileInfo()`, with empty names. -/
def null : QFileInfo :=
  mk "" "" FileKind.neither []

mutual
/-- Number of entries of the tree below and including an entry (termination measure). -/
def weight : QFileInfo → Nat
  | mk _ _ _ l => 1 + weightList l
/-- Number of entries of the trees of a listing (termination measure). -/
def weightList : List QFileInfo → Nat
  | [] => 0
  | x :: xs => weight x + weightList xs
end

end QFileInfo

/-- The type `QFileInfoList`. -/
abbrev QFileInfoList := List QFileInfo

/-! ## Operations and tasks -/

/-- Modelled from the spec: the `Operation` class (`operations/operation.h`, not part of
the sources). It exposes a payload size (`size()`), the name of the file holding its
payload bytes (`dataFilename()`), and an offset assigned by `setOffset`. -/
structure Operation where
  size : Int
  offset : Int
  dataFilename : String
  deriving DecidableEq, Repr

namespace PackagerTask

/-- The enumeration `PackagerTask::Type`. -/
inductive Type_ where
  | Add
  | RemoveFile
  | RemoveDir
  | Patch
  deriving DecidableEq, Repr

end PackagerTask

/-- A `PackagerTask`: the constructor arguments `(operationType, path, oldFilename,
newFilename)`, and the members `generate` reads and writes. A null `errorString` and a
null `operation` pointer are `none`. -/
structure PackagerTask where
  type : PackagerTask.Type_
  path : String
  oldFilename : String
  newFilename : String
  tmpDirectory : String
  errorString : Option String
  operation : Option Operation
  deriving DecidableEq, Repr

namespace PackagerTask

/-- The constructor `PackagerTask(operationType, path, oldFilename, newFilename)`: nothing
has run yet. -/
def new (operationType : Type_) (path oldFilename newFilename : String) : PackagerTask :=
  { type := operationType, path := path, oldFilename := oldFilename,
    newFilename := newFilename, tmpDirectory := "", errorString := none,
    operation := none }

end PackagerTask

namespace Packager

open QFileInfo

/-! ## Directory listing -/

/-- The loop of `dirList`: `i` runs from `list.size() - 1` down to `0` (the argument is
`i + 1`) and every entry whose name is `.git` is removed at its index. -/
def dirListLoop : Nat → QFileInfoList → QFileInfoList
  | 0, list => list
  | i + 1, list =>
    match list.get? i with
    | some f =>
      if f.fileName = ".git" then dirListLoop i (list.eraseIdx i) else dirListLoop i list
    | none => dirListLoop i list

/-- Model of `Packager::dirList(dir)`, applied to the name-sorted `entryInfoList` of `dir`. -/
def dirList (entryInfoList : QFileInfoList) : QFileInfoList :=
  dirListLoop entryInfoList.length entryInfoList

theorem dirListLoop_eq (i : Nat) (list : QFileInfoList) :
    dirListLoop i list =
      (list.take i).filter (fun f => !decide (f.fileName = ".git")) ++ list.drop i := by
  induction i generalizing list with
  | zero => simp [dirListLoop]
  | succ i ih =>
    unfold dirListLoop
    cases h : list.get? i with
    | none =>
      have hlen : list.length ≤ i := by
        rw [List.get?_eq_none] at h
        exact h
      simp only []
      rw [ih, List.take_of_length_le hlen, List.take_of_length_le (by omega),
        List.drop_of_length_le hlen, List.drop_of_length_le (by omega)]
    | some f =>
      have hlt : i < list.length := by
        rcases Nat.lt_or_ge i list.length with h1 | h1
        · exact h1
        · rw [List.get?_eq_none.mpr h1] at h
          cases h
      have hget : list[i] = f := by
        rw [List.get?_eq_get hlt] at h
        simpa using h
      have hsplit : list.take (i + 1) = list.take i ++ [f] := by
        rw [List.take_succ]
        simp [hlt, hget]
      have hdrop : list.drop i = f :: list.drop (i + 1) := by
        rw [← hget]
        exact List.drop_eq_getElem_cons hlt
      simp only []
      by_cases hg : f.fileName = ".git"
      · rw [if_pos hg, ih, hsplit, List.filter_append]
        have h1 : (list.eraseIdx i).take i = list.take i := by
          rw [List.eraseIdx_eq_take_drop_succ]
          rw [List.take_append_of_le_length (by simp; omega)]
          simp [List.take_take]
        have h2 : (list.eraseIdx i).drop i = list.drop (i + 1) := by
          rw [List.eraseIdx_eq_take_drop_succ]
          rw [List.drop_append_of_le_length (by simp; omega)]
          simp [List.drop_take]
        rw [h1, h2]
        simp [hg]
      · rw [if_neg hg, ih, hsplit, List.filter_append, hdrop]
        simp [hg]

/-- The loop of `dirList` removes exactly the entries named `.git` and keeps the others
in their order. -/
theorem dirList_eq_filter (list : QFileInfoList) :
    dirList list = list.filter (fun f => !decide (f.fileName = ".git")) := by
  unfold dirList
  rw [dirListLoop_eq]
  simp

theorem weightList_filter_le (p : QFileInfo → Bool) (l : QFileInfoList) :
    weightList (l.filter p) ≤ weightList l := by
  induction l with
  | nil => simp [weightList]
  | cons x xs ih =>
    by_cases hp : p x = true
    · simp only [List.filter_cons_of_pos hp, weightList]
      omega
    · simp only [List.filter_cons_of_neg hp, weightList]
      omega

theorem weightList_dirList_le (l : QFileInfoList) :
    weightList (dirList l) ≤ weightList l := by
  rw [dirList_eq_filter]
  exact weightList_filter_le _ l

theorem weightList_entryInfoList_lt (f : QFileInfo) :
    weightList f.entryInfoList < weight f := by
  cases f
  simp only [weight, entryInfoList]
  omega

theorem weight_pos (f : QFileInfo) : 0 < weight f := by
  cases f
  simp only [weight]
  omega

/-! ## The tree differ -/

/-- Model of `Packager::addTask(operationType, path, newFilename, oldFilename)`: the task
pushed onto `m_tasks`, built as `PackagerTask(operationType, path, oldFilename,
newFilename)`. Callers that leave the file names out pass empty strings. -/
def addTask (operationType : PackagerTask.Type_) (path : String) (newFilename : String)
    (oldFilename : String) : PackagerTask :=
  PackagerTask.new operationType path oldFilename newFilename

mutual
/-- Model of `Packager::addRemoveDirTask(path, pathInfo)`: the tasks it pushes, in order. -/
def addRemoveDirTask (path : String) (pathInfo : QFileInfo) : List PackagerTask :=
  addRemoveDirTaskLoop path (dirList pathInfo.entryInfoList)
    ++ [addTask PackagerTask.Type_.RemoveDir path "" ""]
termination_by 2 * weight pathInfo
decreasing_by
  have h1 := weightList_dirList_le pathInfo.entryInfoList
  have h2 := weightList_entryInfoList_lt pathInfo
  omega
/-- The `for` loop of `addRemoveDirTask` over `files[pos ..]`. -/
def addRemoveDirTaskLoop (path : String) (files : QFileInfoList) : List PackagerTask :=
  match files with
  | [] => []
  | file :: rest =>
    (if file.isDir then
        addRemoveDirTask (path ++ "/" ++ file.fileName) file
      else
        [addTask PackagerTask.Type_.RemoveFile (path ++ "/" ++ file.fileName) "" ""])
      ++ addRemoveDirTaskLoop path rest
termination_by 2 * weightList files + 1
decreasing_by
  · simp only [weightList]
    omega
  · have h := weight_pos file
    simp only [weightList]
    omega
end

/-- Model of `Packager::compareDirectories(path, newFiles, oldFiles)`: the tasks it
pushes, in order. The two lists are the parts of the listings the cursors have not passed yet,
`newFiles[newPos ..]` and `oldFiles[oldPos ..]`; a call of the C++ function starts with
both cursors at `0`, and one turn of its `while` loop is one unfolding here. -/
def compareDirectories (path : String) (newFiles oldFiles : QFileInfoList) :
    List PackagerTask :=
  match newFiles, oldFiles with
  | [], [] => []
  | newFile :: newRest, [] =>
    -- `oldPos == oldLen`: `diff = -1`
    (if newFile.isFile then
        [addTask PackagerTask.Type_.Add (path ++ newFile.fileName) newFile.filePath ""]
      else if newFile.isDir then
        compareDirectories (path ++ newFile.fileName ++ "/")
          (dirList newFile.entryInfoList) []
      else [])
      ++ compareDirectories path newRest []
  | [], oldFile :: oldRest =>
    -- `newPos == newLen`: `diff = 1`, and `newFile` is still the default `QFileInfo()`
    (if oldFile.isDir then
        addRemoveDirTask (path ++ oldFile.fileName) oldFile
      else
        [addTask PackagerTask.Type_.RemoveFile (path ++ QFileInfo.null.fileName) "" ""])
      ++ compareDirectories path [] oldRest
  | newFile :: newRest, oldFile :: oldRest =>
    if QString.compare newFile.fileName oldFile.fileName < 0 then
      (if newFile.isFile then
          [addTask PackagerTask.Type_.Add (path ++ newFile.fileName) newFile.filePath ""]
        else if newFile.isDir then
          compareDirectories (path ++ newFile.fileName ++ "/")
            (dirList newFile.entryInfoList) []
        else [])
        ++ compareDirectories path newRest (oldFile :: oldRest)
    else if QString.compare newFile.fileName oldFile.fileName > 0 then
      (if oldFile.isDir then
          addRemoveDirTask (path ++ oldFile.fileName) oldFile
        else
          [addTask PackagerTask.Type_.RemoveFile (path ++ newFile.fileName) "" ""])
        ++ compareDirectories path (newFile :: newRest) oldRest
    else
      (if newFile.isFile then
          (if !oldFile.isFile then
            addRemoveDirTask (path ++ oldFile.fileName) oldFile
              ++ [addTask PackagerTask.Type_.Add (path ++ newFile.fileName)
                    newFile.filePath ""]
          else
            [addTask PackagerTask.Type_.Patch (path ++ newFile.fileName)
              newFile.filePath oldFile.filePath])
        else if newFile.isDir then
          (if !oldFile.isDir then
            addTask PackagerTask.Type_.RemoveFile (path ++ newFile.fileName) "" ""
              :: compareDirectories (path ++ newFile.fileName ++ "/")
                  (dirList newFile.entryInfoList) []
          else
            compareDirectories (path ++ newFile.fileName ++ "/")
              (dirList newFile.entryInfoList) (dirList oldFile.entryInfoList))
        else [])
        ++ compareDirectories path newRest oldRest
termination_by weightList newFiles + weightList oldFiles
decreasing_by
  all_goals simp only [weightList]
  all_goals try have hn1 := weightList_dirList_le newFile.entryInfoList
  all_goals try have hn2 := weightList_entryInfoList_lt newFile
  all_goals try have hn3 := weight_pos newFile
  all_goals try have ho1 := weightList_dirList_le oldFile.entryInfoList
  all_goals try have ho2 := weightList_entryInfoList_lt oldFile
  all_goals try have ho3 := weight_pos oldFile
  all_goals omega

end Packager

/-! ## The delta assembler -/

/-- The value a `qint64` holds after an arithmetic result `x` (two's complement). -/
def wrapInt64 (x : Int) : Int :=
  (x + 2 ^ 63) % 2 ^ 64 - 2 ^ 63

/-- The class `Package` (`common/package.h`): the members `to`, `from` and `size` (the
first two are written `to_` and `from_` here). -/
structure Package where
  to_ : String
  from_ : String
  size : Int
  deriving DecidableEq, Repr

namespace Package

/-- The constructor `Package::Package()`. -/
def empty : Package :=
  { to_ := "", from_ := "", size := -1 }

/-- The constructor `Package::Package(to, from, size)`. -/
def new (to_ from_ : String) (size : Int) : Package :=
  { to_ := to_, from_ := from_, size := size }

end Package

/-- How `fromJsonObjectV1` ends when it fails: `JsonUtil::asString` threw for the member
`key`, or `fromJsonObjectV1` itself threw `reason`. -/
inductive DecodeFailure where
  | asString (key : String)
  | thrown (reason : String)
  deriving DecidableEq, Repr

namespace Package

/-- Model of `Package::fromJsonObjectV1(packageObject)`: the package it fills in, or the
exception it ends with. -/
def fromJsonObjectV1 (packageObject : QJsonObject) : Except DecodeFailure Package :=
  match JsonUtil.asString packageObject "from" with
  | none => Except.error (DecodeFailure.asString "from")
  | some from_ =>
    match JsonUtil.asString packageObject "to" with
    | none => Except.error (DecodeFailure.asString "to")
    | some to_ =>
      match JsonUtil.asString packageObject "size" with
      | none => Except.error (DecodeFailure.asString "size")
      | some size =>
        match QString.toLongLong size with
        | none => Except.error (DecodeFailure.thrown "package 'size' is not a qint64 string")
        | some size => Except.ok { to_ := to_, from_ := from_, size := size }

/-- Model of `Package::toJsonObjectV1()`. -/
def toJsonObjectV1 (p : Package) : QJsonObject :=
  ((QJsonObject.empty.insert "from" (QJsonValue.String p.from_)).insert "to"
    (QJsonValue.String p.to_)).insert "size" (QJsonValue.String (QString.number p.size))

/-- Model of `Package::url()`. -/
def url (p : Package) : String :=
  if p.from_.isEmpty then QString.arg "complete_%1" p.to_
  else QString.arg2 "patch%1_%2" p.from_ p.to_

/-- A package object with the members `from`, `to` and `size`, all strings. -/
def objectWithSize (from_ to_ size : String) : QJsonObject :=
  ((QJsonObject.empty.insert "from" (QJsonValue.String from_)).insert "to"
    (QJsonValue.String to_)).insert "size" (QJsonValue.String size)

end Package

/-- Modelled from the spec: the `PackageMetadata` class (not part of the sources), an
ordered sequence of operations plus one package identity. -/
structure PackageMetadata where
  operations : List Operation
  package : Package
  deriving DecidableEq, Repr

namespace PackageMetadata

/-- A default-constructed `PackageMetadata`. -/
def empty : PackageMetadata :=
  { operations := [], package := Package.empty }

/-- Model of `PackageMetadata::addOperation`. -/
def addOperation (m : PackageMetadata) (operation : Operation) : PackageMetadata :=
  { m with operations := m.operations ++ [operation] }

/-- Model of `PackageMetadata::setPackage`. -/
def setPackage (m : PackageMetadata) (package : Package) : PackageMetadata :=
  { m with package := package }

end PackageMetadata

/-- A payload file as `generate` reads it: its bytes, and the byte position from which
on the device reports a read error (`none`: it never does). -/
structure QFile where
  data : List Nat
  readError : Option Nat

namespace QFile

/-- Model of `QFile::read(buffer, maxSize)` with the file position at `pos`: the returned count
(`-1` on error, `0` at the end of the file) and the bytes placed in the buffer. -/
def read (f : QFile) (pos maxSize : Nat) : Int × List Nat :=
  match f.readError with
  | some k =>
    if k ≤ pos then (-1, [])
    else (((((f.data.take k).drop pos).take maxSize).length : Nat),
      ((f.data.take k).drop pos).take maxSize)
  | none => ((((f.data.drop pos).take maxSize).length : Nat), (f.data.drop pos).take maxSize)

/-- The bytes successive reads deliver before the first result that is not positive: all
bytes of the file, or those before the position of the read error. -/
def delivered (f : QFile) : List Nat :=
  match f.readError with
  | some k => f.data.take k
  | none => f.data

end QFile

/-- The delta file opened for writing: its name, the bytes written so far, the number of
bytes the device accepts (`none`: no limit), and whether `flush()` succeeds. -/
structure DeltaFile where
  fileName : String
  bytes : List Nat
  capacity : Option Nat
  flushOk : Bool

namespace DeltaFile

/-- Model of `QFile::write(buffer, len)`: the returned count (`-1` when the device refuses the
bytes) and the file afterwards. -/
def write (d : DeltaFile) (buffer : List Nat) : Int × DeltaFile :=
  match d.capacity with
  | some c =>
    if d.bytes.length + buffer.length ≤ c then
      ((buffer.length : Nat), { d with bytes := d.bytes ++ buffer })
    else (-1, d)
  | none => ((buffer.length : Nat), { d with bytes := d.bytes ++ buffer })

end DeltaFile

/-- How `generate` ends when it does not run to completion: a thrown reason, caught and
logged at the end of `generate`, or the dereference of a null `operation` pointer. -/
inductive Failure where
  | thrown (reason : String)
  | nullOperation
  deriving DecidableEq, Repr

namespace Packager

/-- The value of `sizeof(buffer)` for `char buffer[8096]`. -/
def bufferSize : Nat := 8096

theorem read_pos_of_pos (f : QFile) (pos maxSize : Nat) (h : (f.read pos maxSize).1 > 0) :
    0 < (f.read pos maxSize).2.length ∧ pos + (f.read pos maxSize).2.length ≤ f.data.length := by
  unfold QFile.read at h ⊢
  cases hr : f.readError with
  | none =>
    simp only [hr] at h ⊢
    simp only [List.length_take, List.length_drop] at h ⊢
    omega
  | some k =>
    simp only [hr] at h ⊢
    by_cases hk : k ≤ pos
    · simp [hk] at h
    · simp only [hk, if_false] at h ⊢
      simp only [List.length_take, List.length_drop] at h ⊢
      omega

/-- The copy loop `while((read = operationFile.read(buffer, sizeof(buffer))) > 0)` with the
payload file at position `pos`: every chunk read is written to the delta file. -/
def copyLoop (operationFile : QFile) (pos : Nat) (deltaFile : DeltaFile) :
    Except Failure DeltaFile :=
  if _h : (operationFile.read pos bufferSize).1 > 0 then
    if (deltaFile.write (operationFile.read pos bufferSize).2).1
        ≠ (operationFile.read pos bufferSize).1 then
      Except.error (Failure.thrown ("Unable to write " ++ deltaFile.fileName))
    else
      copyLoop operationFile (pos + (operationFile.read pos bufferSize).2.length)
        (deltaFile.write (operationFile.read pos bufferSize).2).2
  else
    Except.ok deltaFile
termination_by operationFile.data.length - pos
decreasing_by
  have h1 := read_pos_of_pos operationFile pos bufferSize (by assumption)
  omega

/-- The local variables of the assembly block of `generate`. -/
structure AssemblyState where
  totalSize : Int
  deltaFile : DeltaFile
  metadata : PackageMetadata

/-- The `for` loop of the assembly block of `generate` (lines 104-127) over the tasks
`m_tasks[i ..]`; `files` maps a file name to the file opening it yields (`none`: it
cannot be opened). -/
def assembleLoop (files : String → Option QFile) :
    List PackagerTask → AssemblyState → Except Failure AssemblyState
  | [], st => Except.ok st
  | task :: rest, st =>
    match task.errorString with
    | some errorString => Except.error (Failure.thrown errorString)
    | none =>
      match task.operation with
      | none => Except.error Failure.nullOperation
      | some operation =>
        if operation.size > 0 then
          match files operation.dataFilename with
          | none =>
            Except.error (Failure.thrown ("Unable to open " ++ operation.dataFilename))
          | some operationFile =>
            match copyLoop operationFile 0 st.deltaFile with
            | Except.error e => Except.error e
            | Except.ok deltaFile =>
              assembleLoop files rest
                { totalSize := wrapInt64 (st.totalSize + operation.size),
                  deltaFile := deltaFile,
                  metadata :=
                    st.metadata.addOperation { operation with offset := st.totalSize } }
        else
          assembleLoop files rest
            { st with metadata := st.metadata.addOperation operation }

/-- The last two steps of `generate` (lines 97-141), run on the executed task list: the
final delta file is assembled, and the metadata document is written. The result is the
delta file and the metadata written to the metadata file; a failure leaves no metadata
document. -/
def generateFinal (files : String → Option QFile) (m_tasks : List PackagerTask)
    (deltaFile : DeltaFile) (newRevisionName oldRevisionName : String) :
    Except Failure (DeltaFile × PackageMetadata) :=
  match assembleLoop files m_tasks
      { totalSize := 0, deltaFile := deltaFile, metadata := PackageMetadata.empty } with
  | Except.error e => Except.error e
  | Except.ok st =>
    if !st.deltaFile.flushOk then
      Except.error (Failure.thrown ("Unable to flush " ++ st.deltaFile.fileName))
    else
      Except.ok (st.deltaFile,
        st.metadata.setPackage (Package.new newRevisionName oldRevisionName st.totalSize))

/-! ## The packaging run -/

/-- Modelled from the spec: the configuration of the packager, read through the accessors
of `packager.h` (not part of the sources). `oldDirectoryPath` is `none` for a null
`QString`; a null string and the string `""` are both empty, only the first is null. -/
structure Configuration where
  newDirectoryPath : String
  oldDirectoryPath : Option String
  newRevisionName : String
  oldRevisionName : String
  deltaFilename : String
  deltaMetaDataFilename : String
  tmpDirectoryPath : String

/-- The surroundings of a run of `generate`: the name-sorted listing of every directory
(`none`: there is no such directory, `.` is the working directory), the content of every
file (`none`: there is no such file), whether a file can be opened for writing, what
`PackagerTask::run()` leaves of a task, the payload files as the assembly finds them,
the device of the delta file, and the bytes of a metadata document. -/
structure Environment where
  directories : String → Option QFileInfoList
  files : String → Option (List Nat)
  openForWriting : String → Bool
  run : PackagerTask → PackagerTask
  payloadFiles : String → Option QFile
  deltaCapacity : Option Nat
  deltaFlushOk : Bool
  toJson : PackageMetadata → List Nat

/-- A `QDir`: the path of the directory it stands for. -/
structure QDir where
  path : String
  deriving DecidableEq, Repr

namespace QDir

/-- Model of the constructor `QDir(path)`: an empty path stands for the working
directory `.`. -/
def new (path : String) : QDir :=
  { path := if path.isEmpty then "." else path }

/-- Model of `QDir::exists()`. -/
def exists_ (env : Environment) (dir : QDir) : Bool :=
  (env.directories dir.path).isSome

/-- Model of `QDir::entryInfoList(filters, QDir::Name)`: the listing of the directory,
empty when there is no such directory. -/
def entryInfoList (env : Environment) (dir : QDir) : QFileInfoList :=
  (env.directories dir.path).getD []

end QDir

/-- The files after `name` has been written with `content`. -/
def writeFile (files : String → Option (List Nat)) (name : String) (content : List Nat) :
    String → Option (List Nat) :=
  fun other => if other = name then some content else files other

/-- What a run of `generate` leaves: how it ended (the delta file and the metadata
document written, or the failure), the member `m_tasks`, the tasks `run()` was called
for, in call order, and the files. -/
structure GenerateResult where
  result : Except Failure (DeltaFile × PackageMetadata)
  m_tasks : List PackagerTask
  ran : List PackagerTask
  files : String → Option (List Nat)

/-- The configuration check of `generate` (lines 44-68): the reason thrown, if any, and
the files afterwards. The output files are created when they are opened. -/
def checkConfiguration (env : Environment) (cfg : Configuration) :
    Option String × (String → Option (List Nat)) :=
  if cfg.newDirectoryPath.isEmpty then
    (some "New directory path is empty", env.files)
  else if cfg.newRevisionName.isEmpty then
    (some "New revision name is empty", env.files)
  else if !QDir.exists_ env (QDir.new (cfg.oldDirectoryPath.getD ""))
      && !(cfg.oldDirectoryPath.getD "").isEmpty then
    (some "Old directory doesn't exists", env.files)
  else if !QDir.exists_ env (QDir.new cfg.newDirectoryPath) then
    (some "New directory doesn't exists", env.files)
  else if (env.files cfg.deltaFilename).isSome then
    (some "Delta file already exists", env.files)
  else if !env.openForWriting cfg.deltaFilename then
    (some "Unable to create new delta file", env.files)
  else if (writeFile env.files cfg.deltaFilename [] cfg.deltaMetaDataFilename).isSome then
    (some "Delta metadata file already exists", writeFile env.files cfg.deltaFilename [])
  else if !env.openForWriting cfg.deltaMetaDataFilename then
    (some "Unable to create new delta metadata file",
      writeFile env.files cfg.deltaFilename [])
  else
    (none, writeFile (writeFile env.files cfg.deltaFilename []) cfg.deltaMetaDataFilename [])

/-- The tasks of the comparison step of `generate` (lines 73-78): `m_tasks` is cleared,
and the listing of the new directory is compared with the listing of the old directory,
or with an empty listing when the old directory path is null. -/
def generateTasks (env : Environment) (cfg : Configuration) : List PackagerTask :=
  compareDirectories ""
    (dirList (QDir.entryInfoList env (QDir.new cfg.newDirectoryPath)))
    (if cfg.oldDirectoryPath.isNone then []
      else dirList (QDir.entryInfoList env (QDir.new (cfg.oldDirectoryPath.getD ""))))

/-- Model of `Packager::generate()`, started with the member `m_tasks`. Every task gets
the temporary directory and is run, one task after the other in list order (a task
works on its own data only); then the delta file is assembled and the metadata document
is written. After a failure of the assembly `files` holds the files as the
configuration check left them: the bytes the delta file got before the failure are left
out. -/
def generate (env : Environment) (cfg : Configuration) (m_tasks : List PackagerTask) :
    GenerateResult :=
  match checkConfiguration env cfg with
  | (some reason, files) =>
    { result := Except.error (Failure.thrown reason), m_tasks := m_tasks, ran := [],
      files := files }
  | (none, files) =>
    match generateFinal env.payloadFiles
        (((generateTasks env cfg).map
          (fun task => { task with tmpDirectory := cfg.tmpDirectoryPath })).map env.run)
        { fileName := cfg.deltaFilename, bytes := [], capacity := env.deltaCapacity,
          flushOk := env.deltaFlushOk }
        cfg.newRevisionName cfg.oldRevisionName with
    | Except.error e =>
      { result := Except.error e,
        m_tasks := ((generateTasks env cfg).map
          (fun task => { task with tmpDirectory := cfg.tmpDirectoryPath })).map env.run,
        ran := (generateTasks env cfg).map
          (fun task => { task with tmpDirectory := cfg.tmpDirectoryPath }),
        files := files }
    | Except.ok (deltaFile, metadata) =>
      { result := Except.ok (deltaFile, metadata),
        m_tasks := ((generateTasks env cfg).map
          (fun task => { task with tmpDirectory := cfg.tmpDirectoryPath })).map env.run,
        ran := (generateTasks env cfg).map
          (fun task => { task with tmpDirectory := cfg.tmpDirectoryPath }),
        files := writeFile (writeFile files cfg.deltaFilename deltaFile.bytes)
          cfg.deltaMetaDataFilename (env.toJson metadata) }

/-- The reasons the configuration check of `generate` throws. -/
def configurationErrors : List String :=
  [ "New directory path is empty", "New revision name is empty",
    "Old directory doesn't exists", "New directory doesn't exists",
    "Delta file already exists", "Unable to create new delta file",
    "Delta metadata file already exists", "Unable to create new delta metadata file" ]

/-! ## The assembled delta, as the specification words it -/

/-- The operations of the tasks, in discovery order. -/
def operationsOf (tasks : List PackagerTask) : List Operation :=
  tasks.filterMap (fun t => t.operation)

/-- The sum of the sizes of the operations with positive size. -/
def positiveSizeSum (ops : List Operation) : Int :=
  ((ops.filter (fun op => decide (op.size > 0))).map (fun op => op.size)).sum

/-- The bytes the copy loop gets for an operation: what the reads of its data file
deliver (nothing when the file cannot be opened). -/
def deliveredOf (files : String → Option QFile) (op : Operation) : List Nat :=
  match files op.dataFilename with
  | some f => f.delivered
  | none => []

/-- The payload of an operation: the bytes of its data file (none when the file cannot
be opened). -/
def payloadOf (files : String → Option QFile) (op : Operation) : List Nat :=
  match files op.dataFilename with
  | some f => f.data
  | none => []

/-- Nothing can fail while the tasks are assembled: no task carries an error, every task
has its operation, and the payload file of every operation with positive size opens. -/
def Assemblable (files : String → Option QFile) (tasks : List PackagerTask) : Prop :=
  ∀ t ∈ tasks, t.errorString = none ∧
    ∃ op, t.operation = some op ∧ (0 < op.size → ∃ f, files op.dataFilename = some f)

/-- Offsets as running totals: an operation with positive size gets the total so far,
which then grows by its size; any other operation is left unchanged. -/
def assignOffsets (total : Int) : List Operation → List Operation
  | [] => []
  | op :: rest =>
    if op.size > 0 then { op with offset := total } :: assignOffsets (total + op.size) rest
    else op :: assignOffsets total rest

/-! ## The removal of a subtree, as the specification words it -/

/-- A logical path lies beneath the directory with logical path `dir`. -/
def IsBeneath (dir path : String) : Prop :=
  ∃ rest : String, path = dir ++ "/" ++ rest

mutual
/-- Relative paths of the entries beneath a directory that are not directories, depth
first in listing order; entries named `.git` are no part of a listing. -/
def filesBeneath : QFileInfo → List String
  | QFileInfo.mk _ _ _ l => filesBeneathList l
/-- The same for the entries of a listing. -/
def filesBeneathList : List QFileInfo → List String
  | [] => []
  | c :: cs =>
    (if c.fileName = ".git" then []
      else if c.isDir then (filesBeneath c).map (fun r => c.fileName ++ "/" ++ r)
      else [c.fileName]) ++ filesBeneathList cs
end

mutual
/-- Relative paths of the directories beneath a directory, every directory after the
directories it contains (post-order). -/
def dirsBeneath : QFileInfo → List String
  | QFileInfo.mk _ _ _ l => dirsBeneathList l
/-- The same for the entries of a listing. -/
def dirsBeneathList : List QFileInfo → List String
  | [] => []
  | c :: cs =>
    (if c.fileName = ".git" then []
      else if c.isDir then
        (dirsBeneath c).map (fun r => c.fileName ++ "/" ++ r) ++ [c.fileName]
      else []) ++ dirsBeneathList cs
end

mutual
/-- File names as a file system has them: no name contains `/`, and the names of one
directory are pairwise different, at every depth. -/
def wellNamed : QFileInfo → Bool
  | QFileInfo.mk _ _ _ l => wellNamedList l
/-- The same for the entries of a listing. -/
def wellNamedList : List QFileInfo → Bool
  | [] => true
  | c :: cs =>
    decide ('/' ∉ c.fileName.data) && cs.all (fun c' => decide (c'.fileName ≠ c.fileName))
      && wellNamed c && wellNamedList cs
end

mutual
/-- Relative path and `filePath()` of every file (`isFile()`) beneath a directory, depth
first in listing order; entries named `.git` are no part of a listing. -/
def addedFiles : QFileInfo → List (String × String)
  | QFileInfo.mk _ _ _ l => addedFilesList l
/-- The same for the entries of a listing. -/
def addedFilesList : List QFileInfo → List (String × String)
  | [] => []
  | c :: cs =>
    (if c.fileName = ".git" then []
      else if c.isFile then [(c.fileName, c.filePath)]
      else if c.isDir then (addedFiles c).map (fun e => (c.fileName ++ "/" ++ e.1, e.2))
      else []) ++ addedFilesList cs
end

/-- The order the removal tasks have to keep between an earlier task `t` and a later
task `u`: after the `RemoveDir` of a directory no task of an entry beneath it follows. -/
def RemovalOrdered (t u : PackagerTask) : Prop :=
  t.type = PackagerTask.Type_.RemoveDir → ¬ IsBeneath t.path u.path

/-- A path is in the region of `q` when it is `q` itself or lies beneath `q`. -/
def InRegion (q path : String) : Prop :=
  path = q ∨ IsBeneath q path

/-! ## The tasks of a comparison, as the specification words them -/

/-- The logical paths of the `Add` and `Patch` tasks, in task order. -/
def addPatchPaths (tasks : List PackagerTask) : List String :=
  (tasks.filter (fun t => decide (t.type = PackagerTask.Type_.Add
    ∨ t.type = PackagerTask.Type_.Patch))).map (fun t => t.path)

mutual
/-- The tree of an entry without the entries named `.git`, at every depth. -/
def prune : QFileInfo → QFileInfo
  | QFileInfo.mk n p k l => QFileInfo.mk n p k (pruneList l)
/-- The trees of a listing without the entries named `.git`, at every depth. -/
def pruneList : List QFileInfo → List QFileInfo
  | [] => []
  | c :: cs => if c.fileName = ".git" then pruneList cs else prune c :: pruneList cs
end

mutual
/-- No entry beneath this entry is named `.git`. -/
def gitFree : QFileInfo → Bool
  | QFileInfo.mk _ _ _ l => gitFreeList l
/-- No entry of the listing, at any depth, is named `.git`. -/
def gitFreeList : List QFileInfo → Bool
  | [] => true
  | c :: cs => decide (c.fileName ≠ ".git") && gitFree c && gitFreeList cs
end

/-- The relation between a task and the entry of the metadata at its position: the entry
is the operation of the task, with its offset set when it has a payload and unchanged
when it has none. -/
def KeepsOperation (task : PackagerTask) (recorded : Operation) : Prop :=
  ∃ op, task.operation = some op ∧ recorded.size = op.size
    ∧ recorded.dataFilename = op.dataFilename ∧ (op.size ≤ 0 → recorded = op)

/-! ## Scenarios -/

namespace Scenario

/-- Old tree `{a.txt, dir/b.txt}`. -/
def oldTree : QFileInfoList :=
  [ QFileInfo.mk "a.txt" "old/a.txt" FileKind.file [],
    QFileInfo.mk "dir" "old/dir" FileKind.dir
      [QFileInfo.mk "b.txt" "old/dir/b.txt" FileKind.file []] ]

/-- New tree `{a.txt, dir/c.txt, d.txt}`, listed by name: `d.txt` sorts before `dir`. -/
def newTree : QFileInfoList :=
  [ QFileInfo.mk "a.txt" "new/a.txt" FileKind.file [],
    QFileInfo.mk "d.txt" "new/d.txt" FileKind.file [],
    QFileInfo.mk "dir" "new/dir" FileKind.dir
      [QFileInfo.mk "c.txt" "new/dir/c.txt" FileKind.file []] ]

/-- The directory `dir` of the old tree `{dir/x.txt, dir/y.txt}`. -/
def removedDir : QFileInfo :=
  QFileInfo.mk "dir" "old/dir" FileKind.dir
    [ QFileInfo.mk "x.txt" "old/dir/x.txt" FileKind.file [],
      QFileInfo.mk "y.txt" "old/dir/y.txt" FileKind.file [] ]

/-- A listing with the single file `b.txt` (old side). -/
def onlyB : QFileInfoList :=
  [QFileInfo.mk "b.txt" "old/b.txt" FileKind.file []]

/-- A listing with the single file `c.txt` (new side). -/
def onlyC : QFileInfoList :=
  [QFileInfo.mk "c.txt" "new/c.txt" FileKind.file []]

/-- New listing: the directory `lib` holding the file `x.so`. -/
def newLib : QFileInfoList :=
  [QFileInfo.mk "lib" "new/lib" FileKind.dir
    [QFileInfo.mk "x.so" "new/lib/x.so" FileKind.file []]]

/-- Old listing: the single file `a.txt`. -/
def oldA : QFileInfoList :=
  [QFileInfo.mk "a.txt" "old/a.txt" FileKind.file []]

/-- New listing: the single file `main.cpp`. -/
def newMain : QFileInfoList :=
  [QFileInfo.mk "main.cpp" "new/main.cpp" FileKind.file []]

/-- Old listing: the files `README` and `main.cpp` (`R` sorts before `m`). -/
def oldReadmeMain : QFileInfoList :=
  [ QFileInfo.mk "README" "old/README" FileKind.file [],
    QFileInfo.mk "main.cpp" "old/main.cpp" FileKind.file [] ]

/-- The file `a.txt`, the same on both sides. -/
def fileA : QFileInfo :=
  QFileInfo.mk "a.txt" "new/a.txt" FileKind.file []

/-- New side: the directory `data` holding the file `f.txt`. -/
def newDataDir : QFileInfo :=
  QFileInfo.mk "data" "new/data" FileKind.dir
    [QFileInfo.mk "f.txt" "new/data/f.txt" FileKind.file []]

/-- Old side: the file `data`. -/
def oldDataFile : QFileInfo :=
  QFileInfo.mk "data" "old/data" FileKind.file []

/-- New side: the file `item`. -/
def newItemFile : QFileInfo :=
  QFileInfo.mk "item" "new/item" FileKind.file []

/-- Old side: the directory `item` holding the file `g.txt`. -/
def oldItemDir : QFileInfo :=
  QFileInfo.mk "item" "old/item" FileKind.dir
    [QFileInfo.mk "g.txt" "old/item/g.txt" FileKind.file []]

/-- An executed `Add` task whose operation has a payload of three bytes. -/
def taskAdd : PackagerTask :=
  { PackagerTask.new PackagerTask.Type_.Add "a.bin" "" "new/a.bin" with
    operation := some { size := 3, offset := 0, dataFilename := "tmp/add" } }

/-- An executed `RemoveFile` task: its operation has no payload. -/
def taskRemove : PackagerTask :=
  { PackagerTask.new PackagerTask.Type_.RemoveFile "old.txt" "" "" with
    operation := some { size := 0, offset := 0, dataFilename := "" } }

/-- An executed `Patch` task whose operation has a payload of two bytes. -/
def taskPatch : PackagerTask :=
  { PackagerTask.new PackagerTask.Type_.Patch "b.bin" "old/b.bin" "new/b.bin" with
    operation := some { size := 2, offset := 0, dataFilename := "tmp/patch" } }

/-- A `Patch` task whose execution failed. -/
def taskFailed : PackagerTask :=
  { PackagerTask.new PackagerTask.Type_.Patch "c.bin" "old/c.bin" "new/c.bin" with
    errorString := some "patch failed" }

/-- An `Add` task whose execution failed, with another reason. -/
def taskFailedLater : PackagerTask :=
  { PackagerTask.new PackagerTask.Type_.Add "z.bin" "" "new/z.bin" with
    errorString := some "add failed" }

/-- An executed task list without errors. -/
def executed : List PackagerTask :=
  [taskAdd, taskRemove, taskPatch]

/-- The payload files of `taskAdd` and `taskPatch`. -/
def payloadFiles (name : String) : Option QFile :=
  if name = "tmp/add" then some { data := [1, 2, 3], readError := none }
  else if name = "tmp/patch" then some { data := [4, 5], readError := none }
  else none

/-- A file system on which no payload file can be opened. -/
def noFiles (_name : String) : Option QFile :=
  none

/-- The delta file right after its creation. -/
def freshDelta : DeltaFile :=
  { fileName := "out.delta", bytes := [], capacity := none, flushOk := true }

/-- Surroundings in which the new directory `/srv/new` holds the one file `a.txt` and
the working directory `.`, a directory other than `/srv` and `/srv/new`, holds one file
`a.txt` and nothing else; the output files do not exist, every file can be created, and
running a task leaves an operation without payload. -/
def workingDirectoryEnv : Environment :=
  { directories := fun path =>
      if path = "/srv/new" then some [QFileInfo.mk "a.txt" "/srv/new/a.txt" FileKind.file []]
      else if path = "." then some [QFileInfo.mk "a.txt" "./a.txt" FileKind.file []]
      else none,
    files := fun _ => none,
    openForWriting := fun _ => true,
    run := fun task =>
      { task with operation := some { size := 0, offset := 0, dataFilename := "" } },
    payloadFiles := noFiles,
    deltaCapacity := none,
    deltaFlushOk := true,
    toJson := fun _ => [] }

/-- A configuration whose old directory path is the empty string (not null); the output
files and the temporary directory lie outside the working directory. -/
def emptyOldPath : Configuration :=
  { newDirectoryPath := "/srv/new", oldDirectoryPath := some "", newRevisionName := "2.0",
    oldRevisionName := "", deltaFilename := "/srv/out.delta",
    deltaMetaDataFilename := "/srv/out.json", tmpDirectoryPath := "/tmp" }

/-- The same configuration with a null old directory path. -/
def nullOldPath : Configuration :=
  { emptyOldPath with oldDirectoryPath := none }

/-- The same surroundings, in which the metadata file `/srv/out.json` exists already. -/
def metadataExistsEnv : Environment :=
  { workingDirectoryEnv with
    files := fun name => if name = "/srv/out.json" then some [7, 7] else none }

/-- A payload file of four bytes whose device reports a read error after two bytes. -/
def brokenFile : QFile :=
  { data := [1, 2, 3, 4], readError := some 2 }

/-- A file system on which the payload file `tmp/broken` opens as `brokenFile`. -/
def brokenFiles (name : String) : Option QFile :=
  if name = "tmp/broken" then some brokenFile else none

/-- An executed `Add` task whose operation has a payload of four bytes in
`tmp/broken`. -/
def taskBroken : PackagerTask :=
  { PackagerTask.new PackagerTask.Type_.Add "b.bin" "" "new/b.bin" with
    operation := some { size := 4, offset := 0, dataFilename := "tmp/broken" } }

end Scenario

end Packager

/-! # Theorems -/

namespace Packager

open QFileInfo PackagerTask

/-! ## Unfolding the differ -/

theorem addRemoveDirTask_eq (path : String) (pathInfo : QFileInfo) :
    addRemoveDirTask path pathInfo =
      addRemoveDirTaskLoop path (dirList pathInfo.entryInfoList)
        ++ [addTask Type_.RemoveDir path "" ""] := by
  rw [addRemoveDirTask]

theorem addRemoveDirTaskLoop_nil (path : String) : addRemoveDirTaskLoop path [] = [] := by
  rw [addRemoveDirTaskLoop]

theorem addRemoveDirTaskLoop_cons (path : String) (file : QFileInfo) (rest : QFileInfoList) :
    addRemoveDirTaskLoop path (file :: rest) =
      (if file.isDir then addRemoveDirTask (path ++ "/" ++ file.fileName) file
        else [addTask Type_.RemoveFile (path ++ "/" ++ file.fileName) "" ""])
        ++ addRemoveDirTaskLoop path rest := by
  rw [addRemoveDirTaskLoop]

/-- The loop over a listing filtered by `dirList`, stated on the unfiltered listing. -/
theorem addRemoveDirTaskLoop_filter_cons (path : String) (c : QFileInfo)
    (cs : QFileInfoList) :
    addRemoveDirTaskLoop path ((c :: cs).filter (fun f => !decide (f.fileName = ".git"))) =
      (if c.fileName = ".git" then []
        else if c.isDir then addRemoveDirTask (path ++ "/" ++ c.fileName) c
        else [addTask Type_.RemoveFile (path ++ "/" ++ c.fileName) "" ""])
        ++ addRemoveDirTaskLoop path
            (cs.filter (fun f => !decide (f.fileName = ".git"))) := by
  by_cases hg : c.fileName = ".git"
  · simp [hg]
  · rw [List.filter_cons_of_pos (by simp [hg]), addRemoveDirTaskLoop_cons]
    simp [hg]

theorem compareDirectories_nil_nil (path : String) : compareDirectories path [] [] = [] := by
  rw [compareDirectories]

theorem compareDirectories_cons_nil (path : String) (newFile : QFileInfo)
    (newRest : QFileInfoList) :
    compareDirectories path (newFile :: newRest) [] =
      (if newFile.isFile then
          [addTask Type_.Add (path ++ newFile.fileName) newFile.filePath ""]
        else if newFile.isDir then
          compareDirectories (path ++ newFile.fileName ++ "/")
            (dirList newFile.entryInfoList) []
        else [])
        ++ compareDirectories path newRest [] := by
  rw [compareDirectories]

theorem compareDirectories_nil_cons (path : String) (oldFile : QFileInfo)
    (oldRest : QFileInfoList) :
    compareDirectories path [] (oldFile :: oldRest) =
      (if oldFile.isDir then addRemoveDirTask (path ++ oldFile.fileName) oldFile
        else [addTask Type_.RemoveFile (path ++ QFileInfo.null.fileName) "" ""])
        ++ compareDirectories path [] oldRest := by
  rw [compareDirectories]

theorem compareDirectories_cons_cons_gt (path : String) (newFile oldFile : QFileInfo)
    (newRest oldRest : QFileInfoList)
    (h : QString.compare newFile.fileName oldFile.fileName > 0) :
    compareDirectories path (newFile :: newRest) (oldFile :: oldRest) =
      (if oldFile.isDir then addRemoveDirTask (path ++ oldFile.fileName) oldFile
        else [addTask Type_.RemoveFile (path ++ newFile.fileName) "" ""])
        ++ compareDirectories path (newFile :: newRest) oldRest := by
  rw [compareDirectories]
  have h' : ¬ QString.compare newFile.fileName oldFile.fileName < 0 := by omega
  rw [if_neg h', if_pos h]


theorem compareDirectories_cons_cons_lt (path : String) (newFile oldFile : QFileInfo)
    (newRest oldRest : QFileInfoList)
    (h : QString.compare newFile.fileName oldFile.fileName < 0) :
    compareDirectories path (newFile :: newRest) (oldFile :: oldRest) =
      (if newFile.isFile then
          [addTask Type_.Add (path ++ newFile.fileName) newFile.filePath ""]
        else if newFile.isDir then
          compareDirectories (path ++ newFile.fileName ++ "/")
            (dirList newFile.entryInfoList) []
        else [])
        ++ compareDirectories path newRest (oldFile :: oldRest) := by
  rw [compareDirectories, if_pos h]

theorem compareDirectories_cons_cons_eq (path : String) (newFile oldFile : QFileInfo)
    (newRest oldRest : QFileInfoList)
    (h : QString.compare newFile.fileName oldFile.fileName = 0) :
    compareDirectories path (newFile :: newRest) (oldFile :: oldRest) =
      (if newFile.isFile then
          (if !oldFile.isFile then
            addRemoveDirTask (path ++ oldFile.fileName) oldFile
              ++ [addTask Type_.Add (path ++ newFile.fileName) newFile.filePath ""]
          else
            [addTask Type_.Patch (path ++ newFile.fileName) newFile.filePath
              oldFile.filePath])
        else if newFile.isDir then
          (if !oldFile.isDir then
            addTask Type_.RemoveFile (path ++ newFile.fileName) "" ""
              :: compareDirectories (path ++ newFile.fileName ++ "/")
                  (dirList newFile.entryInfoList) []
          else
            compareDirectories (path ++ newFile.fileName ++ "/")
              (dirList newFile.entryInfoList) (dirList oldFile.entryInfoList))
        else [])
        ++ compareDirectories path newRest oldRest := by
  rw [compareDirectories]
  have h1 : ¬ QString.compare newFile.fileName oldFile.fileName < 0 := by omega
  have h2 : ¬ QString.compare newFile.fileName oldFile.fileName > 0 := by omega
  rw [if_neg h1, if_neg h2]

theorem compareUnits_self (units : List Nat) : QString.compareUnits units units = 0 := by
  induction units with
  | nil => rfl
  | cons a rest ih => simp [QString.compareUnits, ih]

theorem compare_self (s : String) : QString.compare s s = 0 :=
  compareUnits_self _

/-! ## Logical paths -/

theorem slash_split (a b ys w : List Char) (ha : '/' ∉ a) (hb : '/' ∉ b)
    (hys : ys = [] ∨ ∃ ys', ys = '/' :: ys') (h : b ++ ys = a ++ '/' :: w) : a = b := by
  induction a generalizing b with
  | nil =>
    cases b with
    | nil => rfl
    | cons x b' =>
      simp only [List.nil_append, List.cons_append, List.cons.injEq] at h
      exact absurd (h.1 ▸ List.mem_cons_self x b') hb
  | cons x a' ih =>
    cases b with
    | nil =>
      rcases hys with hys | ⟨ys', hys⟩
      · subst hys
        simp at h
      · subst hys
        simp only [List.nil_append, List.cons_append, List.cons.injEq] at h
        exact absurd (h.1 ▸ List.mem_cons_self x a') ha
    | cons y b' =>
      simp only [List.cons_append, List.cons.injEq] at h
      have := ih b' (fun hm => ha (List.mem_cons_of_mem _ hm))
        (fun hm => hb (List.mem_cons_of_mem _ hm)) h.2
      rw [this, h.1]

theorem inRegion_data {q path : String} (h : InRegion q path) :
    ∃ xs : List Char, path.data = q.data ++ xs ∧ (xs = [] ∨ ∃ xs', xs = '/' :: xs') := by
  rcases h with h | ⟨r, h⟩
  · exact ⟨[], by simp [h], Or.inl rfl⟩
  · refine ⟨'/' :: r.data, ?_, Or.inr ⟨_, rfl⟩⟩
    rw [h]
    simp [String.data_append]

theorem inRegion_trans {p q path : String} (h1 : InRegion q path) (h2 : IsBeneath p q) :
    IsBeneath p path := by
  rcases h2 with ⟨r, rfl⟩
  rcases h1 with h | ⟨r', h⟩
  · exact ⟨r, h⟩
  · exact ⟨r ++ "/" ++ r', by rw [h]; simp [String.append_assoc]⟩

/-- Two different names of one directory have disjoint regions. -/
theorem not_isBeneath_of_regions (p a b x y : String) (ha : '/' ∉ a.data)
    (hb : '/' ∉ b.data) (hab : a ≠ b) (hx : InRegion (p ++ "/" ++ a) x)
    (hy : InRegion (p ++ "/" ++ b) y) : ¬ IsBeneath x y := by
  rintro ⟨r, hr⟩
  obtain ⟨xs, hx1, hx2⟩ := inRegion_data hx
  obtain ⟨ys, hy1, hy2⟩ := inRegion_data hy
  have h : y.data = x.data ++ '/' :: r.data := by
    rw [hr]
    simp [String.data_append]
  rw [hx1, hy1] at h
  simp only [String.data_append, List.append_assoc] at h
  have h' := List.append_cancel_left (List.append_cancel_left h)
  have hw : ∃ w, xs ++ '/' :: r.data = '/' :: w := by
    rcases hx2 with hx2 | ⟨xs', hx2⟩
    · exact ⟨r.data, by simp [hx2]⟩
    · exact ⟨xs' ++ '/' :: r.data, by simp [hx2]⟩
  obtain ⟨w, hw⟩ := hw
  rw [hw] at h'
  exact hab (String.ext (slash_split a.data b.data ys w ha hb hy2 h'))

theorem not_isBeneath_of_isBeneath (p x : String) (hx : IsBeneath p x) : ¬ IsBeneath x p := by
  rintro ⟨r, hr⟩
  obtain ⟨r', hr'⟩ := hx
  have h := congrArg (fun s => s.data.length) hr
  rw [hr'] at h
  simp [String.data_append] at h

theorem wellNamedList_slash (l : List QFileInfo) (h : wellNamedList l = true) :
    ∀ c ∈ l, '/' ∉ c.fileName.data := by
  induction l with
  | nil => simp
  | cons c cs ih =>
    rw [wellNamedList] at h
    simp only [Bool.and_eq_true, decide_eq_true_eq] at h
    intro c' hc'
    rcases List.mem_cons.mp hc' with hc' | hc'
    · subst hc'
      exact h.1.1.1
    · exact ih h.2 c' hc'

/-! ## Removal of a subtree -/

mutual
theorem addRemoveDirTask_region : (p : String) → (d : QFileInfo) →
    ∀ t ∈ addRemoveDirTask p d, InRegion p t.path
  | p, QFileInfo.mk n fp k l => by
    intro t ht
    rw [addRemoveDirTask_eq, dirList_eq_filter] at ht
    simp only [entryInfoList, List.mem_append, List.mem_singleton] at ht
    rcases ht with ht | ht
    · obtain ⟨c, _, hc⟩ := addRemoveDirTaskLoop_region p l t ht
      exact Or.inr (inRegion_trans hc ⟨c.fileName, rfl⟩)
    · exact Or.inl (by rw [ht]; rfl)
theorem addRemoveDirTaskLoop_region : (p : String) → (l : List QFileInfo) →
    ∀ t ∈ addRemoveDirTaskLoop p (l.filter (fun f => !decide (f.fileName = ".git"))),
      ∃ c ∈ l, InRegion (p ++ "/" ++ c.fileName) t.path
  | p, [] => by
    intro t ht
    simp [addRemoveDirTaskLoop_nil] at ht
  | p, c :: cs => by
    intro t ht
    rw [addRemoveDirTaskLoop_filter_cons, List.mem_append] at ht
    rcases ht with ht | ht
    · refine ⟨c, List.mem_cons_self _ _, ?_⟩
      by_cases hg : c.fileName = ".git"
      · simp [hg] at ht
      · rw [if_neg hg] at ht
        by_cases hd : c.isDir = true
        · rw [if_pos hd] at ht
          exact addRemoveDirTask_region _ c t ht
        · rw [if_neg hd, List.mem_singleton] at ht
          exact Or.inl (by rw [ht]; rfl)
    · obtain ⟨c', hc', h⟩ := addRemoveDirTaskLoop_region p cs t ht
      exact ⟨c', List.mem_cons_of_mem _ hc', h⟩
end

mutual
theorem addRemoveDirTask_pairwise : (p : String) → (d : QFileInfo) → wellNamed d = true →
    (addRemoveDirTask p d).Pairwise RemovalOrdered
  | p, QFileInfo.mk n fp k l => by
    intro hwf
    rw [wellNamed] at hwf
    rw [addRemoveDirTask_eq, dirList_eq_filter]
    simp only [entryInfoList]
    rw [List.pairwise_append]
    refine ⟨addRemoveDirTaskLoop_pairwise p l hwf, List.pairwise_singleton _ _, ?_⟩
    intro t ht u hu _
    rw [List.mem_singleton] at hu
    obtain ⟨c, _, hc⟩ := addRemoveDirTaskLoop_region p l t ht
    rw [hu]
    exact not_isBeneath_of_isBeneath p t.path (inRegion_trans hc ⟨c.fileName, rfl⟩)
theorem addRemoveDirTaskLoop_pairwise : (p : String) → (l : List QFileInfo) →
    wellNamedList l = true →
    (addRemoveDirTaskLoop p (l.filter (fun f => !decide (f.fileName = ".git")))).Pairwise
      RemovalOrdered
  | p, [] => by
    intro _
    simp [addRemoveDirTaskLoop_nil]
  | p, c :: cs => by
    intro hwf
    rw [wellNamedList] at hwf
    simp only [Bool.and_eq_true, List.all_eq_true, decide_eq_true_eq] at hwf
    obtain ⟨⟨⟨hslash, hne⟩, hc⟩, hcs⟩ := hwf
    rw [addRemoveDirTaskLoop_filter_cons, List.pairwise_append]
    refine ⟨?_, addRemoveDirTaskLoop_pairwise p cs hcs, ?_⟩
    · by_cases hg : c.fileName = ".git"
      · simp [hg]
      · rw [if_neg hg]
        by_cases hd : c.isDir = true
        · rw [if_pos hd]
          exact addRemoveDirTask_pairwise _ c hc
        · rw [if_neg hd]
          exact List.pairwise_singleton _ _
    · intro t ht u hu _
      have hreg : InRegion (p ++ "/" ++ c.fileName) t.path := by
        by_cases hg : c.fileName = ".git"
        · simp [hg] at ht
        · rw [if_neg hg] at ht
          by_cases hd : c.isDir = true
          · rw [if_pos hd] at ht
            exact addRemoveDirTask_region _ c t ht
          · rw [if_neg hd, List.mem_singleton] at ht
            exact Or.inl (by rw [ht]; rfl)
      obtain ⟨c', hc', hu'⟩ := addRemoveDirTaskLoop_region p cs u hu
      have hslash' := wellNamedList_slash cs hcs c' hc'
      exact not_isBeneath_of_regions p c.fileName c'.fileName t.path u.path hslash hslash'
        (fun h => hne c' hc' h.symm) hreg hu'
end

mutual
theorem addRemoveDirTask_files : (p : String) → (d : QFileInfo) →
    ((addRemoveDirTask p d).filter (fun t => t.type = Type_.RemoveFile)).map (fun t => t.path)
      = (filesBeneath d).map (fun r => p ++ "/" ++ r)
  | p, QFileInfo.mk n fp k l => by
    rw [addRemoveDirTask_eq, dirList_eq_filter]
    simp only [entryInfoList, filesBeneath]
    rw [List.filter_append, List.map_append, addRemoveDirTaskLoop_files p l]
    simp [addTask, PackagerTask.new]
theorem addRemoveDirTaskLoop_files : (p : String) → (l : List QFileInfo) →
    ((addRemoveDirTaskLoop p (l.filter (fun f => !decide (f.fileName = ".git")))).filter
        (fun t => t.type = Type_.RemoveFile)).map (fun t => t.path)
      = (filesBeneathList l).map (fun r => p ++ "/" ++ r)
  | p, [] => by simp [addRemoveDirTaskLoop_nil, filesBeneathList]
  | p, c :: cs => by
    have ih1 := addRemoveDirTask_files (p ++ "/" ++ c.fileName) c
    have ih2 := addRemoveDirTaskLoop_files p cs
    rw [addRemoveDirTaskLoop_filter_cons]
    simp only [filesBeneathList, List.filter_append, List.map_append, ih2]
    congr 1
    by_cases hg : c.fileName = ".git"
    · simp [hg]
    · simp only [if_neg hg]
      by_cases hd : c.isDir = true
      · simp only [hd, if_true, ih1, List.map_map]
        apply List.map_congr_left
        intro r _
        simp [String.append_assoc]
      · simp [hd, addTask, PackagerTask.new]
end

mutual
theorem addRemoveDirTask_dirs : (p : String) → (d : QFileInfo) →
    ((addRemoveDirTask p d).filter (fun t => t.type = Type_.RemoveDir)).map (fun t => t.path)
      = (dirsBeneath d).map (fun r => p ++ "/" ++ r) ++ [p]
  | p, QFileInfo.mk n fp k l => by
    rw [addRemoveDirTask_eq, dirList_eq_filter]
    simp only [entryInfoList, dirsBeneath]
    rw [List.filter_append, List.map_append, addRemoveDirTaskLoop_dirs p l]
    simp [addTask, PackagerTask.new]
theorem addRemoveDirTaskLoop_dirs : (p : String) → (l : List QFileInfo) →
    ((addRemoveDirTaskLoop p (l.filter (fun f => !decide (f.fileName = ".git")))).filter
        (fun t => t.type = Type_.RemoveDir)).map (fun t => t.path)
      = (dirsBeneathList l).map (fun r => p ++ "/" ++ r)
  | p, [] => by simp [addRemoveDirTaskLoop_nil, dirsBeneathList]
  | p, c :: cs => by
    have ih1 := addRemoveDirTask_dirs (p ++ "/" ++ c.fileName) c
    have ih2 := addRemoveDirTaskLoop_dirs p cs
    rw [addRemoveDirTaskLoop_filter_cons]
    simp only [dirsBeneathList, List.filter_append, List.map_append, ih2]
    congr 1
    by_cases hg : c.fileName = ".git"
    · simp [hg]
    · simp only [if_neg hg]
      by_cases hd : c.isDir = true
      · simp only [hd, if_true, ih1, List.map_map, List.map_append, List.map_cons,
          List.map_nil]
        congr 1
        apply List.map_congr_left
        intro r _
        simp [String.append_assoc]
      · simp [hd, addTask, PackagerTask.new]
end

mutual
theorem addRemoveDirTask_kinds : (p : String) → (d : QFileInfo) →
    ∀ t ∈ addRemoveDirTask p d,
      t = addTask Type_.RemoveFile t.path "" "" ∨ t = addTask Type_.RemoveDir t.path "" ""
  | p, QFileInfo.mk n fp k l => by
    intro t ht
    rw [addRemoveDirTask_eq, dirList_eq_filter] at ht
    simp only [entryInfoList, List.mem_append, List.mem_singleton] at ht
    rcases ht with ht | ht
    · exact addRemoveDirTaskLoop_kinds p l t ht
    · exact Or.inr (by rw [ht]; rfl)
theorem addRemoveDirTaskLoop_kinds : (p : String) → (l : List QFileInfo) →
    ∀ t ∈ addRemoveDirTaskLoop p (l.filter (fun f => !decide (f.fileName = ".git"))),
      t = addTask Type_.RemoveFile t.path "" "" ∨ t = addTask Type_.RemoveDir t.path "" ""
  | p, [] => by
    intro t ht
    simp [addRemoveDirTaskLoop_nil] at ht
  | p, c :: cs => by
    intro t ht
    rw [addRemoveDirTaskLoop_filter_cons, List.mem_append] at ht
    rcases ht with ht | ht
    · by_cases hg : c.fileName = ".git"
      · simp [hg] at ht
      · rw [if_neg hg] at ht
        by_cases hd : c.isDir = true
        · rw [if_pos hd] at ht
          exact addRemoveDirTask_kinds _ c t ht
        · rw [if_neg hd, List.mem_singleton] at ht
          exact Or.inl (by rw [ht]; rfl)
    · exact addRemoveDirTaskLoop_kinds p cs t ht
end


/-! ## The end-to-end scenarios -/

/-- What the differ emits for the old tree `{a.txt, dir/b.txt}` and the new tree
`{a.txt, dir/c.txt, d.txt}`. -/
theorem compareDirectories_scenario_eval :
    compareDirectories "" Scenario.newTree Scenario.oldTree =
      [ addTask Type_.Patch "a.txt" "new/a.txt" "old/a.txt",
        addTask Type_.Add "d.txt" "new/d.txt" "",
        addTask Type_.RemoveFile "dir/c.txt" "" "",
        addTask Type_.Add "dir/c.txt" "new/dir/c.txt" "" ] := by
  have h1 : QString.compare "a.txt" "a.txt" = 0 := by decide
  have h2 : QString.compare "d.txt" "dir" = -1 := by decide
  have h3 : QString.compare "dir" "dir" = 0 := by decide
  have h4 : QString.compare "c.txt" "b.txt" = 1 := by decide
  simp [compareDirectories, Scenario.newTree, Scenario.oldTree, dirList, dirListLoop,
    addTask, PackagerTask.new, isFile, isDir, kind, fileName, filePath, entryInfoList,
    h1, h2, h3, h4]

/-- C1, as stated, fails: for the old tree `{a.txt, dir/b.txt}` and the new tree
`{a.txt, dir/c.txt, d.txt}` the emitted kinds and logical paths are not
`Patch a.txt, RemoveFile dir/b.txt, Add dir/c.txt, Add d.txt`. -/
theorem compareDirectories_scenario_differs :
    (compareDirectories "" Scenario.newTree Scenario.oldTree).map (fun t => (t.type, t.path))
      ≠ [ (Type_.Patch, "a.txt"), (Type_.RemoveFile, "dir/b.txt"),
          (Type_.Add, "dir/c.txt"), (Type_.Add, "d.txt") ] := by
  rw [compareDirectories_scenario_eval]
  decide

/-- C1, amended: for the old tree `{a.txt, dir/b.txt}` and the new tree
`{a.txt, dir/c.txt, d.txt}`, listings sorted by name (`d.txt` sorts before `dir`),
`compareDirectories` started at the empty path emits four tasks of the kinds `Patch`, `Add`,
`RemoveFile`, `Add` in this order; the tasks other than the `RemoveFile` are
`Patch a.txt`, `Add d.txt`, `Add dir/c.txt`; and there is no `RemoveDir`. -/
theorem compareDirectories_scenario :
    (compareDirectories "" Scenario.newTree Scenario.oldTree).map (fun t => t.type)
        = [Type_.Patch, Type_.Add, Type_.RemoveFile, Type_.Add]
      ∧ ((compareDirectories "" Scenario.newTree Scenario.oldTree).filter
            (fun t => decide (t.type ≠ Type_.RemoveFile))).map (fun t => (t.type, t.path))
          = [(Type_.Patch, "a.txt"), (Type_.Add, "d.txt"), (Type_.Add, "dir/c.txt")]
      ∧ ∀ t ∈ compareDirectories "" Scenario.newTree Scenario.oldTree,
          t.type ≠ Type_.RemoveDir := by
  rw [compareDirectories_scenario_eval]
  decide

/-- C2, at the failing inputs: an old file `b.txt` without counterpart is removed under
the name of the current new entry (`c.txt`) while new entries remain, and under the bare
path when the new side is exhausted; `RemoveFile b.txt` is never emitted. -/
theorem compareDirectories_removeFile_wrong_name :
    (compareDirectories "" Scenario.onlyC Scenario.onlyB).map (fun t => (t.type, t.path))
        = [(Type_.RemoveFile, "c.txt"), (Type_.Add, "c.txt")]
      ∧ (compareDirectories "" [] Scenario.onlyB).map (fun t => (t.type, t.path))
        = [(Type_.RemoveFile, "")] := by
  have h1 : QString.compare "c.txt" "b.txt" = 1 := by decide
  constructor
  · simp [compareDirectories, Scenario.onlyC, Scenario.onlyB, addTask, PackagerTask.new,
      isFile, isDir, kind, fileName, filePath, h1]
  · simp [compareDirectories, Scenario.onlyB, addTask, PackagerTask.new,
      isFile, isDir, kind, fileName, filePath, QFileInfo.null]

/-! ## C3 -/

/-- C3: for a directory `d` of the old side removed at logical path `p`,
`addRemoveDirTask p d` emits one `RemoveFile` for every entry beneath `d` that is not a
directory, at `p + "/" + relative path`; one `RemoveDir` for every directory beneath `d`
and a last one for `p` itself; no other task; and, the names being those of a file system
(no `/` in a name, no name twice in a directory), after the `RemoveDir` of a directory no
task of an entry beneath that directory follows (post-order). `compareDirectories` hands
an old directory without counterpart (new side exhausted, or the old name sorting first)
to `addRemoveDirTask` at `path + name`. -/
theorem addRemoveDirTask_removes_subtree (p : String) (d : QFileInfo) :
    ((addRemoveDirTask p d).filter (fun t => t.type = Type_.RemoveFile)).map
        (fun t => t.path) = (filesBeneath d).map (fun r => p ++ "/" ++ r)
      ∧ ((addRemoveDirTask p d).filter (fun t => t.type = Type_.RemoveDir)).map
        (fun t => t.path) = (dirsBeneath d).map (fun r => p ++ "/" ++ r) ++ [p]
      ∧ (∀ t ∈ addRemoveDirTask p d,
          t = addTask Type_.RemoveFile t.path "" "" ∨ t = addTask Type_.RemoveDir t.path "" "")
      ∧ (wellNamed d = true → (addRemoveDirTask p d).Pairwise RemovalOrdered)
      ∧ (∀ path oldRest, d.isDir = true →
          compareDirectories path [] (d :: oldRest) =
            addRemoveDirTask (path ++ d.fileName) d ++ compareDirectories path [] oldRest)
      ∧ (∀ path newFile newRest oldRest, d.isDir = true →
          QString.compare newFile.fileName d.fileName > 0 →
          compareDirectories path (newFile :: newRest) (d :: oldRest) =
            addRemoveDirTask (path ++ d.fileName) d
              ++ compareDirectories path (newFile :: newRest) oldRest) := by
  refine ⟨addRemoveDirTask_files p d, addRemoveDirTask_dirs p d, addRemoveDirTask_kinds p d,
    addRemoveDirTask_pairwise p d, ?_, ?_⟩
  · intro path oldRest hd
    rw [compareDirectories_nil_cons, if_pos hd]
  · intro path newFile newRest oldRest hd hgt
    rw [compareDirectories_cons_cons_gt _ _ _ _ _ hgt, if_pos hd]

/-- Witness of C3: old tree `{dir/x.txt, dir/y.txt}`, new tree `{}` gives
`RemoveFile dir/x.txt`, `RemoveFile dir/y.txt`, `RemoveDir dir`. -/
theorem addRemoveDirTask_removes_subtree_witness :
    wellNamed Scenario.removedDir = true
      ∧ (compareDirectories "" [] [Scenario.removedDir]).map (fun t => (t.type, t.path))
          = [ (Type_.RemoveFile, "dir/x.txt"), (Type_.RemoveFile, "dir/y.txt"),
              (Type_.RemoveDir, "dir") ]
      ∧ (addRemoveDirTask "dir" Scenario.removedDir).Pairwise RemovalOrdered := by
  have h := addRemoveDirTask_removes_subtree "dir" Scenario.removedDir
  refine ⟨by decide, ?_, h.2.2.2.1 (by decide)⟩
  simp [compareDirectories, addRemoveDirTask, addRemoveDirTaskLoop, Scenario.removedDir,
    dirList, dirListLoop, addTask, PackagerTask.new, isFile, isDir, kind, fileName,
    entryInfoList]

/-! ## A new side without old counterpart -/

mutual
theorem compareDirectories_new_dir : (path : String) → (d : QFileInfo) →
    compareDirectories path (dirList d.entryInfoList) [] =
      (addedFiles d).map (fun e => addTask Type_.Add (path ++ e.1) e.2 "")
  | path, QFileInfo.mk n fp k l => by
    rw [dirList_eq_filter]
    simp only [entryInfoList, addedFiles]
    exact compareDirectories_new_listing path l
theorem compareDirectories_new_listing : (path : String) → (l : List QFileInfo) →
    compareDirectories path (l.filter (fun f => !decide (f.fileName = ".git"))) [] =
      (addedFilesList l).map (fun e => addTask Type_.Add (path ++ e.1) e.2 "")
  | path, [] => by simp [compareDirectories_nil_nil, addedFilesList]
  | path, c :: cs => by
    have ih1 := compareDirectories_new_dir (path ++ c.fileName ++ "/") c
    have ih2 := compareDirectories_new_listing path cs
    by_cases hg : c.fileName = ".git"
    · simp only [addedFilesList, hg, if_true, List.nil_append]
      rw [List.filter_cons_of_neg (by simp [hg])]
      exact ih2
    · rw [List.filter_cons_of_pos (by simp [hg]), compareDirectories_cons_nil, ih2]
      simp only [addedFilesList, if_neg hg, List.map_append]
      congr 1
      by_cases hf : c.isFile = true
      · simp [hf]
      · rw [if_neg hf, if_neg hf]
        by_cases hd : c.isDir = true
        · rw [if_pos hd, if_pos hd, ih1, List.map_map]
          apply List.map_congr_left
          intro e _
          simp [String.append_assoc]
        · simp [hd]
end

/-- With an empty old listing the differ emits one `Add` for every file of the new tree,
at `path + relative path`, depth first in listing order, and nothing else. -/
theorem compareDirectories_empty_old (path : String) (entryInfoList : QFileInfoList) :
    compareDirectories path (dirList entryInfoList) [] =
      (addedFilesList entryInfoList).map
        (fun e => addTask Type_.Add (path ++ e.1) e.2 "") := by
  rw [dirList_eq_filter]
  exact compareDirectories_new_listing path entryInfoList

/-- C4, at the failing input: the new directory `lib` has no counterpart in the old
listing `{a.txt}`, and yet a `RemoveFile` task with the logical path `lib` is emitted
before the `Add` of `lib/x.so`. -/
theorem compareDirectories_new_name_removed :
    (compareDirectories "" Scenario.newLib Scenario.oldA).map (fun t => (t.type, t.path))
      = [(Type_.RemoveFile, "lib"), (Type_.Add, "lib/x.so")] := by
  have h1 : QString.compare "lib" "a.txt" = 1 := by decide
  simp [compareDirectories, Scenario.newLib, Scenario.oldA, dirList, dirListLoop, addTask,
    PackagerTask.new, isFile, isDir, kind, fileName, filePath, entryInfoList, h1]

/-- C5, at the failing input: the file `main.cpp` is on both sides, and two tasks carry
its logical path, a `RemoveFile` (emitted for the old file `README`) and the `Patch`. -/
theorem compareDirectories_patch_and_remove :
    (compareDirectories "" Scenario.newMain Scenario.oldReadmeMain).map
        (fun t => (t.type, t.path))
      = [(Type_.RemoveFile, "main.cpp"), (Type_.Patch, "main.cpp")] := by
  have h1 : QString.compare "main.cpp" "README" = 1 := by decide
  have h2 : QString.compare "main.cpp" "main.cpp" = 0 := by decide
  simp [compareDirectories, Scenario.newMain, Scenario.oldReadmeMain, addTask,
    PackagerTask.new, isFile, isDir, kind, fileName, filePath, h1, h2]


/-! ## The copy loop and the assembly loop -/

theorem take_append_drop_length (l : List Nat) (m : Nat) :
    l.take m ++ l.drop (l.take m).length = l := by
  rcases Nat.le_total m l.length with h | h
  · rw [List.length_take, Nat.min_eq_left h]
    exact List.take_append_drop m l
  · rw [List.take_of_length_le h, List.drop_length]
    simp

theorem read_of_pos (f : QFile) (pos maxSize : Nat) (h : (f.read pos maxSize).1 > 0) :
    (f.read pos maxSize).2 = (f.delivered.drop pos).take maxSize
      ∧ (f.read pos maxSize).1 = ((f.read pos maxSize).2.length : Nat) := by
  unfold QFile.read QFile.delivered at *
  cases hr : f.readError with
  | none => simp [hr]
  | some k =>
    simp only [hr] at h ⊢
    by_cases hk : k ≤ pos
    · simp [hk] at h
    · simp [hk]

theorem read_of_not_pos (f : QFile) (pos maxSize : Nat) (hm : 0 < maxSize)
    (h : ¬ (f.read pos maxSize).1 > 0) : f.delivered.drop pos = [] := by
  unfold QFile.read QFile.delivered at *
  cases hr : f.readError with
  | none =>
    simp only [hr] at h ⊢
    simp only [List.length_take, List.length_drop] at h
    apply List.drop_of_length_le
    omega
  | some k =>
    simp only [hr] at h ⊢
    apply List.drop_of_length_le
    by_cases hk : k ≤ pos
    · simp only [List.length_take]
      omega
    · simp only [hk, if_false, List.length_take, List.length_drop] at h
      simp only [List.length_take]
      omega

theorem copyLoop_ok (n : Nat) : ∀ (f : QFile) (pos : Nat) (d d' : DeltaFile),
    f.data.length - pos = n → copyLoop f pos d = Except.ok d' →
      d' = { d with bytes := d.bytes ++ f.delivered.drop pos } := by
  induction n using Nat.strong_induction_on with
  | _ n ih =>
    intro f pos d d' hn hrun
    rw [copyLoop] at hrun
    by_cases hpos : (f.read pos bufferSize).1 > 0
    · rw [dif_pos hpos] at hrun
      obtain ⟨hchunk, hlen⟩ := read_of_pos f pos bufferSize hpos
      have hbound := read_pos_of_pos f pos bufferSize hpos
      by_cases hw : (d.write (f.read pos bufferSize).2).1 ≠ (f.read pos bufferSize).1
      · rw [if_pos hw] at hrun
        cases hrun
      · rw [if_neg hw] at hrun
        have hd : (d.write (f.read pos bufferSize).2).2
            = { d with bytes := d.bytes ++ (f.read pos bufferSize).2 } := by
          unfold DeltaFile.write at hw ⊢
          cases hc : d.capacity with
          | none => simp
          | some c =>
            simp only [hc] at hw ⊢
            by_cases hfit : d.bytes.length + (f.read pos bufferSize).2.length ≤ c
            · simp [hfit]
            · simp only [hfit, if_false] at hw
              exfalso
              apply hw
              omega
        have := ih (f.data.length - (pos + (f.read pos bufferSize).2.length)) (by omega) f _ _ d'
          rfl hrun
        rw [this, hd]
        simp only [List.append_assoc]
        congr 2
        rw [hchunk]
        have := take_append_drop_length (f.delivered.drop pos) bufferSize
        rw [List.drop_drop] at this
        exact this
    · rw [dif_neg hpos] at hrun
      cases hrun
      rw [read_of_not_pos f pos bufferSize (by decide) hpos]
      simp

theorem copyLoop_unlimited (n : Nat) : ∀ (f : QFile) (pos : Nat) (d : DeltaFile),
    f.data.length - pos = n → d.capacity = none →
      copyLoop f pos d = Except.ok { d with bytes := d.bytes ++ f.delivered.drop pos } := by
  induction n using Nat.strong_induction_on with
  | _ n ih =>
    intro f pos d hn hcap
    rw [copyLoop]
    by_cases hpos : (f.read pos bufferSize).1 > 0
    · rw [dif_pos hpos]
      obtain ⟨hchunk, hlen⟩ := read_of_pos f pos bufferSize hpos
      have hbound := read_pos_of_pos f pos bufferSize hpos
      have hd : d.write (f.read pos bufferSize).2
          = ((((f.read pos bufferSize).2.length : Nat) : Int),
              { d with bytes := d.bytes ++ (f.read pos bufferSize).2 }) := by
        unfold DeltaFile.write
        simp [hcap]
      have hw : ¬ (d.write (f.read pos bufferSize).2).1 ≠ (f.read pos bufferSize).1 := by
        rw [hd, hlen]
        simp
      rw [if_neg hw, hd]
      simp only []
      rw [ih (f.data.length - (pos + (f.read pos bufferSize).2.length)) (by omega) f
        (pos + (f.read pos bufferSize).2.length)
        { d with bytes := d.bytes ++ (f.read pos bufferSize).2 } rfl hcap]
      simp only [List.append_assoc]
      congr 3
      rw [hchunk]
      have := take_append_drop_length (f.delivered.drop pos) bufferSize
      rw [List.drop_drop] at this
      exact this
    · rw [dif_neg hpos, read_of_not_pos f pos bufferSize (by decide) hpos]
      simp

theorem wrapInt64_of_range (x : Int) (h0 : 0 ≤ x) (h1 : x < 2 ^ 63) : wrapInt64 x = x := by
  unfold wrapInt64
  omega

theorem positiveSizeSum_cons (op : Operation) (rest : List Operation) :
    positiveSizeSum (op :: rest)
      = (if op.size > 0 then op.size else 0) + positiveSizeSum rest := by
  unfold positiveSizeSum
  by_cases h : op.size > 0
  · simp [List.filter_cons_of_pos, h]
  · simp [List.filter_cons_of_neg, h]

theorem positiveSizeSum_nonneg (ops : List Operation) : 0 ≤ positiveSizeSum ops := by
  induction ops with
  | nil => simp [positiveSizeSum]
  | cons op rest ih =>
    rw [positiveSizeSum_cons]
    by_cases h : op.size > 0
    · rw [if_pos h]
      omega
    · rw [if_neg h]
      omega

theorem assembleLoop_ok (files : String → Option QFile) :
    ∀ (tasks : List PackagerTask) (st st' : AssemblyState),
      assembleLoop files tasks st = Except.ok st' →
      0 ≤ st.totalSize → st.totalSize + positiveSizeSum (operationsOf tasks) < 2 ^ 63 →
      st'.totalSize = st.totalSize + positiveSizeSum (operationsOf tasks)
        ∧ st'.metadata = { st.metadata with
            operations := st.metadata.operations
              ++ assignOffsets st.totalSize (operationsOf tasks) }
        ∧ st'.deltaFile = { st.deltaFile with
            bytes := st.deltaFile.bytes
              ++ ((operationsOf tasks).filter (fun op => decide (op.size > 0))).flatMap
                  (deliveredOf files) } := by
  intro tasks
  induction tasks with
  | nil =>
    intro st st' h _ _
    simp only [assembleLoop] at h
    cases h
    simp [operationsOf, positiveSizeSum, assignOffsets]
  | cons task rest ih =>
    intro st st' h h0 h1
    rw [assembleLoop] at h
    cases he : task.errorString with
    | some e => simp [he] at h
    | none =>
      simp only [he] at h
      cases ho : task.operation with
      | none => simp [ho] at h
      | some op =>
        simp only [ho] at h
        have hops : operationsOf (task :: rest) = op :: operationsOf rest := by
          simp [operationsOf, List.filterMap_cons, ho]
        rw [hops, positiveSizeSum_cons] at h1
        rw [hops, positiveSizeSum_cons]
        have hnn := positiveSizeSum_nonneg (operationsOf rest)
        by_cases hp : op.size > 0
        · rw [if_pos hp] at h h1
          cases hf : files op.dataFilename with
          | none => simp [hf] at h
          | some f =>
            simp only [hf] at h
            cases hc : copyLoop f 0 st.deltaFile with
            | error e => simp [hc] at h
            | ok d =>
              simp only [hc] at h
              have hd := copyLoop_ok _ f 0 st.deltaFile d rfl hc
              have hw : wrapInt64 (st.totalSize + op.size) = st.totalSize + op.size :=
                wrapInt64_of_range _ (by omega) (by omega)
              rw [hw] at h
              obtain ⟨r1, r2, r3⟩ := ih _ st' h (by simp only []; omega) (by simp only []; omega)
              refine ⟨?_, ?_, ?_⟩
              · rw [r1, if_pos hp]
                simp only []
                omega
              · rw [r2]
                simp [PackageMetadata.addOperation, assignOffsets, hp]
              · rw [r3, hd]
                simp [List.filter_cons_of_pos, hp, deliveredOf, hf]
        · rw [if_neg hp] at h h1
          obtain ⟨r1, r2, r3⟩ := ih _ st' h (by simpa using h0) (by simpa using h1)
          refine ⟨?_, ?_, ?_⟩
          · rw [r1, if_neg hp]
            simp
          · rw [r2]
            simp [PackageMetadata.addOperation, assignOffsets, hp]
          · rw [r3]
            simp [List.filter_cons_of_neg, hp]

theorem assignOffsets_length (total : Int) (ops : List Operation) :
    (assignOffsets total ops).length = ops.length := by
  induction ops generalizing total with
  | nil => rfl
  | cons op rest ih =>
    unfold assignOffsets
    by_cases h : op.size > 0
    · simp [h, ih]
    · simp [h, ih]

theorem assignOffsets_getElem? (total : Int) (ops : List Operation) (i : Nat) (op : Operation)
    (h : ops[i]? = some op) :
    (assignOffsets total ops)[i]? =
      some (if op.size > 0 then
        { op with offset := total + positiveSizeSum (ops.take i) } else op) := by
  induction ops generalizing total i with
  | nil => simp at h
  | cons o rest ih =>
    cases i with
    | zero =>
      simp only [List.getElem?_cons_zero, Option.some.injEq] at h
      subst h
      unfold assignOffsets
      by_cases hp : o.size > 0
      · simp [hp, positiveSizeSum]
      · simp [hp]
    | succ i =>
      simp only [List.getElem?_cons_succ] at h
      unfold assignOffsets
      by_cases hp : o.size > 0
      · simp only [hp, if_true, List.getElem?_cons_succ, List.take_succ_cons]
        rw [ih _ _ h, positiveSizeSum_cons, if_pos hp, Int.add_assoc]
      · simp only [hp, if_false, List.getElem?_cons_succ, List.take_succ_cons]
        rw [ih _ _ h, positiveSizeSum_cons, if_neg hp]
        simp

theorem assignOffsets_last (total : Int) (ops : List Operation) :
    total + positiveSizeSum ops =
      match ((assignOffsets total ops).filter (fun op => decide (op.size > 0))).getLast? with
      | some op => op.offset + op.size
      | none => total := by
  induction ops generalizing total with
  | nil => simp [positiveSizeSum, assignOffsets]
  | cons o rest ih =>
    rw [positiveSizeSum_cons]
    unfold assignOffsets
    by_cases hp : o.size > 0
    · simp only [hp, if_true]
      rw [List.filter_cons_of_pos (by simpa using hp), List.getLast?_cons]
      have := ih (total + o.size)
      cases hl : ((assignOffsets (total + o.size) rest).filter
          (fun op => decide (op.size > 0))).getLast? with
      | none =>
        rw [hl] at this
        simp only [Option.getD_none] at this ⊢
        omega
      | some l =>
        rw [hl] at this
        simp only [Option.getD_some] at this ⊢
        omega
    · simp only [hp, if_false]
      rw [List.filter_cons_of_neg (by simpa using hp)]
      have := ih total
      omega

theorem positiveSizeSum_eq_sum (ops : List Operation) (h : ∀ op ∈ ops, 0 ≤ op.size) :
    positiveSizeSum ops = (ops.map (fun op => op.size)).sum := by
  induction ops with
  | nil => simp [positiveSizeSum]
  | cons o rest ih =>
    rw [positiveSizeSum_cons, List.map_cons, List.sum_cons,
      ih (fun op hop => h op (List.mem_cons_of_mem _ hop))]
    have := h o (List.mem_cons_self _ _)
    by_cases hp : o.size > 0
    · rw [if_pos hp]
    · rw [if_neg hp]
      omega

theorem assignOffsets_slices (files : String → Option QFile) (ops : List Operation) :
    ∀ (written : List Nat) (total : Int), total = (written.length : Nat) →
      (∀ op ∈ ops, 0 < op.size → (((deliveredOf files op).length : Nat) : Int) = op.size) →
      ∀ op' ∈ assignOffsets total ops, 0 < op'.size →
        ((written ++ (ops.filter (fun op => decide (op.size > 0))).flatMap
            (deliveredOf files)).drop op'.offset.toNat).take op'.size.toNat
          = deliveredOf files op' := by
  induction ops with
  | nil =>
    intro written total _ _ op' h
    simp [assignOffsets] at h
  | cons o rest ih =>
    intro written total hT hlen op' hmem hpos
    unfold assignOffsets at hmem
    by_cases hp : o.size > 0
    · have hpl := hlen o (List.mem_cons_self _ _) hp
      rw [if_pos hp] at hmem
      rw [List.filter_cons_of_pos (by simpa using hp), List.flatMap_cons]
      rcases List.mem_cons.mp hmem with h | h
      · subst h
        have h1 : (written.length : Int).toNat = written.length := by simp
        simp only [hT, h1]
        rw [List.drop_left' rfl]
        have h2 : deliveredOf files { o with offset := (written.length : Int) } = deliveredOf files o := rfl
        rw [h2]
        have h3 : o.size.toNat = (deliveredOf files o).length := by omega
        rw [h3, List.take_left' rfl]
      · have := ih (written ++ deliveredOf files o) (total + o.size)
          (by rw [hT, List.length_append]; push_cast; omega)
          (fun op hop => hlen op (List.mem_cons_of_mem _ hop)) op' h hpos
        rw [List.append_assoc] at this
        exact this
    · rw [if_neg hp] at hmem
      rw [List.filter_cons_of_neg (by simpa using hp)]
      rcases List.mem_cons.mp hmem with h | h
      · subst h
        exact absurd hpos hp
      · exact ih written total hT (fun op hop => hlen op (List.mem_cons_of_mem _ hop)) op' h hpos

theorem assembleLoop_ok_tasks (files : String → Option QFile) :
    ∀ (tasks : List PackagerTask) (st st' : AssemblyState),
      assembleLoop files tasks st = Except.ok st' →
      ∀ t ∈ tasks, t.errorString = none ∧
        ∃ op, t.operation = some op ∧ (0 < op.size → ∃ f, files op.dataFilename = some f) := by
  intro tasks
  induction tasks with
  | nil =>
    intro st st' _ t ht
    simp at ht
  | cons task rest ih =>
    intro st st' h t ht
    rw [assembleLoop] at h
    cases he : task.errorString with
    | some e => simp [he] at h
    | none =>
      simp only [he] at h
      cases ho : task.operation with
      | none => simp [ho] at h
      | some op =>
        simp only [ho] at h
        by_cases hp : op.size > 0
        · rw [if_pos hp] at h
          cases hf : files op.dataFilename with
          | none => simp [hf] at h
          | some f =>
            simp only [hf] at h
            cases hc : copyLoop f 0 st.deltaFile with
            | error e => simp [hc] at h
            | ok d =>
              simp only [hc] at h
              rcases List.mem_cons.mp ht with ht | ht
              · subst ht
                exact ⟨he, op, ho, fun _ => ⟨f, hf⟩⟩
              · exact ih _ st' h t ht
        · rw [if_neg hp] at h
          rcases List.mem_cons.mp ht with ht | ht
          · subst ht
            exact ⟨he, op, ho, fun hpos => absurd hpos hp⟩
          · exact ih _ st' h t ht

theorem operationsOf_getElem? (tasks : List PackagerTask)
    (h : ∀ t ∈ tasks, ∃ op, t.operation = some op) (i : Nat) :
    (operationsOf tasks)[i]? = tasks[i]?.bind (fun t => t.operation)
      ∧ operationsOf (tasks.take i) = (operationsOf tasks).take i := by
  induction tasks generalizing i with
  | nil => simp [operationsOf]
  | cons t rest ih =>
    obtain ⟨op, hop⟩ := h t (List.mem_cons_self _ _)
    have hcons : ∀ l, operationsOf (t :: l) = op :: operationsOf l := by
      intro l
      simp [operationsOf, List.filterMap_cons, hop]
    cases i with
    | zero => simp [hcons, hop, operationsOf]
    | succ i =>
      have := ih (fun u hu => h u (List.mem_cons_of_mem _ hu)) i
      simp only [List.take_succ_cons, hcons, List.getElem?_cons_succ, this.1, this.2, and_self]

theorem operationsOf_length (tasks : List PackagerTask)
    (h : ∀ t ∈ tasks, ∃ op, t.operation = some op) :
    (operationsOf tasks).length = tasks.length := by
  induction tasks with
  | nil => simp [operationsOf]
  | cons t rest ih =>
    obtain ⟨op, hop⟩ := h t (List.mem_cons_self _ _)
    have hcons : operationsOf (t :: rest) = op :: operationsOf rest := by
      simp [operationsOf, List.filterMap_cons, hop]
    rw [hcons, List.length_cons, List.length_cons,
      ih (fun u hu => h u (List.mem_cons_of_mem _ hu))]


theorem copyLoop_capacity (f : QFile) (pos : Nat) (d d' : DeltaFile)
    (h : copyLoop f pos d = Except.ok d') : d'.capacity = d.capacity := by
  rw [copyLoop_ok _ f pos d d' rfl h]

theorem assembleLoop_succeeds (files : String → Option QFile) :
    ∀ (tasks : List PackagerTask) (st : AssemblyState),
      (∀ t ∈ tasks, t.errorString = none ∧
        ∃ op, t.operation = some op ∧ (0 < op.size → ∃ f, files op.dataFilename = some f)) →
      st.deltaFile.capacity = none →
      ∃ st', assembleLoop files tasks st = Except.ok st'
        ∧ st'.deltaFile.flushOk = st.deltaFile.flushOk := by
  intro tasks
  induction tasks with
  | nil =>
    intro st _ _
    exact ⟨st, by simp [assembleLoop], rfl⟩
  | cons task rest ih =>
    intro st h hcap
    obtain ⟨he, op, ho, hf⟩ := h task (List.mem_cons_self _ _)
    have hrest := fun t ht => h t (List.mem_cons_of_mem _ ht)
    rw [assembleLoop]
    simp only [he, ho]
    by_cases hp : op.size > 0
    · obtain ⟨f, hf⟩ := hf hp
      rw [if_pos hp]
      simp only [hf]
      rw [copyLoop_unlimited _ f 0 st.deltaFile rfl hcap]
      simp only []
      obtain ⟨st', h1, h2⟩ := ih
        { totalSize := wrapInt64 (st.totalSize + op.size),
          deltaFile := { st.deltaFile with bytes := st.deltaFile.bytes ++ f.delivered.drop 0 },
          metadata := st.metadata.addOperation { op with offset := st.totalSize } } hrest hcap
      exact ⟨st', h1, h2⟩
    · rw [if_neg hp]
      obtain ⟨st', h1, h2⟩ := ih { st with metadata := st.metadata.addOperation op } hrest hcap
      exact ⟨st', h1, h2⟩

theorem assembleLoop_append (files : String → Option QFile) :
    ∀ (pre rest : List PackagerTask) (st : AssemblyState),
      assembleLoop files (pre ++ rest) st =
        match assembleLoop files pre st with
        | Except.ok st1 => assembleLoop files rest st1
        | Except.error e => Except.error e := by
  intro pre
  induction pre with
  | nil =>
    intro rest st
    simp [assembleLoop]
  | cons task pre ih =>
    intro rest st
    rw [List.cons_append, assembleLoop, assembleLoop]
    cases he : task.errorString with
    | some e => simp
    | none =>
      simp only []
      cases ho : task.operation with
      | none => simp
      | some op =>
        simp only []
        by_cases hp : op.size > 0
        · rw [if_pos hp, if_pos hp]
          cases hf : files op.dataFilename with
          | none => simp
          | some f =>
            simp only []
            cases hc : copyLoop f 0 st.deltaFile with
            | error e => simp
            | ok d =>
              simp only []
              exact ih rest _
        · rw [if_neg hp, if_neg hp]
          exact ih rest _



/-! ## The final delta file -/

theorem assembleLoop_ok_assemblable (files : String → Option QFile)
    (tasks : List PackagerTask) (st st' : AssemblyState)
    (h : assembleLoop files tasks st = Except.ok st') : Assemblable files tasks :=
  assembleLoop_ok_tasks files tasks st st' h

theorem generateFinal_ok (files : String → Option QFile) (tasks : List PackagerTask)
    (deltaFile : DeltaFile) (newRevisionName oldRevisionName : String)
    (delta' : DeltaFile) (metadata : PackageMetadata)
    (h : generateFinal files tasks deltaFile newRevisionName oldRevisionName
      = Except.ok (delta', metadata)) :
    ∃ st, assembleLoop files tasks
          { totalSize := 0, deltaFile := deltaFile, metadata := PackageMetadata.empty }
          = Except.ok st
      ∧ delta' = st.deltaFile
      ∧ metadata = st.metadata.setPackage
          (Package.new newRevisionName oldRevisionName st.totalSize) := by
  unfold generateFinal at h
  cases hl : assembleLoop files tasks
      { totalSize := 0, deltaFile := deltaFile, metadata := PackageMetadata.empty } with
  | error e => simp [hl] at h
  | ok st =>
    simp only [hl] at h
    by_cases hfl : st.deltaFile.flushOk = true
    · simp only [hfl, Bool.not_true, Bool.false_eq_true, if_false, Except.ok.injEq,
        Prod.mk.injEq] at h
      exact ⟨st, rfl, h.1.symm, h.2.symm⟩
    · simp [hfl] at h

theorem generateFinal_succeeds (files : String → Option QFile) (tasks : List PackagerTask)
    (deltaFile : DeltaFile) (newRevisionName oldRevisionName : String)
    (htasks : Assemblable files tasks)
    (hcap : deltaFile.capacity = none) (hflush : deltaFile.flushOk = true) :
    ∃ result, generateFinal files tasks deltaFile newRevisionName oldRevisionName
      = Except.ok result := by
  obtain ⟨st, h1, h2⟩ := assembleLoop_succeeds files tasks
    { totalSize := 0, deltaFile := deltaFile, metadata := PackageMetadata.empty } htasks hcap
  unfold generateFinal
  rw [h1]
  simp only [] at h2
  simp [h2, hflush]

theorem mem_operationsOf {tasks : List PackagerTask} {op : Operation}
    (h : op ∈ operationsOf tasks) : ∃ t ∈ tasks, t.operation = some op := by
  unfold operationsOf at h
  rw [List.mem_filterMap] at h
  exact h

theorem assignOffsets_mem (total : Int) (ops : List Operation) :
    ∀ op' ∈ assignOffsets total ops,
      ∃ op ∈ ops, op'.size = op.size ∧ op'.dataFilename = op.dataFilename := by
  induction ops generalizing total with
  | nil =>
    intro op' h
    simp [assignOffsets] at h
  | cons o rest ih =>
    intro op' h
    unfold assignOffsets at h
    by_cases hp : o.size > 0
    · rw [if_pos hp] at h
      rcases List.mem_cons.mp h with h | h
      · exact ⟨o, List.mem_cons_self _ _, by rw [h], by rw [h]⟩
      · obtain ⟨op, hop, h1, h2⟩ := ih _ op' h
        exact ⟨op, List.mem_cons_of_mem _ hop, h1, h2⟩
    · rw [if_neg hp] at h
      rcases List.mem_cons.mp h with h | h
      · exact ⟨o, List.mem_cons_self _ _, by rw [h], by rw [h]⟩
      · obtain ⟨op, hop, h1, h2⟩ := ih _ op' h
        exact ⟨op, List.mem_cons_of_mem _ hop, h1, h2⟩

/-- The layout of the delta stream in terms of the bytes the reads deliver: assume that
for every operation with positive size the reads of its data file deliver exactly `size`
bytes, the delta file starts empty, and the sizes sum up below `2^63`. Then after a
successful assembly the delta stream is the concatenation, in discovery order, of the
bytes delivered for the operations with positive size, and for every operation of the
metadata with positive size the slice of the delta stream at its recorded
`(offset, size)` is what the reads of its data file delivered. The assembly is successful
when no task has an error, the payload files open, and the delta file takes the bytes. -/
theorem generateFinal_delta_layout (files : String → Option QFile)
    (tasks : List PackagerTask) (deltaFile : DeltaFile)
    (newRevisionName oldRevisionName : String)
    (hpayload : ∀ t ∈ tasks, ∀ op, t.operation = some op → 0 < op.size →
      ∀ f, files op.dataFilename = some f → ((f.delivered.length : Nat) : Int) = op.size)
    (hfresh : deltaFile.bytes = [])
    (hfit : positiveSizeSum (operationsOf tasks) < 2 ^ 63) :
    (∀ delta' metadata,
        generateFinal files tasks deltaFile newRevisionName oldRevisionName
          = Except.ok (delta', metadata) →
        delta'.bytes
            = ((operationsOf tasks).filter (fun op => decide (op.size > 0))).flatMap
                (deliveredOf files)
          ∧ ∀ op ∈ metadata.operations, 0 < op.size →
              ∃ f, files op.dataFilename = some f
                ∧ (delta'.bytes.drop op.offset.toNat).take op.size.toNat = f.delivered)
      ∧ (Assemblable files tasks → deltaFile.capacity = none → deltaFile.flushOk = true →
          ∃ result, generateFinal files tasks deltaFile newRevisionName oldRevisionName
            = Except.ok result) := by
  refine ⟨?_, generateFinal_succeeds files tasks deltaFile newRevisionName oldRevisionName⟩
  intro delta' metadata hrun
  obtain ⟨st, hloop, hd, hm⟩ := generateFinal_ok _ _ _ _ _ _ _ hrun
  obtain ⟨_, r2, r3⟩ := assembleLoop_ok files tasks _ st hloop (by simp) (by simpa using hfit)
  have htasks := assembleLoop_ok_tasks files tasks _ st hloop
  have hbytes : delta'.bytes
      = ((operationsOf tasks).filter (fun op => decide (op.size > 0))).flatMap
          (deliveredOf files) := by
    rw [hd, r3]
    simp [hfresh]
  have hlen : ∀ op ∈ operationsOf tasks, 0 < op.size →
      ∃ f, files op.dataFilename = some f ∧ deliveredOf files op = f.delivered
        ∧ (((deliveredOf files op).length : Nat) : Int) = op.size := by
    intro op hop hpos
    obtain ⟨t, ht, hto⟩ := mem_operationsOf hop
    obtain ⟨_, op', hop', hfile⟩ := htasks t ht
    rw [hto] at hop'
    cases hop'
    obtain ⟨f, hf⟩ := hfile hpos
    have hsz := hpayload t ht op hto hpos f hf
    have hp : deliveredOf files op = f.delivered := by
      simp [deliveredOf, hf]
    exact ⟨f, hf, hp, by rw [hp]; exact hsz⟩
  refine ⟨hbytes, ?_⟩
  intro op hop hpos
  have hops : metadata.operations = assignOffsets 0 (operationsOf tasks) := by
    rw [hm, PackageMetadata.setPackage, r2]
    simp [PackageMetadata.empty]
  rw [hops] at hop
  have hslice := assignOffsets_slices files (operationsOf tasks) [] 0 (by simp)
    (fun o ho hp => (hlen o ho hp).choose_spec.2.2) op hop hpos
  rw [List.nil_append, ← hbytes] at hslice
  obtain ⟨o, ho, hs, hn⟩ := assignOffsets_mem 0 (operationsOf tasks) op hop
  obtain ⟨f, hf, hp, _⟩ := hlen o ho (by omega)
  refine ⟨f, by rw [hn]; exact hf, ?_⟩
  rw [hslice]
  have : deliveredOf files op = deliveredOf files o := by
    simp [deliveredOf, hn]
  rw [this, hp]

theorem executed_assemblable : Assemblable Scenario.payloadFiles Scenario.executed := by
  intro t ht
  simp only [Scenario.executed, List.mem_cons, List.mem_singleton, List.not_mem_nil,
    or_false] at ht
  rcases ht with rfl | rfl | rfl
  · exact ⟨rfl, _, rfl, fun _ => ⟨_, rfl⟩⟩
  · exact ⟨rfl, _, rfl, fun h => absurd h (by decide)⟩
  · exact ⟨rfl, _, rfl, fun _ => ⟨_, rfl⟩⟩

theorem executed_payload :
    ∀ t ∈ Scenario.executed, ∀ op, t.operation = some op → 0 < op.size →
      ∀ f, Scenario.payloadFiles op.dataFilename = some f →
        ((f.delivered.length : Nat) : Int) = op.size := by
  intro t ht op ho hpos f hf
  simp only [Scenario.executed, List.mem_cons, List.mem_singleton, List.not_mem_nil,
    or_false] at ht
  rcases ht with rfl | rfl | rfl
  · cases ho
    cases hf
    rfl
  · cases ho
    exact absurd hpos (by decide)
  · cases ho
    cases hf
    rfl

/-- Payloads `[1, 2, 3]` and `[4, 5]`, read without error, around an operation without
payload give the delta stream `[1, 2, 3, 4, 5]`. -/
theorem generateFinal_delta_layout_witness :
    ∃ delta' metadata,
      generateFinal Scenario.payloadFiles Scenario.executed Scenario.freshDelta "2.0" "1.0"
          = Except.ok (delta', metadata)
        ∧ delta'.bytes = [1, 2, 3, 4, 5]
        ∧ ∀ op ∈ metadata.operations, 0 < op.size →
            ∃ f, Scenario.payloadFiles op.dataFilename = some f
              ∧ (delta'.bytes.drop op.offset.toNat).take op.size.toNat = f.delivered := by
  have h := generateFinal_delta_layout Scenario.payloadFiles Scenario.executed
    Scenario.freshDelta "2.0" "1.0" executed_payload rfl (by decide)
  obtain ⟨result, hres⟩ := h.2 executed_assemblable rfl rfl
  obtain ⟨h1, h2⟩ := h.1 result.1 result.2 hres
  refine ⟨result.1, result.2, hres, ?_, h2⟩
  rw [h1]
  decide

/-- C7: when the sizes sum up below `2^63`, a successful assembly leaves one operation
per task in the metadata, in discovery order; an operation with positive size has as
offset the sum of the sizes of the operations with positive size before it, any other
operation is unchanged; the `Package` has `to`, `from` and as size the sum of the positive
sizes, which is the sum of all sizes when no size is negative, and which is `offset +
size` of the last operation with positive size (`0` when there is none). The assembly is
successful when no task has an error, the payload files open, and the delta file takes
the bytes. -/
theorem generateFinal_offsets_and_size (files : String → Option QFile)
    (tasks : List PackagerTask) (deltaFile : DeltaFile)
    (newRevisionName oldRevisionName : String)
    (hfit : positiveSizeSum (operationsOf tasks) < 2 ^ 63) :
    (∀ delta' metadata,
        generateFinal files tasks deltaFile newRevisionName oldRevisionName
          = Except.ok (delta', metadata) →
        metadata.operations.length = tasks.length
          ∧ (∀ (i : Nat) (t : PackagerTask) (op : Operation),
              tasks[i]? = some t → t.operation = some op →
              metadata.operations[i]? = some (if op.size > 0 then
                { op with offset := positiveSizeSum (operationsOf (tasks.take i)) } else op))
          ∧ metadata.package = Package.new newRevisionName oldRevisionName
              (positiveSizeSum (operationsOf tasks))
          ∧ ((∀ op ∈ operationsOf tasks, 0 ≤ op.size) →
              metadata.package.size = ((operationsOf tasks).map (fun op => op.size)).sum)
          ∧ metadata.package.size =
              (match (metadata.operations.filter
                  (fun op => decide (op.size > 0))).getLast? with
                | some op => op.offset + op.size
                | none => 0))
      ∧ (Assemblable files tasks → deltaFile.capacity = none → deltaFile.flushOk = true →
          ∃ result, generateFinal files tasks deltaFile newRevisionName oldRevisionName
            = Except.ok result) := by
  refine ⟨?_, generateFinal_succeeds files tasks deltaFile newRevisionName oldRevisionName⟩
  intro delta' metadata hrun
  obtain ⟨st, hloop, hd, hm⟩ := generateFinal_ok _ _ _ _ _ _ _ hrun
  obtain ⟨r1, r2, _⟩ := assembleLoop_ok files tasks _ st hloop (by simp) (by simpa using hfit)
  have htasks := assembleLoop_ok_tasks files tasks _ st hloop
  have hall : ∀ t ∈ tasks, ∃ op, t.operation = some op := by
    intro t ht
    obtain ⟨_, op, hop, _⟩ := htasks t ht
    exact ⟨op, hop⟩
  have hops : metadata.operations = assignOffsets 0 (operationsOf tasks) := by
    rw [hm, PackageMetadata.setPackage, r2]
    simp [PackageMetadata.empty]
  have hsize : st.totalSize = positiveSizeSum (operationsOf tasks) := by
    rw [r1]
    simp
  have hpkg : metadata.package = Package.new newRevisionName oldRevisionName
      (positiveSizeSum (operationsOf tasks)) := by
    rw [hm, PackageMetadata.setPackage, hsize]
  refine ⟨?_, ?_, hpkg, ?_, ?_⟩
  · rw [hops, assignOffsets_length, operationsOf_length tasks hall]
  · intro i t op hi ho
    obtain ⟨h1, h2⟩ := operationsOf_getElem? tasks hall i
    have hget : (operationsOf tasks)[i]? = some op := by
      rw [h1, hi]
      exact ho
    rw [hops, assignOffsets_getElem? 0 _ i op hget, h2]
    simp
  · intro hnn
    rw [hpkg]
    exact positiveSizeSum_eq_sum _ hnn
  · rw [hpkg, hops]
    have := assignOffsets_last 0 (operationsOf tasks)
    simp only [Int.zero_add] at this
    exact this

/-- Witness of C7: sizes `3`, `0`, `2` give the offsets `0` and `3` and the package size
`5`. -/
theorem generateFinal_offsets_and_size_witness :
    ∃ delta' metadata,
      generateFinal Scenario.payloadFiles Scenario.executed Scenario.freshDelta "2.0" "1.0"
          = Except.ok (delta', metadata)
        ∧ metadata.operations.length = 3
        ∧ metadata.operations[0]? = some { size := 3, offset := 0, dataFilename := "tmp/add" }
        ∧ metadata.operations[2]? = some { size := 2, offset := 3, dataFilename := "tmp/patch" }
        ∧ metadata.package = { to_ := "2.0", from_ := "1.0", size := 5 } := by
  have h := generateFinal_offsets_and_size Scenario.payloadFiles Scenario.executed
    Scenario.freshDelta "2.0" "1.0" (by decide)
  obtain ⟨result, hres⟩ := h.2 executed_assemblable rfl rfl
  obtain ⟨h1, h2, h3, _, _⟩ := h.1 result.1 result.2 hres
  refine ⟨result.1, result.2, hres, h1, ?_, ?_, h3⟩
  · exact h2 0 Scenario.taskAdd _ rfl rfl
  · exact h2 2 Scenario.taskPatch _ rfl rfl

/-- C8, as stated, fails: the first task has no error but its payload file cannot be
opened, the second task carries the error `patch failed`; the run aborts with
`Unable to open tmp/add`, not with the error string of the task. -/
theorem generateFinal_io_error_first :
    generateFinal Scenario.noFiles [Scenario.taskAdd, Scenario.taskFailed] Scenario.freshDelta
        "2.0" "1.0" = Except.error (Failure.thrown "Unable to open tmp/add")
      ∧ generateFinal Scenario.noFiles [Scenario.taskAdd, Scenario.taskFailed]
          Scenario.freshDelta "2.0" "1.0" ≠ Except.error (Failure.thrown "patch failed") := by
  have h : generateFinal Scenario.noFiles [Scenario.taskAdd, Scenario.taskFailed]
      Scenario.freshDelta "2.0" "1.0"
        = Except.error (Failure.thrown "Unable to open tmp/add") := by
    simp [generateFinal, assembleLoop, Scenario.taskAdd, Scenario.noFiles, PackagerTask.new]
  refine ⟨h, ?_⟩
  rw [h]
  simp

/-- C8, amended: when a task carries an error, the run aborts and writes no metadata
document, whatever the other tasks are; it aborts with the error string of that task
provided nothing fails on the tasks before it (none of them carries an error, each has
an operation whose payload file, if its size is positive, opens, and the delta file
takes the bytes), that is, with the error string of the first task that carries one. -/
theorem generateFinal_first_error (files : String → Option QFile)
    (deltaFile : DeltaFile) (newRevisionName oldRevisionName : String)
    (before : List PackagerTask) (task : PackagerTask) (after : List PackagerTask)
    (errorString : String) (htask : task.errorString = some errorString) :
    (∃ failure, generateFinal files (before ++ task :: after) deltaFile newRevisionName
        oldRevisionName = Except.error failure)
      ∧ (Assemblable files before → deltaFile.capacity = none →
          generateFinal files (before ++ task :: after) deltaFile newRevisionName
            oldRevisionName = Except.error (Failure.thrown errorString)) := by
  have hstep : ∀ st, assembleLoop files (task :: after) st
      = Except.error (Failure.thrown errorString) := by
    intro st
    rw [assembleLoop]
    simp [htask]
  constructor
  · unfold generateFinal
    rw [assembleLoop_append]
    cases hpre : assembleLoop files before
        { totalSize := 0, deltaFile := deltaFile, metadata := PackageMetadata.empty } with
    | error e => exact ⟨e, rfl⟩
    | ok st1 =>
      simp only [hstep]
      exact ⟨_, rfl⟩
  · intro hops hcap
    obtain ⟨st1, h1, _⟩ := assembleLoop_succeeds files before
      { totalSize := 0, deltaFile := deltaFile, metadata := PackageMetadata.empty } hops hcap
    unfold generateFinal
    rw [assembleLoop_append, h1]
    simp only [hstep]

/-- Witness of C8: two tasks without error, then a task with the error `patch failed`,
then a task without error and one with the error `add failed`. -/
theorem generateFinal_first_error_witness :
    generateFinal Scenario.payloadFiles
        ([Scenario.taskAdd, Scenario.taskRemove]
          ++ Scenario.taskFailed :: [Scenario.taskPatch, Scenario.taskFailedLater])
        Scenario.freshDelta "2.0" "1.0" = Except.error (Failure.thrown "patch failed") := by
  refine (generateFinal_first_error Scenario.payloadFiles Scenario.freshDelta "2.0" "1.0"
    [Scenario.taskAdd, Scenario.taskRemove] Scenario.taskFailed
    [Scenario.taskPatch, Scenario.taskFailedLater] "patch failed" rfl).2 ?_ rfl
  · intro t ht
    simp only [List.mem_cons, List.mem_singleton, List.not_mem_nil, or_false] at ht
    rcases ht with rfl | rfl
    · exact ⟨rfl, _, rfl, fun _ => ⟨_, rfl⟩⟩
    · exact ⟨rfl, _, rfl, fun h => absurd h (by decide)⟩

end Packager

/-! ## Decimal text -/

namespace QString

theorem parseDigits_some (negative : Bool) (digits : List Char) (n : Int)
    (h : parseDigits negative digits = some n) :
    digits ≠ [] ∧ (∀ c ∈ digits, QChar.isDigit c = true)
      ∧ n = (if negative then -(decimalValue digits : Int) else (decimalValue digits : Int))
      ∧ -9223372036854775808 ≤ n ∧ n ≤ 9223372036854775807 := by
  unfold parseDigits at h
  by_cases h1 : digits ≠ [] ∧ digits.all QChar.isDigit
  · rw [if_pos h1] at h
    by_cases h2 : -9223372036854775808
          ≤ (if negative then -(decimalValue digits : Int) else (decimalValue digits : Int))
        ∧ (if negative then -(decimalValue digits : Int) else (decimalValue digits : Int))
          ≤ 9223372036854775807
    · rw [if_pos h2] at h
      cases h
      exact ⟨h1.1, by simpa using h1.2, rfl, h2.1, h2.2⟩
    · rw [if_neg h2] at h
      cases h
  · rw [if_neg h1] at h
    cases h

theorem trimmed_split (cs : List Char) :
    ∃ leading trailing, cs = leading ++ trimmed cs ++ trailing
      ∧ ∀ c ∈ leading ++ trailing, QChar.isSpace c = true := by
  refine ⟨cs.takeWhile QChar.isSpace,
    ((cs.dropWhile QChar.isSpace).reverse.takeWhile QChar.isSpace).reverse, ?_, ?_⟩
  · unfold trimmed
    rw [List.append_assoc, ← List.reverse_append, List.takeWhile_append_dropWhile,
      List.reverse_reverse, List.takeWhile_append_dropWhile]
  · intro c hc
    rcases List.mem_append.mp hc with hc | hc
    · exact (List.mem_takeWhile_imp hc)
    · exact (List.mem_takeWhile_imp (List.mem_reverse.mp hc))

theorem toLongLong_some (s : String) (n : Int) (h : toLongLong s = some n) :
    IsInt64Text s ∧ -9223372036854775808 ≤ n ∧ n ≤ 9223372036854775807 := by
  obtain ⟨leading, trailing, hsplit, hspace⟩ := trimmed_split s.data
  unfold toLongLong at h
  by_cases h1 : (trimmed s.data).head? = some '-'
  · rw [if_pos h1] at h
    obtain ⟨p1, p2, p3, p4, p5⟩ := parseDigits_some _ _ _ h
    have ht : trimmed s.data = '-' :: (trimmed s.data).tail := by
      cases hl : trimmed s.data with
      | nil => simp [hl] at h1
      | cons a l =>
        simp only [hl, List.head?_cons, Option.some.injEq] at h1
        simp [h1]
    refine ⟨⟨leading, trailing, ['-'], (trimmed s.data).tail, n, ?_, hspace, by simp, p1, p2,
      by simpa using p3, p4, p5⟩, p4, p5⟩
    rw [List.append_assoc leading, List.singleton_append, ← ht]
    exact hsplit
  · rw [if_neg h1] at h
    by_cases h2 : (trimmed s.data).head? = some '+'
    · rw [if_pos h2] at h
      obtain ⟨p1, p2, p3, p4, p5⟩ := parseDigits_some _ _ _ h
      have ht : trimmed s.data = '+' :: (trimmed s.data).tail := by
        cases hl : trimmed s.data with
        | nil => simp [hl] at h2
        | cons a l =>
          simp only [hl, List.head?_cons, Option.some.injEq] at h2
          simp [h2]
      refine ⟨⟨leading, trailing, ['+'], (trimmed s.data).tail, n, ?_, hspace, by simp, p1, p2,
        by simpa using p3, p4, p5⟩, p4, p5⟩
      rw [List.append_assoc leading, List.singleton_append, ← ht]
      exact hsplit
    · rw [if_neg h2] at h
      obtain ⟨p1, p2, p3, p4, p5⟩ := parseDigits_some _ _ _ h
      refine ⟨⟨leading, trailing, [], trimmed s.data, n, ?_, hspace, by simp, p1, p2,
        by simpa using p3, p4, p5⟩, p4, p5⟩
      rw [List.append_nil]
      exact hsplit


theorem digitChar_toNat (d : Nat) (h : d < 10) : (digitChar d).toNat = 48 + d := by
  interval_cases d <;> rfl

theorem isDigit_digitChar (d : Nat) : QChar.isDigit (digitChar d) = true := by
  by_cases h : d < 10
  · unfold QChar.isDigit
    rw [digitChar_toNat d h]
    simp
    omega
  · have : digitChar d = '9' := by
      unfold digitChar
      split <;> first | omega | rfl
    rw [this]
    rfl

theorem isSpace_of_isDigit (c : Char) (h : QChar.isDigit c = true) : QChar.isSpace c = false := by
  unfold QChar.isDigit at h
  unfold QChar.isSpace
  simp only [Bool.and_eq_true, decide_eq_true_eq] at h
  simp only [Bool.or_eq_false_iff, Bool.and_eq_false_imp, decide_eq_true_eq,
    decide_eq_false_iff_not]
  omega

theorem decimalDigits_isDigit (fuel n : Nat) :
    ∀ c ∈ decimalDigits fuel n, QChar.isDigit c = true := by
  induction fuel generalizing n with
  | zero => simp [decimalDigits]
  | succ fuel ih =>
    intro c hc
    unfold decimalDigits at hc
    by_cases h : n < 10
    · rw [if_pos h, List.mem_singleton] at hc
      rw [hc]
      exact isDigit_digitChar n
    · rw [if_neg h, List.mem_append, List.mem_singleton] at hc
      rcases hc with hc | hc
      · exact ih _ c hc
      · rw [hc]
        exact isDigit_digitChar _

theorem decimalDigits_ne_nil (fuel n : Nat) : decimalDigits (fuel + 1) n ≠ [] := by
  unfold decimalDigits
  by_cases h : n < 10
  · simp [h]
  · simp [h]

theorem decimalValue_append (l : List Char) (c : Char) :
    decimalValue (l ++ [c]) = decimalValue l * 10 + digitValue c := by
  simp [decimalValue, List.foldl_append]

theorem decimalValue_decimalDigits (fuel n : Nat) (h : n < 10 ^ fuel) :
    decimalValue (decimalDigits fuel n) = n := by
  induction fuel generalizing n with
  | zero =>
    simp at h
    subst h
    rfl
  | succ fuel ih =>
    unfold decimalDigits
    by_cases h10 : n < 10
    · rw [if_pos h10]
      simp [decimalValue, digitValue, digitChar_toNat n h10]
    · rw [if_neg h10, decimalValue_append, ih (n / 10) (by
        rw [Nat.pow_succ] at h
        exact Nat.div_lt_of_lt_mul (by rw [Nat.mul_comm]; exact h))]
      simp only [digitValue, digitChar_toNat (n % 10) (Nat.mod_lt _ (by decide))]
      omega

theorem lt_ten_pow_succ (n : Nat) : n < 10 ^ (n + 1) := by
  have h1 : n < 2 ^ n := Nat.lt_two_pow n
  have h2 : 2 ^ n ≤ 10 ^ n := Nat.pow_le_pow_left (by decide) n
  have h3 : 10 ^ n ≤ 10 ^ (n + 1) := Nat.pow_le_pow_right (by decide) (by omega)
  omega

theorem trimmed_of_no_space (l : List Char) (h : ∀ c ∈ l, QChar.isSpace c = false) :
    trimmed l = l := by
  have hdrop : ∀ l : List Char, (∀ c ∈ l, QChar.isSpace c = false) →
      l.dropWhile QChar.isSpace = l := by
    intro l hl
    cases l with
    | nil => rfl
    | cons a t =>
      rw [List.dropWhile_cons, hl a (List.mem_cons_self _ _)]
      simp
  unfold trimmed
  rw [hdrop l h, hdrop l.reverse (fun c hc => h c (List.mem_reverse.mp hc)),
    List.reverse_reverse]

theorem toLongLong_number (n : Int) (h0 : -9223372036854775808 ≤ n)
    (h1 : n ≤ 9223372036854775807) : toLongLong (number n) = some n := by
  have hdig := decimalDigits_isDigit (n.natAbs + 1) n.natAbs
  have hne := decimalDigits_ne_nil n.natAbs n.natAbs
  have hval := decimalValue_decimalDigits (n.natAbs + 1) n.natAbs (lt_ten_pow_succ _)
  have hall : (decimalDigits (n.natAbs + 1) n.natAbs).all QChar.isDigit = true := by
    rw [List.all_eq_true]
    exact hdig
  unfold toLongLong number
  by_cases hneg : n < 0
  · rw [if_pos hneg]
    have ht : trimmed ('-' :: decimalDigits (n.natAbs + 1) n.natAbs)
        = '-' :: decimalDigits (n.natAbs + 1) n.natAbs := by
      apply trimmed_of_no_space
      intro c hc
      rcases List.mem_cons.mp hc with hc | hc
      · rw [hc]
        rfl
      · exact isSpace_of_isDigit c (hdig c hc)
    simp only [ht, List.head?_cons, if_true, List.tail_cons]
    unfold parseDigits
    rw [if_pos ⟨hne, hall⟩, hval]
    simp only [if_true]
    have : -(n.natAbs : Int) = n := by omega
    rw [this, if_pos ⟨h0, h1⟩]
  · rw [if_neg hneg]
    have ht : trimmed (decimalDigits (n.natAbs + 1) n.natAbs)
        = decimalDigits (n.natAbs + 1) n.natAbs :=
      trimmed_of_no_space _ (fun c hc => isSpace_of_isDigit c (hdig c hc))
    simp only [ht]
    cases hd : decimalDigits (n.natAbs + 1) n.natAbs with
    | nil => exact absurd hd hne
    | cons a t =>
      have ha : QChar.isDigit a = true := hdig a (by rw [hd]; exact List.mem_cons_self _ _)
      have ha1 : a ≠ '-' := by
        intro hh
        rw [hh] at ha
        exact absurd ha (by decide)
      have ha2 : a ≠ '+' := by
        intro hh
        rw [hh] at ha
        exact absurd ha (by decide)
      simp only [List.head?_cons, Option.some.injEq, ha1, ha2, if_false]
      rw [← hd]
      unfold parseDigits
      rw [if_pos ⟨hne, hall⟩, hval]
      simp only [Bool.false_eq_true, if_false]
      have : (n.natAbs : Int) = n := by omega
      rw [this, if_pos ⟨h0, h1⟩]


theorem toLongLong_number_out_of_range (n : Int)
    (h : n < -9223372036854775808 ∨ 9223372036854775807 < n) :
    toLongLong (number n) = none := by
  cases hr : toLongLong (number n) with
  | none => rfl
  | some m =>
    exfalso
    have hdig := decimalDigits_isDigit (n.natAbs + 1) n.natAbs
    have hne := decimalDigits_ne_nil n.natAbs n.natAbs
    have hval := decimalValue_decimalDigits (n.natAbs + 1) n.natAbs (lt_ten_pow_succ _)
    unfold toLongLong number at hr
    by_cases hneg : n < 0
    · rw [if_pos hneg] at hr
      have ht : trimmed ('-' :: decimalDigits (n.natAbs + 1) n.natAbs)
          = '-' :: decimalDigits (n.natAbs + 1) n.natAbs := by
        apply trimmed_of_no_space
        intro c hc
        rcases List.mem_cons.mp hc with hc | hc
        · rw [hc]
          rfl
        · exact isSpace_of_isDigit c (hdig c hc)
      simp only [ht, List.head?_cons, if_true, List.tail_cons] at hr
      obtain ⟨_, _, p3, p4, p5⟩ := parseDigits_some _ _ _ hr
      rw [hval] at p3
      simp only [if_true] at p3
      omega
    · rw [if_neg hneg] at hr
      have ht : trimmed (decimalDigits (n.natAbs + 1) n.natAbs)
          = decimalDigits (n.natAbs + 1) n.natAbs :=
        trimmed_of_no_space _ (fun c hc => isSpace_of_isDigit c (hdig c hc))
      simp only [ht] at hr
      cases hd : decimalDigits (n.natAbs + 1) n.natAbs with
      | nil => exact absurd hd hne
      | cons a t =>
        have ha : QChar.isDigit a = true := hdig a (by rw [hd]; exact List.mem_cons_self _ _)
        have ha1 : a ≠ '-' := by
          intro hh
          rw [hh] at ha
          exact absurd ha (by decide)
        have ha2 : a ≠ '+' := by
          intro hh
          rw [hh] at ha
          exact absurd ha (by decide)
        rw [hd] at hr
        simp only [List.head?_cons, Option.some.injEq, ha1, ha2, if_false] at hr
        rw [← hd] at hr
        obtain ⟨_, _, p3, p4, p5⟩ := parseDigits_some _ _ _ hr
        rw [hval] at p3
        simp only [Bool.false_eq_true, if_false] at p3
        omega

theorem isInt64Text_has_digit (s : String) (h : IsInt64Text s) :
    ∃ c ∈ s.data, QChar.isDigit c = true := by
  obtain ⟨leading, trailing, sign, digits, n, h1, _, _, h4, h5, _⟩ := h
  cases digits with
  | nil => exact absurd rfl h4
  | cons a t =>
    exact ⟨a, by rw [h1]; simp, h5 a (List.mem_cons_self _ _)⟩

end QString

/-! ## The package object -/

namespace Package

theorem asString_toJsonObjectV1 (p : Package) :
    JsonUtil.asString p.toJsonObjectV1 "from" = some p.from_
      ∧ JsonUtil.asString p.toJsonObjectV1 "to" = some p.to_
      ∧ JsonUtil.asString p.toJsonObjectV1 "size" = some (QString.number p.size) := by
  have h1 : ("from" : String) ≠ "to" := by decide
  have h2 : ("from" : String) ≠ "size" := by decide
  have h3 : ("to" : String) ≠ "size" := by decide
  have h4 : ("size" : String) ≠ "from" := by decide
  have h5 : ("size" : String) ≠ "to" := by decide
  have h6 : ("to" : String) ≠ "from" := by decide
  refine ⟨?_, ?_, ?_⟩ <;>
    simp [toJsonObjectV1, QJsonObject.insert, QJsonObject.value, QJsonObject.empty,
      JsonUtil.asString, List.find?, h1, h2, h3, h4, h5, h6]

theorem asString_objectWithSize (from_ to_ size : String) :
    JsonUtil.asString (objectWithSize from_ to_ size) "from" = some from_
      ∧ JsonUtil.asString (objectWithSize from_ to_ size) "to" = some to_
      ∧ JsonUtil.asString (objectWithSize from_ to_ size) "size" = some size := by
  have h1 : ("from" : String) ≠ "to" := by decide
  have h2 : ("from" : String) ≠ "size" := by decide
  have h3 : ("to" : String) ≠ "size" := by decide
  have h4 : ("size" : String) ≠ "from" := by decide
  have h5 : ("size" : String) ≠ "to" := by decide
  have h6 : ("to" : String) ≠ "from" := by decide
  refine ⟨?_, ?_, ?_⟩ <;>
    simp [objectWithSize, QJsonObject.insert, QJsonObject.value, QJsonObject.empty,
      JsonUtil.asString, List.find?, h1, h2, h3, h4, h5, h6]

theorem fromJsonObjectV1_of_members (packageObject : QJsonObject) (from_ to_ size : String)
    (hfrom : JsonUtil.asString packageObject "from" = some from_)
    (hto : JsonUtil.asString packageObject "to" = some to_)
    (hsize : JsonUtil.asString packageObject "size" = some size) :
    fromJsonObjectV1 packageObject =
      match QString.toLongLong size with
      | none => Except.error (DecodeFailure.thrown "package 'size' is not a qint64 string")
      | some n => Except.ok { to_ := to_, from_ := from_, size := n } := by
  unfold fromJsonObjectV1
  simp only [hfrom, hto, hsize]

/-- C9: for every `Package` with any `from` and `to` strings and any 64-bit size,
`fromJsonObjectV1` applied to the object of `toJsonObjectV1` yields the package again,
with the identical `from`, `to` and `size`. -/
theorem fromJsonObjectV1_toJsonObjectV1 (p : Package)
    (hmin : -9223372036854775808 ≤ p.size) (hmax : p.size ≤ 9223372036854775807) :
    fromJsonObjectV1 p.toJsonObjectV1 = Except.ok p := by
  obtain ⟨a, b, c⟩ := asString_toJsonObjectV1 p
  rw [fromJsonObjectV1_of_members _ _ _ _ a b c, QString.toLongLong_number p.size hmin hmax]

/-- Witness of C9: the sizes `0`, `1` and `9223372036854775807`. -/
theorem fromJsonObjectV1_toJsonObjectV1_witness :
    fromJsonObjectV1 (toJsonObjectV1 { to_ := "2.0", from_ := "1.0", size := 0 })
        = Except.ok { to_ := "2.0", from_ := "1.0", size := 0 }
      ∧ fromJsonObjectV1 (toJsonObjectV1 { to_ := "2.0", from_ := "", size := 1 })
        = Except.ok { to_ := "2.0", from_ := "", size := 1 }
      ∧ fromJsonObjectV1
          (toJsonObjectV1 { to_ := "2.0", from_ := "1.0", size := 9223372036854775807 })
        = Except.ok { to_ := "2.0", from_ := "1.0", size := 9223372036854775807 } :=
  ⟨fromJsonObjectV1_toJsonObjectV1 _ (by decide) (by decide),
    fromJsonObjectV1_toJsonObjectV1 _ (by decide) (by decide),
    fromJsonObjectV1_toJsonObjectV1 _ (by decide) (by decide)⟩

/-- C10: on a package object whose members `from`, `to` and `size` are strings,
`fromJsonObjectV1` fails with `package 'size' is not a qint64 string` for every `size`
that is not the decimal text of a 64-bit integer, in particular for a text without any
digit (non-numeric text, the empty string) and for the decimal text of a value outside
the 64-bit range; and it does not fail on the object `toJsonObjectV1` produces for a
package with a 64-bit size. -/
theorem fromJsonObjectV1_size_format (packageObject : QJsonObject) (from_ to_ size : String)
    (hfrom : JsonUtil.asString packageObject "from" = some from_)
    (hto : JsonUtil.asString packageObject "to" = some to_)
    (hsize : JsonUtil.asString packageObject "size" = some size) :
    (¬ QString.IsInt64Text size →
        fromJsonObjectV1 packageObject
          = Except.error (DecodeFailure.thrown "package 'size' is not a qint64 string"))
      ∧ ((∀ c ∈ size.data, QChar.isDigit c = false) →
        fromJsonObjectV1 packageObject
          = Except.error (DecodeFailure.thrown "package 'size' is not a qint64 string"))
      ∧ (∀ n : Int, n < -9223372036854775808 ∨ 9223372036854775807 < n →
        size = QString.number n →
        fromJsonObjectV1 packageObject
          = Except.error (DecodeFailure.thrown "package 'size' is not a qint64 string"))
      ∧ (∀ p : Package, -9223372036854775808 ≤ p.size → p.size ≤ 9223372036854775807 →
        ∀ failure, fromJsonObjectV1 p.toJsonObjectV1 ≠ Except.error failure) := by
  have hnot : ¬ QString.IsInt64Text size →
      fromJsonObjectV1 packageObject
        = Except.error (DecodeFailure.thrown "package 'size' is not a qint64 string") := by
    intro h
    rw [fromJsonObjectV1_of_members _ _ _ _ hfrom hto hsize]
    cases hp : QString.toLongLong size with
    | none => rfl
    | some n => exact absurd (QString.toLongLong_some size n hp).1 h
  refine ⟨hnot, ?_, ?_, ?_⟩
  · intro hnodigit
    apply hnot
    intro htext
    obtain ⟨c, hc, hd⟩ := QString.isInt64Text_has_digit size htext
    rw [hnodigit c hc] at hd
    cases hd
  · intro n hn hs
    rw [fromJsonObjectV1_of_members _ _ _ _ hfrom hto hsize, hs,
      QString.toLongLong_number_out_of_range n hn]
  · intro p hmin hmax failure h
    obtain ⟨a, b, c⟩ := asString_toJsonObjectV1 p
    rw [fromJsonObjectV1_of_members _ _ _ _ a b c,
      QString.toLongLong_number p.size hmin hmax] at h
    cases h

/-- Witness of C10: the sizes `abc`, the empty string and `9223372036854775808`. -/
theorem fromJsonObjectV1_size_format_witness :
    fromJsonObjectV1 (objectWithSize "1.0" "2.0" "abc")
        = Except.error (DecodeFailure.thrown "package 'size' is not a qint64 string")
      ∧ fromJsonObjectV1 (objectWithSize "1.0" "2.0" "")
        = Except.error (DecodeFailure.thrown "package 'size' is not a qint64 string")
      ∧ fromJsonObjectV1 (objectWithSize "1.0" "2.0" "9223372036854775808")
        = Except.error (DecodeFailure.thrown "package 'size' is not a qint64 string") := by
  obtain ⟨a1, b1, c1⟩ := asString_objectWithSize "1.0" "2.0" "abc"
  obtain ⟨a2, b2, c2⟩ := asString_objectWithSize "1.0" "2.0" ""
  obtain ⟨a3, b3, c3⟩ := asString_objectWithSize "1.0" "2.0" "9223372036854775808"
  refine ⟨?_, ?_, ?_⟩
  · refine (fromJsonObjectV1_size_format _ "1.0" "2.0" "abc" a1 b1 c1).1 ?_
    intro h
    obtain ⟨c, hc, hd⟩ := QString.isInt64Text_has_digit _ h
    have hno : ∀ c ∈ ("abc" : String).data, QChar.isDigit c = false := by decide
    rw [hno c hc] at hd
    cases hd
  · exact (fromJsonObjectV1_size_format _ "1.0" "2.0" "" a2 b2 c2).2.1 (by decide)
  · exact (fromJsonObjectV1_size_format _ "1.0" "2.0" "9223372036854775808" a3 b3 c3).2.2.1
      9223372036854775808 (by decide) (by decide)


end Package

namespace Packager

open QFileInfo PackagerTask

/-! ## A tree compared with itself -/

theorem filter_git_cons_of_ne (c : QFileInfo) (cs : QFileInfoList) (h : ¬ c.fileName = ".git") :
    (c :: cs).filter (fun f => !decide (f.fileName = ".git"))
      = c :: cs.filter (fun f => !decide (f.fileName = ".git")) :=
  List.filter_cons_of_pos (by simp [h])

theorem filter_git_cons_of_eq (c : QFileInfo) (cs : QFileInfoList) (h : c.fileName = ".git") :
    (c :: cs).filter (fun f => !decide (f.fileName = ".git"))
      = cs.filter (fun f => !decide (f.fileName = ".git")) :=
  List.filter_cons_of_neg (by simp [h])


mutual
theorem compareDirectories_same_dir : (path : String) → (d : QFileInfo) →
    compareDirectories path (dirList d.entryInfoList) (dirList d.entryInfoList) =
      (addedFiles d).map (fun e => addTask Type_.Patch (path ++ e.1) e.2 e.2)
  | path, QFileInfo.mk n fp k l => by
    rw [dirList_eq_filter]
    simp only [entryInfoList, addedFiles]
    exact compareDirectories_same_listing path l
theorem compareDirectories_same_listing : (path : String) → (l : List QFileInfo) →
    compareDirectories path (l.filter (fun f => !decide (f.fileName = ".git")))
        (l.filter (fun f => !decide (f.fileName = ".git"))) =
      (addedFilesList l).map (fun e => addTask Type_.Patch (path ++ e.1) e.2 e.2)
  | path, [] => by simp [compareDirectories_nil_nil, addedFilesList]
  | path, c :: cs => by
    have ih1 := compareDirectories_same_dir (path ++ c.fileName ++ "/") c
    have ih2 := compareDirectories_same_listing path cs
    by_cases hg : c.fileName = ".git"
    · simp only [addedFilesList, hg, if_true, List.nil_append]
      rw [List.filter_cons_of_neg (by simp [hg])]
      exact ih2
    · rw [List.filter_cons_of_pos (by simp [hg]),
        compareDirectories_cons_cons_eq _ _ _ _ _ (compare_self _), ih2]
      simp only [addedFilesList, if_neg hg, List.map_append]
      congr 1
      by_cases hf : c.isFile = true
      · simp [hf]
      · rw [if_neg hf, if_neg hf]
        by_cases hd : c.isDir = true
        · rw [if_pos hd, if_pos hd]
          simp only [hd, Bool.not_true, Bool.false_eq_true, if_false]
          rw [ih1, List.map_map]
          apply List.map_congr_left
          intro e _
          simp [String.append_assoc]
        · simp [hd]
end

/-- C20: comparing a tree with itself, the same listing on the new and the old side at
every depth, emits exactly one `Patch` task per file of the tree, depth first in listing
order, with the file as new and as old file, and no task of another kind. -/
theorem compareDirectories_same_tree (path : String) (entryInfoList : QFileInfoList) :
    compareDirectories path (dirList entryInfoList) (dirList entryInfoList)
        = (addedFilesList entryInfoList).map
            (fun e => addTask Type_.Patch (path ++ e.1) e.2 e.2)
      ∧ (compareDirectories path (dirList entryInfoList) (dirList entryInfoList)).all
          (fun t => decide (t.type = Type_.Patch)) = true := by
  have h : compareDirectories path (dirList entryInfoList) (dirList entryInfoList)
      = (addedFilesList entryInfoList).map
          (fun e => addTask Type_.Patch (path ++ e.1) e.2 e.2) := by
    rw [dirList_eq_filter]
    exact compareDirectories_same_listing path entryInfoList
  refine ⟨h, ?_⟩
  rw [h, List.all_eq_true]
  intro t ht
  obtain ⟨e, _, he⟩ := List.mem_map.mp ht
  rw [← he]
  rfl

/-! ## The files of the new tree -/

theorem addPatchPaths_append (a b : List PackagerTask) :
    addPatchPaths (a ++ b) = addPatchPaths a ++ addPatchPaths b := by
  simp [addPatchPaths, List.filter_append]

theorem addPatchPaths_nil : addPatchPaths [] = [] := rfl

theorem addPatchPaths_cons (t : PackagerTask) (l : List PackagerTask) :
    addPatchPaths (t :: l) = addPatchPaths [t] ++ addPatchPaths l :=
  addPatchPaths_append [t] l

theorem addPatchPaths_addRemoveDirTask (p : String) (d : QFileInfo) :
    addPatchPaths (addRemoveDirTask p d) = [] := by
  unfold addPatchPaths
  rw [List.map_eq_nil_iff, List.filter_eq_nil_iff]
  intro t ht
  rcases addRemoveDirTask_kinds p d t ht with h | h
  · rw [h]
    simp [addTask, PackagerTask.new]
  · rw [h]
    simp [addTask, PackagerTask.new]

theorem addPatchPaths_adds (p : String) (l : List (String × String)) :
    addPatchPaths (l.map (fun e => addTask Type_.Add (p ++ e.1) e.2 "")) =
      l.map (fun e => p ++ e.1) := by
  induction l with
  | nil => rfl
  | cons e l ih =>
    rw [List.map_cons, addPatchPaths_cons, ih]
    simp [addPatchPaths, addTask, PackagerTask.new]

/-- The paths the new entry `c` contributes, relative to the listing it is in. -/
theorem addedFilesList_cons_of_ne (c : QFileInfo) (cs : QFileInfoList)
    (h : ¬ c.fileName = ".git") :
    addedFilesList (c :: cs) =
      (if c.isFile then [(c.fileName, c.filePath)]
        else if c.isDir then (addedFiles c).map (fun e => (c.fileName ++ "/" ++ e.1, e.2))
        else []) ++ addedFilesList cs := by
  rw [addedFilesList, if_neg h]

theorem addedFiles_eq (d : QFileInfo) : addedFiles d = addedFilesList d.entryInfoList := by
  cases d
  simp [addedFiles, entryInfoList]

/-- What a new entry without counterpart contributes. -/
theorem addPatchPaths_new_only (path : String) (c : QFileInfo) :
    addPatchPaths
        (if c.isFile then [addTask Type_.Add (path ++ c.fileName) c.filePath ""]
          else if c.isDir then
            compareDirectories (path ++ c.fileName ++ "/") (dirList c.entryInfoList) []
          else []) =
      (if c.isFile then [(c.fileName, c.filePath)]
        else if c.isDir then (addedFiles c).map (fun e => (c.fileName ++ "/" ++ e.1, e.2))
        else []).map (fun e => path ++ e.1) := by
  by_cases hf : c.isFile = true
  · simp [hf, addPatchPaths, addTask, PackagerTask.new]
  · rw [if_neg hf, if_neg hf]
    by_cases hd : c.isDir = true
    · rw [if_pos hd, if_pos hd, compareDirectories_new_dir, addPatchPaths_adds, List.map_map]
      apply List.map_congr_left
      intro e _
      simp [String.append_assoc]
    · simp [hd, addPatchPaths]

theorem addPatchPaths_compareDirectories (m : Nat) :
    ∀ (path : String) (n o : QFileInfoList), weightList n + weightList o = m →
      addPatchPaths (compareDirectories path
          (n.filter (fun f => !decide (f.fileName = ".git")))
          (o.filter (fun f => !decide (f.fileName = ".git")))) =
        (addedFilesList n).map (fun e => path ++ e.1) := by
  induction m using Nat.strong_induction_on with
  | _ m ih =>
    intro path n o hm
    cases n with
    | nil =>
      cases o with
      | nil => simp [compareDirectories_nil_nil, addedFilesList, addPatchPaths]
      | cons d ds =>
        have hw := weight_pos d
        by_cases hg : d.fileName = ".git"
        · rw [filter_git_cons_of_eq d ds hg]
          exact ih (weightList [] + weightList ds) (by simp only [weightList] at hm ⊢; omega)
            path [] ds rfl
        · rw [filter_git_cons_of_ne d ds hg]
          simp only [List.filter_nil]
          rw [compareDirectories_nil_cons, addPatchPaths_append]
          have h1 := ih (weightList [] + weightList ds)
            (by simp only [weightList] at hm ⊢; omega) path [] ds rfl
          simp only [List.filter_nil] at h1
          rw [h1]
          by_cases hd : d.isDir = true
          · rw [if_pos hd, addPatchPaths_addRemoveDirTask]
            simp
          · rw [if_neg hd]
            simp [addPatchPaths, addTask, PackagerTask.new]
    | cons c cs =>
      have hwc := weight_pos c
      by_cases hgc : c.fileName = ".git"
      · rw [filter_git_cons_of_eq c cs hgc]
        have h1 := ih (weightList cs + weightList o)
          (by simp only [weightList] at hm ⊢; omega) path cs o rfl
        rw [h1]
        simp [addedFilesList, hgc]
      · rw [filter_git_cons_of_ne c cs hgc, addedFilesList_cons_of_ne c cs hgc, List.map_append]
        cases o with
        | nil =>
          simp only [List.filter_nil]
          rw [compareDirectories_cons_nil, addPatchPaths_append, addPatchPaths_new_only]
          have h1 := ih (weightList cs + weightList [])
            (by simp only [weightList] at hm ⊢; omega) path cs [] rfl
          simp only [List.filter_nil] at h1
          rw [h1]
        | cons d ds =>
          have hwd := weight_pos d
          by_cases hgd : d.fileName = ".git"
          · rw [filter_git_cons_of_eq d ds hgd]
            have h1 := ih (weightList (c :: cs) + weightList ds)
              (by simp only [weightList] at hm ⊢; omega) path (c :: cs) ds rfl
            rw [filter_git_cons_of_ne c cs hgc, addedFilesList_cons_of_ne c cs hgc,
              List.map_append] at h1
            exact h1
          · rw [filter_git_cons_of_ne d ds hgd]
            rcases Int.lt_trichotomy (QString.compare c.fileName d.fileName) 0 with hlt | heq | hgt
            · rw [compareDirectories_cons_cons_lt _ _ _ _ _ hlt, addPatchPaths_append,
                addPatchPaths_new_only]
              have h1 := ih (weightList cs + weightList (d :: ds))
                (by simp only [weightList] at hm ⊢; omega) path cs (d :: ds) rfl
              rw [filter_git_cons_of_ne d ds hgd] at h1
              rw [h1]
            · rw [compareDirectories_cons_cons_eq _ _ _ _ _ heq, addPatchPaths_append]
              have h1 := ih (weightList cs + weightList ds)
                (by simp only [weightList] at hm ⊢; omega) path cs ds rfl
              rw [h1]
              congr 1
              by_cases hf : c.isFile = true
              · rw [if_pos hf, if_pos hf]
                by_cases hof : d.isFile = true
                · simp [hof, addPatchPaths, addTask, PackagerTask.new]
                · simp only [hof, Bool.not_false, if_true]
                  rw [addPatchPaths_append, addPatchPaths_addRemoveDirTask]
                  simp [addPatchPaths, addTask, PackagerTask.new]
              · rw [if_neg hf, if_neg hf]
                by_cases hd : c.isDir = true
                · rw [if_pos hd, if_pos hd]
                  by_cases hod : d.isDir = true
                  · simp only [hod, Bool.not_true, Bool.false_eq_true, if_false]
                    rw [dirList_eq_filter, dirList_eq_filter]
                    have hc := weightList_entryInfoList_lt c
                    have hd' := weightList_entryInfoList_lt d
                    have h2 := ih (weightList c.entryInfoList + weightList d.entryInfoList)
                      (by simp only [weightList] at hm ⊢; omega) (path ++ c.fileName ++ "/")
                      c.entryInfoList d.entryInfoList rfl
                    rw [h2, addedFiles_eq, List.map_map]
                    apply List.map_congr_left
                    intro e _
                    simp [String.append_assoc]
                  · simp only [hod, Bool.not_false, if_true]
                    rw [addPatchPaths_cons, compareDirectories_new_dir, addPatchPaths_adds,
                      List.map_map]
                    have : addPatchPaths [addTask Type_.RemoveFile (path ++ c.fileName) "" ""]
                        = [] := by
                      simp [addPatchPaths, addTask, PackagerTask.new]
                    rw [this, List.nil_append]
                    apply List.map_congr_left
                    intro e _
                    simp [String.append_assoc]
                · simp [hd, addPatchPaths]
            · rw [compareDirectories_cons_cons_gt _ _ _ _ _ hgt, addPatchPaths_append]
              have h1 := ih (weightList (c :: cs) + weightList ds)
                (by simp only [weightList] at hm ⊢; omega) path (c :: cs) ds rfl
              rw [filter_git_cons_of_ne c cs hgc, addedFilesList_cons_of_ne c cs hgc,
                List.map_append] at h1
              rw [h1]
              by_cases hd : d.isDir = true
              · rw [if_pos hd, addPatchPaths_addRemoveDirTask]
                simp
              · rw [if_neg hd]
                simp [addPatchPaths, addTask, PackagerTask.new]

theorem string_append_left_cancel (s a b : String) (h : s ++ a = s ++ b) : a = b := by
  have h' := congrArg String.data h
  simp only [String.data_append] at h'
  exact String.ext (List.append_cancel_left h')

theorem name_split (a b xs ys : List Char) (ha : '/' ∉ a) (hb : '/' ∉ b)
    (hxs : xs = [] ∨ ∃ w, xs = '/' :: w) (hys : ys = [] ∨ ∃ w, ys = '/' :: w)
    (h : a ++ xs = b ++ ys) : a = b := by
  rcases hxs with hxs | ⟨w, hxs⟩
  · rcases hys with hys | ⟨w', hys⟩
    · subst hxs hys
      simpa using h
    · subst hxs hys
      rw [List.append_nil] at h
      exact (slash_split b a [] w' hb ha (Or.inl rfl) (by simpa using h)).symm
  · subst hxs
    exact slash_split a b ys w ha hb hys h.symm

theorem addedFilesList_region (l : List QFileInfo) :
    ∀ e ∈ addedFilesList l, ∃ c ∈ l, ∃ xs : List Char,
      e.1.data = c.fileName.data ++ xs ∧ (xs = [] ∨ ∃ w, xs = '/' :: w) := by
  induction l with
  | nil =>
    intro e he
    simp [addedFilesList] at he
  | cons c cs ih =>
    intro e he
    rw [addedFilesList, List.mem_append] at he
    rcases he with he | he
    · refine ⟨c, List.mem_cons_self _ _, ?_⟩
      by_cases hg : c.fileName = ".git"
      · simp [hg] at he
      · rw [if_neg hg] at he
        by_cases hf : c.isFile = true
        · rw [if_pos hf, List.mem_singleton] at he
          exact ⟨[], by rw [he]; simp, Or.inl rfl⟩
        · rw [if_neg hf] at he
          by_cases hd : c.isDir = true
          · rw [if_pos hd, List.mem_map] at he
            obtain ⟨e', _, he'⟩ := he
            refine ⟨'/' :: e'.1.data, ?_, Or.inr ⟨_, rfl⟩⟩
            rw [← he']
            simp [String.data_append]
          · simp [hd] at he
    · obtain ⟨c', hc', h⟩ := ih e he
      exact ⟨c', List.mem_cons_of_mem _ hc', h⟩

mutual
theorem addedFiles_nodup : (d : QFileInfo) → wellNamed d = true →
    ((addedFiles d).map (fun e => e.1)).Nodup
  | QFileInfo.mk n fp k l => by
    intro h
    rw [wellNamed] at h
    rw [addedFiles]
    exact addedFilesList_nodup l h
theorem addedFilesList_nodup : (l : List QFileInfo) → wellNamedList l = true →
    ((addedFilesList l).map (fun e => e.1)).Nodup
  | [] => by
    intro _
    simp [addedFilesList]
  | c :: cs => by
    intro hwf
    rw [wellNamedList] at hwf
    simp only [Bool.and_eq_true, List.all_eq_true, decide_eq_true_eq] at hwf
    obtain ⟨⟨⟨hslash, hne⟩, hc⟩, hcs⟩ := hwf
    rw [addedFilesList, List.map_append, List.nodup_append]
    refine ⟨?_, addedFilesList_nodup cs hcs, ?_⟩
    · by_cases hg : c.fileName = ".git"
      · simp [hg]
      · rw [if_neg hg]
        by_cases hf : c.isFile = true
        · simp [hf]
        · rw [if_neg hf]
          by_cases hd : c.isDir = true
          · rw [if_pos hd, List.map_map]
            have : ((fun e : String × String => e.1)
                ∘ fun e : String × String => (c.fileName ++ "/" ++ e.1, e.2))
                = (fun r => c.fileName ++ "/" ++ r) ∘ (fun e : String × String => e.1) := rfl
            rw [this, ← List.map_map]
            exact List.Nodup.map (fun a b hab => string_append_left_cancel _ a b hab)
              (addedFiles_nodup c hc)
          · simp [hd]
    · intro x hx hy
      have hx' : ∃ xs : List Char, x.data = c.fileName.data ++ xs
          ∧ (xs = [] ∨ ∃ w, xs = '/' :: w) := by
        by_cases hg : c.fileName = ".git"
        · simp [hg] at hx
        · rw [if_neg hg] at hx
          by_cases hf : c.isFile = true
          · rw [if_pos hf] at hx
            simp only [List.map_cons, List.map_nil, List.mem_singleton] at hx
            exact ⟨[], by rw [hx]; simp, Or.inl rfl⟩
          · rw [if_neg hf] at hx
            by_cases hd : c.isDir = true
            · rw [if_pos hd, List.map_map, List.mem_map] at hx
              obtain ⟨e', _, he'⟩ := hx
              refine ⟨'/' :: e'.1.data, ?_, Or.inr ⟨_, rfl⟩⟩
              rw [← he']
              simp [String.data_append]
            · simp [hd] at hx
      obtain ⟨xs, hx1, hx2⟩ := hx'
      rw [List.mem_map] at hy
      obtain ⟨e, he, hey⟩ := hy
      obtain ⟨c', hc', ys, hy1, hy2⟩ := addedFilesList_region cs e he
      rw [hey, hx1] at hy1
      have := name_split _ _ xs ys hslash (wellNamedList_slash cs hcs c' hc') hx2 hy2 hy1
      exact hne c' hc' (String.ext this).symm
end

/-- C19: the `Add` and `Patch` tasks emitted by `compareDirectories` name exactly the
files of the new tree, in depth-first listing order: their logical paths are the prefix
followed by the relative path of each file of the new tree, whatever the old tree is;
and, the names of the new tree being those of a file system (no `/` in a name, no name
twice in a directory), no logical path occurs twice among them. -/
theorem compareDirectories_add_patch_paths (path : String) (newFiles oldFiles : QFileInfoList) :
    addPatchPaths (compareDirectories path (dirList newFiles) (dirList oldFiles))
        = (addedFilesList newFiles).map (fun e => path ++ e.1)
      ∧ (wellNamedList newFiles = true →
          (addPatchPaths
            (compareDirectories path (dirList newFiles) (dirList oldFiles))).Nodup) := by
  have h : addPatchPaths (compareDirectories path (dirList newFiles) (dirList oldFiles))
      = (addedFilesList newFiles).map (fun e => path ++ e.1) := by
    rw [dirList_eq_filter, dirList_eq_filter]
    exact addPatchPaths_compareDirectories _ path newFiles oldFiles rfl
  refine ⟨h, ?_⟩
  intro hwf
  rw [h]
  have hn := addedFilesList_nodup newFiles hwf
  have : (addedFilesList newFiles).map (fun e => path ++ e.1)
      = ((addedFilesList newFiles).map (fun e => e.1)).map (fun r => path ++ r) := by
    rw [List.map_map]
    rfl
  rw [this]
  exact List.Nodup.map (fun a b hab => string_append_left_cancel _ a b hab) hn

/-- Witness of C19: old tree `{a.txt, dir/b.txt}`, new tree `{a.txt, dir/c.txt, d.txt}`:
the `Add` and `Patch` tasks are at `a.txt`, `d.txt` and `dir/c.txt`, each once. -/
theorem compareDirectories_add_patch_paths_witness :
    wellNamedList Scenario.newTree = true
      ∧ addPatchPaths (compareDirectories "" (dirList Scenario.newTree)
          (dirList Scenario.oldTree)) = ["a.txt", "d.txt", "dir/c.txt"]
      ∧ (addPatchPaths (compareDirectories "" (dirList Scenario.newTree)
          (dirList Scenario.oldTree))).Nodup := by
  have h := compareDirectories_add_patch_paths "" Scenario.newTree Scenario.oldTree
  refine ⟨by decide, ?_, h.2 (by decide)⟩
  rw [h.1]
  decide

/-! ## Entries of different types -/

theorem compareUnits_swap (a b : List Nat) :
    QString.compareUnits a b < 0 ↔ QString.compareUnits b a > 0 := by
  induction a generalizing b with
  | nil =>
    cases b with
    | nil => simp [QString.compareUnits]
    | cons y ys => simp [QString.compareUnits]
  | cons x xs ih =>
    cases b with
    | nil => simp [QString.compareUnits]
    | cons y ys =>
      simp only [QString.compareUnits]
      by_cases h1 : x < y
      · have h2 : ¬ y < x := by omega
        simp [h1, h2]
      · by_cases h2 : y < x
        · simp [h1, h2]
        · simp only [h1, h2, if_false]
          exact ih ys

theorem compare_swap (s t : String) : QString.compare s t < 0 ↔ QString.compare t s > 0 :=
  compareUnits_swap _ _

/-- The merge reaches a pair of entries before which, on both sides, only smaller names
stand. -/
theorem compareDirectories_reaches (path : String) (newFile oldFile : QFileInfo)
    (newAfter oldAfter : QFileInfoList) (m : Nat) :
    ∀ (newBefore oldBefore : QFileInfoList), newBefore.length + oldBefore.length = m →
      (∀ x ∈ newBefore, QString.compare x.fileName oldFile.fileName < 0) →
      (∀ y ∈ oldBefore, QString.compare newFile.fileName y.fileName > 0) →
      ∃ head, compareDirectories path (newBefore ++ newFile :: newAfter)
          (oldBefore ++ oldFile :: oldAfter)
        = head ++ compareDirectories path (newFile :: newAfter) (oldFile :: oldAfter) := by
  induction m using Nat.strong_induction_on with
  | _ m ih =>
    intro newBefore oldBefore hm hnew hold
    cases newBefore with
    | nil =>
      cases oldBefore with
      | nil => exact ⟨[], rfl⟩
      | cons y ys =>
        have hy := hold y (List.mem_cons_self _ _)
        obtain ⟨head, hh⟩ := ih ys.length (by simp at hm; omega) [] ys (by simp) hnew
          (fun z hz => hold z (List.mem_cons_of_mem _ hz))
        simp only [List.nil_append, List.cons_append] at hh ⊢
        rw [compareDirectories_cons_cons_gt _ _ _ _ _ hy, hh]
        exact ⟨_, (List.append_assoc _ _ _).symm⟩
    | cons x xs =>
      cases oldBefore with
      | nil =>
        have hx := hnew x (List.mem_cons_self _ _)
        obtain ⟨head, hh⟩ := ih xs.length (by simp at hm; omega) xs [] (by simp)
          (fun z hz => hnew z (List.mem_cons_of_mem _ hz)) hold
        simp only [List.nil_append, List.cons_append] at hh ⊢
        rw [compareDirectories_cons_cons_lt _ _ _ _ _ hx, hh]
        exact ⟨_, (List.append_assoc _ _ _).symm⟩
      | cons y ys =>
        simp only [List.cons_append]
        rcases Int.lt_trichotomy (QString.compare x.fileName y.fileName) 0 with hlt | heq | hgt
        · obtain ⟨head, hh⟩ := ih (xs.length + (y :: ys).length) (by simp at hm ⊢; omega)
            xs (y :: ys) rfl (fun z hz => hnew z (List.mem_cons_of_mem _ hz)) hold
          simp only [List.cons_append] at hh
          rw [compareDirectories_cons_cons_lt _ _ _ _ _ hlt, hh]
          exact ⟨_, (List.append_assoc _ _ _).symm⟩
        · obtain ⟨head, hh⟩ := ih (xs.length + ys.length) (by simp at hm ⊢; omega)
            xs ys rfl (fun z hz => hnew z (List.mem_cons_of_mem _ hz))
            (fun z hz => hold z (List.mem_cons_of_mem _ hz))
          rw [compareDirectories_cons_cons_eq _ _ _ _ _ heq, hh]
          exact ⟨_, (List.append_assoc _ _ _).symm⟩
        · obtain ⟨head, hh⟩ := ih ((x :: xs).length + ys.length) (by simp at hm ⊢; omega)
            (x :: xs) ys rfl hnew (fun z hz => hold z (List.mem_cons_of_mem _ hz))
          simp only [List.cons_append] at hh
          rw [compareDirectories_cons_cons_gt _ _ _ _ _ hgt, hh]
          exact ⟨_, (List.append_assoc _ _ _).symm⟩

theorem isDir_of_isFile {f : QFileInfo} (h : f.isFile = true) : f.isDir = false := by
  unfold isFile at h
  unfold isDir
  simp only [decide_eq_true_eq] at h
  simp [h]


/-- The tasks of a pair of same-named entries of different types: a new entry and an
old entry of the same name, each preceded in its listing by smaller names only, one of
them a file and the other a directory. The tasks emitted once the pair is reached are
the complete removal of the old side followed by the new side as wholly new: for a new
file over an old directory, the tasks of `addRemoveDirTask` at prefix + name (all of
them `RemoveFile` or `RemoveDir`), then one `Add` at prefix + name; for a new directory
over an old file, one `RemoveFile` at prefix + name, then one `Add` for every file
beneath the new directory. The comparison goes on with the entries after the pair; the
tasks `head` emitted before the pair is reached are not described here. -/
theorem compareDirectories_type_mismatch (path : String)
    (newBefore : QFileInfoList) (newFile : QFileInfo) (newAfter : QFileInfoList)
    (oldBefore : QFileInfoList) (oldFile : QFileInfo) (oldAfter : QFileInfoList)
    (hname : newFile.fileName = oldFile.fileName)
    (hnew : ∀ x ∈ newBefore, QString.compare x.fileName newFile.fileName < 0)
    (hold : ∀ y ∈ oldBefore, QString.compare y.fileName oldFile.fileName < 0) :
    (newFile.isFile = true → oldFile.isDir = true →
        ∃ head, compareDirectories path (newBefore ++ newFile :: newAfter)
            (oldBefore ++ oldFile :: oldAfter)
          = head ++ addRemoveDirTask (path ++ oldFile.fileName) oldFile
              ++ [addTask Type_.Add (path ++ newFile.fileName) newFile.filePath ""]
              ++ compareDirectories path newAfter oldAfter)
      ∧ (newFile.isDir = true → oldFile.isFile = true →
        ∃ head, compareDirectories path (newBefore ++ newFile :: newAfter)
            (oldBefore ++ oldFile :: oldAfter)
          = head ++ [addTask Type_.RemoveFile (path ++ oldFile.fileName) "" ""]
              ++ (addedFiles newFile).map
                  (fun e => addTask Type_.Add (path ++ newFile.fileName ++ "/" ++ e.1) e.2 "")
              ++ compareDirectories path newAfter oldAfter)
      ∧ (∀ t ∈ addRemoveDirTask (path ++ oldFile.fileName) oldFile,
          t.type = Type_.RemoveFile ∨ t.type = Type_.RemoveDir) := by
  have hreach := compareDirectories_reaches path newFile oldFile newAfter oldAfter _
    newBefore oldBefore rfl (fun x hx => by rw [← hname]; exact hnew x hx)
    (fun y hy => by rw [hname]; exact (compare_swap _ _).mp (hold y hy))
  have heq : QString.compare newFile.fileName oldFile.fileName = 0 := by
    rw [hname]
    exact compare_self _
  obtain ⟨head, hh⟩ := hreach
  refine ⟨?_, ?_, ?_⟩
  · intro hf hd
    refine ⟨head, ?_⟩
    rw [hh, compareDirectories_cons_cons_eq _ _ _ _ _ heq, if_pos hf]
    have hof : oldFile.isFile = false := by
      cases h : oldFile.isFile with
      | false => rfl
      | true => rw [isDir_of_isFile h] at hd; cases hd
    simp [hof]
  · intro hd hof
    refine ⟨head, ?_⟩
    have hf : ¬ newFile.isFile = true := by
      intro h
      rw [isDir_of_isFile h] at hd
      cases hd
    have hod : oldFile.isDir = false := isDir_of_isFile hof
    rw [hh, compareDirectories_cons_cons_eq _ _ _ _ _ heq, if_neg hf, if_pos hd]
    simp only [hod, Bool.not_false, if_true]
    rw [compareDirectories_new_dir, hname]
    simp [String.append_assoc]
  · intro t ht
    rcases addRemoveDirTask_kinds _ _ t ht with h | h
    · left
      rw [h]
      rfl
    · right
      rw [h]
      rfl

/-- After the file `a.txt` on both sides, the new directory `data` with the file `f.txt`
stands over the old file `data`, and the new file `item` over the old directory `item`
with the file `g.txt`. -/
theorem compareDirectories_type_mismatch_witness :
    (∃ head, compareDirectories "" ([Scenario.fileA] ++ Scenario.newDataDir :: [])
        ([Scenario.fileA] ++ Scenario.oldDataFile :: [])
      = head ++ [addTask Type_.RemoveFile "data" "" ""]
          ++ [addTask Type_.Add "data/f.txt" "new/data/f.txt" ""]
          ++ compareDirectories "" [] [])
      ∧ (∃ head, compareDirectories "" ([Scenario.fileA] ++ Scenario.newItemFile :: [])
        ([Scenario.fileA] ++ Scenario.oldItemDir :: [])
      = head ++ addRemoveDirTask "item" Scenario.oldItemDir
          ++ [addTask Type_.Add "item" "new/item" ""]
          ++ compareDirectories "" [] []) :=
  ⟨(compareDirectories_type_mismatch "" [Scenario.fileA] Scenario.newDataDir []
      [Scenario.fileA] Scenario.oldDataFile [] rfl (by decide) (by decide)).2.1
      (by decide) (by decide),
    (compareDirectories_type_mismatch "" [Scenario.fileA] Scenario.newItemFile []
      [Scenario.fileA] Scenario.oldItemDir [] rfl (by decide) (by decide)).1
      (by decide) (by decide)⟩

/-! ## Entries named .git -/

theorem prune_fileName (c : QFileInfo) : (prune c).fileName = c.fileName := by
  cases c
  simp [prune, fileName]

theorem prune_filePath (c : QFileInfo) : (prune c).filePath = c.filePath := by
  cases c
  simp [prune, filePath]

theorem prune_isFile (c : QFileInfo) : (prune c).isFile = c.isFile := by
  cases c
  simp [prune, isFile, kind]

theorem prune_isDir (c : QFileInfo) : (prune c).isDir = c.isDir := by
  cases c
  simp [prune, isDir, kind]

theorem prune_entryInfoList (c : QFileInfo) :
    (prune c).entryInfoList = pruneList c.entryInfoList := by
  cases c
  simp [prune, entryInfoList]

theorem pruneList_cons_of_ne (c : QFileInfo) (cs : QFileInfoList) (h : ¬ c.fileName = ".git") :
    pruneList (c :: cs) = prune c :: pruneList cs := by
  rw [pruneList, if_neg h]

theorem pruneList_cons_of_eq (c : QFileInfo) (cs : QFileInfoList) (h : c.fileName = ".git") :
    pruneList (c :: cs) = pruneList cs := by
  rw [pruneList, if_pos h]

theorem filter_pruneList (l : QFileInfoList) :
    (pruneList l).filter (fun f => !decide (f.fileName = ".git")) = pruneList l := by
  induction l with
  | nil => simp [pruneList]
  | cons c cs ih =>
    by_cases hg : c.fileName = ".git"
    · rw [pruneList_cons_of_eq c cs hg]
      exact ih
    · rw [pruneList_cons_of_ne c cs hg,
        List.filter_cons_of_pos (by simp [prune_fileName, hg]), ih]

theorem dirList_prune (c : QFileInfo) :
    dirList (prune c).entryInfoList = pruneList c.entryInfoList := by
  rw [prune_entryInfoList, dirList_eq_filter, filter_pruneList]

mutual
theorem gitFree_prune : (d : QFileInfo) → gitFree (prune d) = true
  | QFileInfo.mk n p k l => by
    rw [prune, gitFree]
    exact gitFreeList_pruneList l
theorem gitFreeList_pruneList : (l : List QFileInfo) → gitFreeList (pruneList l) = true
  | [] => by simp [pruneList, gitFreeList]
  | c :: cs => by
    by_cases hg : c.fileName = ".git"
    · rw [pruneList_cons_of_eq c cs hg]
      exact gitFreeList_pruneList cs
    · rw [pruneList_cons_of_ne c cs hg, gitFreeList]
      simp [prune_fileName, hg, gitFree_prune c, gitFreeList_pruneList cs]
end

mutual
theorem addRemoveDirTask_prune : (p : String) → (d : QFileInfo) →
    addRemoveDirTask p d = addRemoveDirTask p (prune d)
  | p, QFileInfo.mk n fp k l => by
    rw [addRemoveDirTask_eq, addRemoveDirTask_eq, dirList_prune, dirList_eq_filter]
    simp only [entryInfoList]
    rw [addRemoveDirTaskLoop_prune p l]
theorem addRemoveDirTaskLoop_prune : (p : String) → (l : List QFileInfo) →
    addRemoveDirTaskLoop p (l.filter (fun f => !decide (f.fileName = ".git")))
      = addRemoveDirTaskLoop p (pruneList l)
  | p, [] => by simp [pruneList]
  | p, c :: cs => by
    have ih1 := addRemoveDirTask_prune (p ++ "/" ++ c.fileName) c
    have ih2 := addRemoveDirTaskLoop_prune p cs
    rw [addRemoveDirTaskLoop_filter_cons]
    by_cases hg : c.fileName = ".git"
    · rw [pruneList_cons_of_eq c cs hg, if_pos hg, ih2]
      simp
    · rw [pruneList_cons_of_ne c cs hg, if_neg hg, addRemoveDirTaskLoop_cons, ih2,
        prune_isDir, prune_fileName, ← ih1]
end


theorem compareDirectories_prune (m : Nat) :
    ∀ (path : String) (n o : QFileInfoList), weightList n + weightList o = m →
      compareDirectories path (n.filter (fun f => !decide (f.fileName = ".git")))
          (o.filter (fun f => !decide (f.fileName = ".git")))
        = compareDirectories path (pruneList n) (pruneList o) := by
  induction m using Nat.strong_induction_on with
  | _ m ih =>
    intro path n o hm
    have hsub : ∀ (q : String) (c : QFileInfo), weight c ≤ m →
        compareDirectories q (dirList c.entryInfoList) []
          = compareDirectories q (dirList (prune c).entryInfoList) [] := by
      intro q c hc
      have hlt := weightList_entryInfoList_lt c
      have := ih (weightList c.entryInfoList + weightList []) (by simp only [weightList]; omega)
        q c.entryInfoList [] rfl
      simp only [List.filter_nil] at this
      rw [dirList_prune, dirList_eq_filter, this]
      rfl
    cases n with
    | nil =>
      cases o with
      | nil => rfl
      | cons d ds =>
        have hw := weight_pos d
        have h1 := ih (weightList [] + weightList ds)
          (by simp only [weightList] at hm ⊢; omega) path [] ds rfl
        by_cases hg : d.fileName = ".git"
        · rw [filter_git_cons_of_eq d ds hg, pruneList_cons_of_eq d ds hg]
          exact h1
        · rw [filter_git_cons_of_ne d ds hg, pruneList_cons_of_ne d ds hg]
          simp only [List.filter_nil, pruneList] at h1 ⊢
          rw [compareDirectories_nil_cons, compareDirectories_nil_cons, h1, prune_isDir,
            prune_fileName, ← addRemoveDirTask_prune]
    | cons c cs =>
      have hwc := weight_pos c
      by_cases hgc : c.fileName = ".git"
      · rw [filter_git_cons_of_eq c cs hgc, pruneList_cons_of_eq c cs hgc]
        exact ih (weightList cs + weightList o)
          (by simp only [weightList] at hm ⊢; omega) path cs o rfl
      · rw [filter_git_cons_of_ne c cs hgc, pruneList_cons_of_ne c cs hgc]
        cases o with
        | nil =>
          have h1 := ih (weightList cs + weightList [])
            (by simp only [weightList] at hm ⊢; omega) path cs [] rfl
          simp only [List.filter_nil, pruneList] at h1 ⊢
          rw [compareDirectories_cons_nil, compareDirectories_cons_nil, h1, prune_isFile,
            prune_isDir, prune_fileName, prune_filePath,
            ← hsub _ c (by simp only [weightList] at hm; omega)]
        | cons d ds =>
          have hwd := weight_pos d
          by_cases hgd : d.fileName = ".git"
          · rw [filter_git_cons_of_eq d ds hgd, pruneList_cons_of_eq d ds hgd]
            have h1 := ih (weightList (c :: cs) + weightList ds)
              (by simp only [weightList] at hm ⊢; omega) path (c :: cs) ds rfl
            rw [filter_git_cons_of_ne c cs hgc, pruneList_cons_of_ne c cs hgc] at h1
            exact h1
          · rw [filter_git_cons_of_ne d ds hgd, pruneList_cons_of_ne d ds hgd]
            rcases Int.lt_trichotomy (QString.compare c.fileName d.fileName) 0 with hlt | heq | hgt
            · have h1 := ih (weightList cs + weightList (d :: ds))
                (by simp only [weightList] at hm ⊢; omega) path cs (d :: ds) rfl
              rw [filter_git_cons_of_ne d ds hgd, pruneList_cons_of_ne d ds hgd] at h1
              rw [compareDirectories_cons_cons_lt _ _ _ _ _ hlt,
                compareDirectories_cons_cons_lt _ _ _ _ _
                  (by rw [prune_fileName, prune_fileName]; exact hlt),
                h1, prune_isFile, prune_isDir, prune_fileName, prune_filePath,
                ← hsub _ c (by simp only [weightList] at hm; omega)]
            · have h1 := ih (weightList cs + weightList ds)
                (by simp only [weightList] at hm ⊢; omega) path cs ds rfl
              have hc := weightList_entryInfoList_lt c
              have hd := weightList_entryInfoList_lt d
              have h2 := ih (weightList c.entryInfoList + weightList d.entryInfoList)
                (by simp only [weightList] at hm ⊢; omega) (path ++ c.fileName ++ "/")
                c.entryInfoList d.entryInfoList rfl
              rw [compareDirectories_cons_cons_eq _ _ _ _ _ heq,
                compareDirectories_cons_cons_eq _ _ _ _ _
                  (by rw [prune_fileName, prune_fileName]; exact heq),
                h1, prune_isFile, prune_isDir, prune_isFile, prune_isDir, prune_fileName,
                prune_fileName, prune_filePath, prune_filePath,
                ← hsub _ c (by simp only [weightList] at hm; omega),
                ← addRemoveDirTask_prune, dirList_prune, dirList_prune, ← h2,
                ← dirList_eq_filter, ← dirList_eq_filter]
            · have h1 := ih (weightList (c :: cs) + weightList ds)
                (by simp only [weightList] at hm ⊢; omega) path (c :: cs) ds rfl
              rw [filter_git_cons_of_ne c cs hgc, pruneList_cons_of_ne c cs hgc] at h1
              rw [compareDirectories_cons_cons_gt _ _ _ _ _ hgt,
                compareDirectories_cons_cons_gt _ _ _ _ _
                  (by rw [prune_fileName, prune_fileName]; exact hgt),
                h1, prune_isDir, prune_fileName, prune_fileName, ← addRemoveDirTask_prune]

/-- C18: `dirList` returns the listing it is given (the entries of the directory sorted
by name) without the entries named exactly `.git`, all other entries kept in their
order; and as `compareDirectories` and `addRemoveDirTask` list every directory beneath
with `dirList`, their tasks for trees are the tasks for the same trees with the entries
named `.git` taken out at every depth, trees in which no listing at any depth holds an
entry named `.git`. -/
theorem dirList_excludes_git (path : String) (newFiles oldFiles : QFileInfoList)
    (pathInfo : QFileInfo) :
    dirList newFiles = newFiles.filter (fun f => !decide (f.fileName = ".git"))
      ∧ (dirList newFiles).all (fun f => decide (f.fileName ≠ ".git")) = true
      ∧ List.Sublist (dirList newFiles) newFiles
      ∧ compareDirectories path (dirList newFiles) (dirList oldFiles)
          = compareDirectories path (pruneList newFiles) (pruneList oldFiles)
      ∧ addRemoveDirTask path pathInfo = addRemoveDirTask path (prune pathInfo)
      ∧ gitFreeList (pruneList newFiles) = true
      ∧ gitFree (prune pathInfo) = true := by
  refine ⟨dirList_eq_filter newFiles, ?_, ?_, ?_, addRemoveDirTask_prune path pathInfo,
    gitFreeList_pruneList newFiles, gitFree_prune pathInfo⟩
  · rw [dirList_eq_filter, List.all_eq_true]
    intro f hf
    have := (List.mem_filter.mp hf).2
    simpa using this
  · rw [dirList_eq_filter]
    exact List.filter_sublist newFiles
  · rw [dirList_eq_filter, dirList_eq_filter]
    exact compareDirectories_prune _ path newFiles oldFiles rfl

end Packager

namespace Packager

open QFileInfo PackagerTask

/-! ## The operations of the metadata -/

theorem assembleLoop_metadata (files : String → Option QFile) :
    ∀ (tasks : List PackagerTask) (st st' : AssemblyState),
      assembleLoop files tasks st = Except.ok st' →
      ∃ added, st'.metadata.operations = st.metadata.operations ++ added
        ∧ List.Forall₂ KeepsOperation tasks added
        ∧ ∀ m : PackageMetadata, assembleLoop files tasks { st with metadata := m }
            = Except.ok { st' with metadata :=
                { operations := m.operations ++ added, package := m.package } } := by
  intro tasks
  induction tasks with
  | nil =>
    intro st st' h
    simp only [assembleLoop] at h
    cases h
    exact ⟨[], by simp, List.Forall₂.nil, fun m => by simp [assembleLoop]⟩
  | cons task rest ih =>
    intro st st' h
    rw [assembleLoop] at h
    cases he : task.errorString with
    | some e => simp [he] at h
    | none =>
      simp only [he] at h
      cases ho : task.operation with
      | none => simp [ho] at h
      | some op =>
        simp only [ho] at h
        by_cases hp : op.size > 0
        · rw [if_pos hp] at h
          cases hf : files op.dataFilename with
          | none => simp [hf] at h
          | some f =>
            simp only [hf] at h
            cases hc : copyLoop f 0 st.deltaFile with
            | error e => simp [hc] at h
            | ok d =>
              simp only [hc] at h
              obtain ⟨added, h1, h2, h3⟩ := ih _ st' h
              refine ⟨{ op with offset := st.totalSize } :: added, ?_, ?_, ?_⟩
              · rw [h1]
                simp [PackageMetadata.addOperation]
              · exact List.Forall₂.cons ⟨op, ho, rfl, rfl, fun hle => absurd hp (by omega)⟩ h2
              · intro m
                rw [assembleLoop]
                simp only [he, ho, if_pos hp, hf, hc]
                have := h3 (m.addOperation { op with offset := st.totalSize })
                simp only [PackageMetadata.addOperation, List.append_assoc,
                  List.singleton_append] at this ⊢
                exact this
        · rw [if_neg hp] at h
          obtain ⟨added, h1, h2, h3⟩ := ih _ st' h
          refine ⟨op :: added, ?_, ?_, ?_⟩
          · rw [h1]
            simp [PackageMetadata.addOperation]
          · exact List.Forall₂.cons ⟨op, ho, rfl, rfl, fun _ => rfl⟩ h2
          · intro m
            rw [assembleLoop]
            simp only [he, ho, if_neg hp]
            have := h3 (m.addOperation op)
            simp only [PackageMetadata.addOperation, List.append_assoc,
              List.singleton_append] at this ⊢
            exact this

/-- C15: on every successful run the operations of the metadata are the operations of
the tasks, one per task and in the order of the task list (an operation with a payload
has its offset set, otherwise it is unchanged). A task whose operation has no payload is
in the metadata at the position of the task, and the run without that task gives the same
delta file and the same metadata apart from that entry: the operation adds no bytes and
shifts no offset. -/
theorem generateFinal_keeps_every_operation (files : String → Option QFile)
    (deltaFile : DeltaFile) (newRevisionName oldRevisionName : String) :
    (∀ tasks delta' metadata,
        generateFinal files tasks deltaFile newRevisionName oldRevisionName
          = Except.ok (delta', metadata) →
        List.Forall₂ KeepsOperation tasks metadata.operations)
      ∧ (∀ before task after op delta' metadata,
          task.operation = some op → op.size ≤ 0 →
          generateFinal files (before ++ task :: after) deltaFile newRevisionName
            oldRevisionName = Except.ok (delta', metadata) →
          metadata.operations[before.length]? = some op
            ∧ generateFinal files (before ++ after) deltaFile newRevisionName oldRevisionName
              = Except.ok (delta',
                  { metadata with
                    operations := metadata.operations.eraseIdx before.length })) := by
  constructor
  · intro tasks delta' metadata hrun
    obtain ⟨st, hloop, _, hm⟩ := generateFinal_ok _ _ _ _ _ _ _ hrun
    obtain ⟨added, h1, h2, _⟩ := assembleLoop_metadata files tasks _ st hloop
    rw [hm, PackageMetadata.setPackage, h1]
    simpa [PackageMetadata.empty] using h2
  · intro before task after op delta' metadata hop hsize hrun
    obtain ⟨st, hloop, hd, hm⟩ := generateFinal_ok _ _ _ _ _ _ _ hrun
    rw [assembleLoop_append] at hloop
    cases hpre : assembleLoop files before
        { totalSize := 0, deltaFile := deltaFile, metadata := PackageMetadata.empty } with
    | error e => simp [hpre] at hloop
    | ok st1 =>
      simp only [hpre] at hloop
      obtain ⟨added1, a1, a2, _⟩ := assembleLoop_metadata files before _ st1 hpre
      have hlen : added1.length = before.length := (List.Forall₂.length_eq a2).symm
      have hst1 : st1.metadata.operations = added1 := by
        rw [a1]
        simp [PackageMetadata.empty]
      rw [assembleLoop] at hloop
      cases he : task.errorString with
      | some e => simp [he] at hloop
      | none =>
        have hp : ¬ op.size > 0 := by omega
        simp only [he, hop, if_neg hp] at hloop
        obtain ⟨added2, b1, _, b3⟩ := assembleLoop_metadata files after _ st hloop
        have hops : metadata.operations = added1 ++ op :: added2 := by
          rw [hm, PackageMetadata.setPackage, b1]
          simp [PackageMetadata.addOperation, hst1]
        have hops' : st.metadata.operations = added1 ++ op :: added2 := by
          rw [b1]
          simp [PackageMetadata.addOperation, hst1]
        have hrest := b3 st1.metadata
        refine ⟨?_, ?_⟩
        · rw [hops, ← hlen, List.getElem?_append_right (Nat.le_refl _)]
          simp
        · unfold generateFinal
          rw [assembleLoop_append, hpre]
          simp only [] at hrest ⊢
          rw [hrest]
          have hflush : st.deltaFile.flushOk = true := by
            unfold generateFinal at hrun
            rw [assembleLoop_append, hpre] at hrun
            simp only [] at hrun
            rw [assembleLoop] at hrun
            simp only [he, hop, if_neg hp, hloop] at hrun
            by_cases hfl : st.deltaFile.flushOk = true
            · exact hfl
            · simp [hfl] at hrun
          simp only [hflush, Bool.not_true, Bool.false_eq_true, if_false]
          rw [hd, hm]
          simp only [PackageMetadata.setPackage]
          rw [hops', hst1, ← hlen, List.eraseIdx_append_of_length_le (Nat.le_refl _)]
          simp

/-- Witness of C15: the tasks with payloads of three, zero and two bytes; the operation
without payload is the second entry of the metadata, and without its task the run gives
the same delta file and the two other entries. -/
theorem generateFinal_keeps_every_operation_witness :
    ∃ delta' metadata,
      generateFinal Scenario.payloadFiles
          ([Scenario.taskAdd] ++ Scenario.taskRemove :: [Scenario.taskPatch])
          Scenario.freshDelta "2.0" "1.0" = Except.ok (delta', metadata)
        ∧ List.Forall₂ KeepsOperation
          ([Scenario.taskAdd] ++ Scenario.taskRemove :: [Scenario.taskPatch])
          metadata.operations
        ∧ metadata.operations[1]? = some { size := 0, offset := 0, dataFilename := "" }
        ∧ generateFinal Scenario.payloadFiles ([Scenario.taskAdd] ++ [Scenario.taskPatch])
            Scenario.freshDelta "2.0" "1.0"
          = Except.ok (delta',
              { metadata with operations := metadata.operations.eraseIdx 1 }) := by
  obtain ⟨result, hres⟩ := generateFinal_succeeds Scenario.payloadFiles Scenario.executed
    Scenario.freshDelta "2.0" "1.0" executed_assemblable rfl rfl
  have h := generateFinal_keeps_every_operation Scenario.payloadFiles Scenario.freshDelta
    "2.0" "1.0"
  exact ⟨result.1, result.2, hres, h.1 _ _ _ hres,
    h.2 [Scenario.taskAdd] Scenario.taskRemove [Scenario.taskPatch] _ _ _ rfl (by decide) hres⟩

end Packager

namespace Package

/-! ## The package identifier -/

theorem argTokens_complete :
    QString.argTokens QString.ArgState.plain ("complete_%1" : String).data
      = [QString.ArgToken.text 'c', QString.ArgToken.text 'o', QString.ArgToken.text 'm',
          QString.ArgToken.text 'p', QString.ArgToken.text 'l', QString.ArgToken.text 'e',
          QString.ArgToken.text 't', QString.ArgToken.text 'e', QString.ArgToken.text '_',
          QString.ArgToken.marker 1 ['%', '1']] := by
  decide

theorem argTokens_patch :
    QString.argTokens QString.ArgState.plain ("patch%1_%2" : String).data
      = [QString.ArgToken.text 'p', QString.ArgToken.text 'a', QString.ArgToken.text 't',
          QString.ArgToken.text 'c', QString.ArgToken.text 'h',
          QString.ArgToken.marker 1 ['%', '1'], QString.ArgToken.text '_',
          QString.ArgToken.marker 2 ['%', '2']] := by
  decide

/-- C11: `url()` is `complete_` followed by the target revision when the base revision
is empty, and otherwise `patch` followed by the base revision, `_` and the target
revision, for all revision strings: the revisions are put in one pass and are not
scanned for place markers themselves, as the base revision `%1_%2` with the target
revision `%2` shows. -/
theorem url_eq (p : Package) :
    (p.url = if p.from_ = "" then "complete_" ++ p.to_
      else "patch" ++ p.from_ ++ "_" ++ p.to_)
      ∧ url { to_ := "%2", from_ := "%1_%2", size := 0 } = "patch%1_%2_%2"
      ∧ url { to_ := "1%1", from_ := "", size := 0 } = "complete_1%1" := by
  refine ⟨?_, by decide, by decide⟩
  unfold url
  by_cases h : p.from_ = ""
  · have he : p.from_.isEmpty = true := (String.isEmpty_iff _).mpr h
    rw [if_pos h, if_pos he]
    unfold QString.arg
    rw [argTokens_complete]
    apply String.ext
    simp [QString.lowestMarker, QString.argRender, String.data_append]
  · have he : ¬ p.from_.isEmpty = true := fun hh => h ((String.isEmpty_iff _).mp hh)
    rw [if_neg h, if_neg he]
    unfold QString.arg2
    rw [argTokens_patch]
    apply String.ext
    simp [QString.lowestMarker, QString.argRender, String.data_append]

end Package

namespace Packager

open QFileInfo PackagerTask

/-! ## The configuration check -/

theorem checkConfiguration_reason (env : Environment) (cfg : Configuration) (reason : String)
    (h : (checkConfiguration env cfg).1 = some reason) : reason ∈ configurationErrors := by
  unfold checkConfiguration at h
  unfold configurationErrors
  split_ifs at h <;> simp at h <;> simp [← h]

theorem checkConfiguration_files (env : Environment) (cfg : Configuration) (path : String)
    (content : List Nat) (h : env.files path = some content)
    (hr : (checkConfiguration env cfg).1 ≠ none) :
    (checkConfiguration env cfg).2 path = some content := by
  unfold checkConfiguration at hr ⊢
  split_ifs at hr ⊢ with h1 h2 h3 h4 h5 h6 h7 h8
  all_goals first
    | exact h
    | (simp only [writeFile]
       have hne : path ≠ cfg.deltaFilename := by
         intro he
         rw [he] at h
         simp [h] at h5
       rw [if_neg hne]
       exact h)
    | exact absurd rfl hr

theorem checkConfiguration_existing (env : Environment) (cfg : Configuration)
    (h : (env.files cfg.deltaFilename).isSome = true
      ∨ (env.files cfg.deltaMetaDataFilename).isSome = true) :
    (checkConfiguration env cfg).1 ≠ none := by
  unfold checkConfiguration
  split_ifs with h1 h2 h3 h4 h5 h6 h7 h8
  all_goals first
    | exact fun hn => Option.noConfusion hn
    | (exfalso
       rcases h with h | h
       · exact h5 h
       · apply h7
         simp only [writeFile]
         split_ifs
         · rfl
         · exact h)

/-- C14: when the delta file or the metadata file exists already as `generate` starts,
`generate` ends with one of the reasons the configuration check throws; the task list
`m_tasks` is as it was, `run()` has been called for no task, and every file that
existed has the content it had. -/
theorem generate_existing_output (env : Environment) (cfg : Configuration)
    (m_tasks : List PackagerTask)
    (h : (env.files cfg.deltaFilename).isSome = true
      ∨ (env.files cfg.deltaMetaDataFilename).isSome = true) :
    (∃ reason ∈ configurationErrors,
        (generate env cfg m_tasks).result = Except.error (Failure.thrown reason))
      ∧ (generate env cfg m_tasks).m_tasks = m_tasks
      ∧ (generate env cfg m_tasks).ran = []
      ∧ (∀ path content, env.files path = some content →
          (generate env cfg m_tasks).files path = some content) := by
  have hne := checkConfiguration_existing env cfg h
  have hfiles := fun path content hp => checkConfiguration_files env cfg path content hp hne
  have hreason := checkConfiguration_reason env cfg
  unfold generate
  cases hc : checkConfiguration env cfg with
  | mk r files =>
    rw [hc] at hne hfiles hreason
    cases r with
    | none => exact absurd rfl hne
    | some reason =>
      exact ⟨⟨reason, hreason reason rfl, rfl⟩, rfl, rfl, hfiles⟩

/-- Witness of C14: the metadata file `/srv/out.json` exists with the content `[7, 7]`; the
run ends with `Delta metadata file already exists`, the task list keeps its one task,
no task is run and `/srv/out.json` keeps its content. -/
theorem generate_existing_output_witness :
    (Scenario.metadataExistsEnv.files Scenario.emptyOldPath.deltaMetaDataFilename).isSome = true
      ∧ (generate Scenario.metadataExistsEnv Scenario.emptyOldPath [Scenario.taskAdd]).result
          = Except.error (Failure.thrown "Delta metadata file already exists")
      ∧ (generate Scenario.metadataExistsEnv Scenario.emptyOldPath [Scenario.taskAdd]).m_tasks
          = [Scenario.taskAdd]
      ∧ (generate Scenario.metadataExistsEnv Scenario.emptyOldPath [Scenario.taskAdd]).ran = []
      ∧ (generate Scenario.metadataExistsEnv Scenario.emptyOldPath [Scenario.taskAdd]).files
          "/srv/out.json" = some [7, 7] := by
  have h := generate_existing_output Scenario.metadataExistsEnv Scenario.emptyOldPath
    [Scenario.taskAdd] (Or.inr (by decide))
  exact ⟨by decide, rfl, h.2.1, h.2.2.1, h.2.2.2 "/srv/out.json" [7, 7] (by decide)⟩

/-! ## The old directory path -/

theorem generateTasks_null_old (env : Environment) (cfg : Configuration) :
    generateTasks env { cfg with oldDirectoryPath := none }
      = (addedFilesList (QDir.entryInfoList env (QDir.new cfg.newDirectoryPath))).map
          (fun e => addTask Type_.Add e.1 e.2 "") := by
  unfold generateTasks
  simp only [Option.isNone_none, if_true]
  rw [dirList_eq_filter, compareDirectories_new_listing]
  apply List.map_congr_left
  intro e _
  simp

theorem generateTasks_emptyOldPath :
    generateTasks Scenario.workingDirectoryEnv Scenario.emptyOldPath
      = [addTask Type_.Patch "a.txt" "/srv/new/a.txt" "./a.txt"] := by
  have h1 : QString.compare "a.txt" "a.txt" = 0 := by decide
  have hn : QDir.entryInfoList Scenario.workingDirectoryEnv
      (QDir.new Scenario.emptyOldPath.newDirectoryPath)
        = [QFileInfo.mk "a.txt" "/srv/new/a.txt" FileKind.file []] := rfl
  have ho : QDir.entryInfoList Scenario.workingDirectoryEnv
      (QDir.new (Scenario.emptyOldPath.oldDirectoryPath.getD ""))
        = [QFileInfo.mk "a.txt" "./a.txt" FileKind.file []] := rfl
  have hnull : Scenario.emptyOldPath.oldDirectoryPath.isNone = false := rfl
  unfold generateTasks
  rw [hn, ho, hnull]
  simp [compareDirectories, dirList, dirListLoop, addTask, PackagerTask.new,
    isFile, isDir, kind, fileName, filePath, entryInfoList, h1]

theorem generate_ran (env : Environment) (cfg : Configuration) (m_tasks : List PackagerTask) :
    (generate env cfg m_tasks).ran = [] ∨ (generate env cfg m_tasks).ran
      = (generateTasks env cfg).map
          (fun task => { task with tmpDirectory := cfg.tmpDirectoryPath }) := by
  unfold generate
  split
  · exact Or.inl rfl
  · split
    · exact Or.inr rfl
    · exact Or.inr rfl

/-- C12, as stated, fails for an old directory path that is the empty string: the
comparison is skipped for a null path only (`isNull()`), and for the path `""` the old
listing is the listing of the working directory, so that with a file `a.txt` in the new
directory `/srv/new` and in the working directory, which holds nothing else, the one
task is `Patch a.txt`, not an `Add`.
With a null old directory path the task is `Add a.txt`, and every task of every run is
an `Add`. -/
theorem generate_empty_old_path :
    (generate Scenario.workingDirectoryEnv Scenario.emptyOldPath []).ran
        = [{ addTask Type_.Patch "a.txt" "/srv/new/a.txt" "./a.txt" with tmpDirectory := "/tmp" }]
      ∧ (generate Scenario.workingDirectoryEnv Scenario.nullOldPath []).ran
        = [{ addTask Type_.Add "a.txt" "/srv/new/a.txt" "" with tmpDirectory := "/tmp" }]
      ∧ (∀ (env : Environment) (cfg : Configuration) (m_tasks : List PackagerTask),
          ((generate env { cfg with oldDirectoryPath := none } m_tasks).ran).all
            (fun t => decide (t.type = Type_.Add)) = true) := by
  refine ⟨?_, ?_, ?_⟩
  · have hc : checkConfiguration Scenario.workingDirectoryEnv Scenario.emptyOldPath
        = (none, (checkConfiguration Scenario.workingDirectoryEnv
            Scenario.emptyOldPath).2) := rfl
    unfold generate
    rw [hc]
    simp only [generateTasks_emptyOldPath]
    split <;> rfl
  · have hc : checkConfiguration Scenario.workingDirectoryEnv Scenario.nullOldPath
        = (none, (checkConfiguration Scenario.workingDirectoryEnv
            Scenario.nullOldPath).2) := rfl
    have ht : generateTasks Scenario.workingDirectoryEnv Scenario.nullOldPath
        = [addTask Type_.Add "a.txt" "/srv/new/a.txt" ""] := by
      have := generateTasks_null_old Scenario.workingDirectoryEnv Scenario.nullOldPath
      exact this
    unfold generate
    rw [hc]
    simp only [ht]
    split <;> rfl
  · intro env cfg m_tasks
    rw [List.all_eq_true]
    intro t ht
    rcases generate_ran env { cfg with oldDirectoryPath := none } m_tasks with h | h
    · rw [h] at ht
      cases ht
    · rw [h, generateTasks_null_old] at ht
      simp only [List.map_map, List.mem_map] at ht
      obtain ⟨e, _, he⟩ := ht
      rw [← he]
      rfl

/-! ## A read error during the assembly -/

theorem copyLoop_brokenFile :
    copyLoop Scenario.brokenFile 0 Scenario.freshDelta
      = Except.ok { Scenario.freshDelta with bytes := [1, 2] } := by
  rw [copyLoop_unlimited _ Scenario.brokenFile 0 Scenario.freshDelta rfl rfl]
  rfl

theorem generateFinal_brokenFile :
    generateFinal Scenario.brokenFiles [Scenario.taskBroken] Scenario.freshDelta "2.0" "1.0"
      = Except.ok ({ Scenario.freshDelta with bytes := [1, 2] },
          { operations := [{ size := 4, offset := 0, dataFilename := "tmp/broken" }],
            package := { to_ := "2.0", from_ := "1.0", size := 4 } }) := by
  have hf : Scenario.brokenFiles "tmp/broken" = some Scenario.brokenFile := rfl
  have hw : wrapInt64 4 = 4 := by decide
  simp [generateFinal, assembleLoop, Scenario.taskBroken, PackagerTask.new, hf,
    copyLoop_brokenFile, hw, PackageMetadata.addOperation, PackageMetadata.empty,
    PackageMetadata.setPackage, Package.new]
  rfl

/-- C13, as stated, fails: the payload file `tmp/broken` has four bytes and its device
reports a read error after two of them (the read at position 2 returns `-1`). The copy
loop ends as at the end of the file: the run succeeds with the two bytes in the delta
file, and the operation is in the metadata with offset `0` and size `4`, which is also
the package size. -/
theorem generateFinal_read_error_ignored :
    (Scenario.brokenFile.read 2 bufferSize).1 = -1
      ∧ generateFinal Scenario.brokenFiles [Scenario.taskBroken] Scenario.freshDelta "2.0" "1.0"
        = Except.ok ({ Scenario.freshDelta with bytes := [1, 2] },
            { operations := [{ size := 4, offset := 0, dataFilename := "tmp/broken" }],
              package := { to_ := "2.0", from_ := "1.0", size := 4 } }) :=
  ⟨by decide, generateFinal_brokenFile⟩

/-- C6, as stated, fails: the payload of the one operation, the four bytes `[1, 2, 3, 4]`
of its data file `tmp/broken`, has as many bytes as the size `4` of the operation, and
the assembly succeeds with the operation recorded at offset `0` and size `4`. But the
device reports a read error after two bytes, and the delta stream is `[1, 2]`: it is not
the concatenation of the payloads, and its slice at the recorded offset and size is not
the payload of the operation. -/
theorem generateFinal_delta_truncated :
    ((payloadOf Scenario.brokenFiles
        { size := 4, offset := 0, dataFilename := "tmp/broken" }).length : Int) = 4
      ∧ ((operationsOf [Scenario.taskBroken]).filter (fun op => decide (op.size > 0))).flatMap
          (payloadOf Scenario.brokenFiles) = [1, 2, 3, 4]
      ∧ ∃ delta' metadata,
          generateFinal Scenario.brokenFiles [Scenario.taskBroken] Scenario.freshDelta
              "2.0" "1.0" = Except.ok (delta', metadata)
            ∧ metadata.operations = [{ size := 4, offset := 0, dataFilename := "tmp/broken" }]
            ∧ delta'.bytes = [1, 2]
            ∧ delta'.bytes
              ≠ ((operationsOf [Scenario.taskBroken]).filter
                  (fun op => decide (op.size > 0))).flatMap (payloadOf Scenario.brokenFiles)
            ∧ (delta'.bytes.drop 0).take 4
              ≠ payloadOf Scenario.brokenFiles
                  { size := 4, offset := 0, dataFilename := "tmp/broken" } := by
  have hp : payloadOf Scenario.brokenFiles
      { size := 4, offset := 0, dataFilename := "tmp/broken" } = [1, 2, 3, 4] := rfl
  have hall : ((operationsOf [Scenario.taskBroken]).filter
      (fun op => decide (op.size > 0))).flatMap (payloadOf Scenario.brokenFiles)
        = [1, 2, 3, 4] := by
    decide
  refine ⟨by rw [hp]; rfl, hall, _, _, generateFinal_brokenFile, rfl, rfl, ?_, ?_⟩
  · rw [hall]
    decide
  · rw [hp]
    decide

/-! ## A file removed under the name of a new directory -/

/-- C17, as stated, fails: the old listing holds the files `a.txt` and `data`, the new
listing the directory `data` with the file `f.txt`, both sorted by name. The pair `data`
gets one `RemoveFile data` and then `Add data/f.txt`, but before it the old file `a.txt`
is removed under the name of the new entry as well: `RemoveFile` is emitted twice at
`data`, and never at `a.txt`. -/
theorem compareDirectories_file_removed_twice :
    compareDirectories "" [Scenario.newDataDir] (Scenario.oldA ++ [Scenario.oldDataFile])
        = [ addTask Type_.RemoveFile "data" "" "", addTask Type_.RemoveFile "data" "" "",
            addTask Type_.Add "data/f.txt" "new/data/f.txt" "" ]
      ∧ ((compareDirectories "" [Scenario.newDataDir]
            (Scenario.oldA ++ [Scenario.oldDataFile])).filter
          (fun t => decide (t.type = Type_.RemoveFile ∧ t.path = "data"))).length = 2 := by
  have h1 : QString.compare "data" "a.txt" = 1 := by decide
  have h2 : QString.compare "data" "data" = 0 := by decide
  have h : compareDirectories "" [Scenario.newDataDir]
      (Scenario.oldA ++ [Scenario.oldDataFile])
        = [ addTask Type_.RemoveFile "data" "" "", addTask Type_.RemoveFile "data" "" "",
            addTask Type_.Add "data/f.txt" "new/data/f.txt" "" ] := by
    simp [compareDirectories, Scenario.newDataDir, Scenario.oldA, Scenario.oldDataFile,
      dirList, dirListLoop, addTask, PackagerTask.new, isFile, isDir, kind, fileName,
      filePath, entryInfoList, h1, h2]
  refine ⟨h, ?_⟩
  rw [h]
  decide

end Packager
